import Mathlib

/-!
# TuxedoCat: bit-scan primitives, material evaluation and the negamax search

A shallow embedding of `TuxedoCat/Utility.cpp` and `TuxedoCat/Engine.cpp`.

* `uint64_t` values are natural numbers; every operation that can leave the 64-bit range is
  followed by an explicit `% 2 ^ 64`, and a `uint64_t` parameter is reduced on entry.
* `int` scores are integers.  Every score the search produces is bounded by `1999999 + depth`
  in absolute value (lemma `negaValue_abs_le`), far inside the 32-bit range for the depths the
  engine allows, so no wrap-around is written on them.
* The board is a reference parameter that the search mutates in place; the embedding passes it
  through explicitly, together with the two process-wide variables `pv` and `nodeCount`.
* `MoveGenerator::GenerateMoves`, `MoveGenerator::IsSquareAttacked`, `Position::Make` and
  `Position::Unmake` are not part of the given sources; they are parameters (`Rules`).
-/

namespace TuxedoCat

/-! ## Types declared in the header -/

/-- Modelled from the spec: the enumeration `PieceColor` of the header (section 3, "Piece
color. One of WHITE, BLACK, NONE"). -/
inductive PieceColor where
  | WHITE
  | BLACK
  | NONE
  deriving DecidableEq

/-- Modelled from the spec: the enumeration `PieceRank` of the header (section 3). -/
inductive PieceRank where
  | PAWN
  | KNIGHT
  | BISHOP
  | ROOK
  | QUEEN
  | KING
  | NONE
  deriving DecidableEq

/-- Modelled from the spec: the enumeration `TimeControlType` of the header (section 6). -/
inductive TimeControlType where
  | CONVENTIONAL
  | INCREMENTAL
  | TIME_PER_MOVE
  deriving DecidableEq

/-- Modelled from the spec: the record `Board` of the header (section 3): twelve piece
bitboards, the two aggregates, side to move, castling flags, en-passant target and the two
counters.  The field names are the ones the sources use. -/
structure Board where
  WhitePawns : Nat
  WhiteKnights : Nat
  WhiteBishops : Nat
  WhiteRooks : Nat
  WhiteQueens : Nat
  WhiteKing : Nat
  BlackPawns : Nat
  BlackKnights : Nat
  BlackBishops : Nat
  BlackRooks : Nat
  BlackQueens : Nat
  BlackKing : Nat
  WhitePieces : Nat
  BlackPieces : Nat
  ColorToMove : PieceColor
  CastlingStatus : Nat
  EnPassantTarget : Nat
  HalfMoveCounter : Nat
  FullMoveCounter : Nat
  deriving DecidableEq

/-- Modelled from the spec: the record `Move` of the header (section 3). -/
structure Move where
  SourceLocation : Nat
  TargetLocation : Nat
  MoveColor : PieceColor
  MovingPiece : PieceRank
  CapturedPiece : PieceRank
  PromotedRank : PieceRank
  CastlingStatus : Nat
  CurrentEnPassant : Nat
  CurrentHalfMoves : Nat
  deriving DecidableEq

/-- Modelled from the spec: the record `TimeControl` of the header (section 6).  The three
numeric fields are taken to be 32-bit unsigned, like the locals of `NegaMaxRoot` they are
combined with. -/
structure TimeControl where
  type : TimeControlType
  movesPerControl : Nat
  remainingTime : Nat
  timeIncrement : Nat

/-- Modelled from the spec: the four operations of the move generator and of the position
module that the search calls and whose code is outside the given sources.  They are arbitrary
functions here; what a theorem needs of them is a hypothesis of that theorem. -/
structure Rules where
  GenerateMoves : Board → List Move
  IsSquareAttacked : Nat → Board → Bool
  Make : Board → Move → Board
  Unmake : Board → Move → Board

/-! ## Utility.cpp -/

/-- The constant `k1` of Utility.cpp. -/
def k1 : Nat := 0x5555555555555555

/-- The constant `k2` of Utility.cpp. -/
def k2 : Nat := 0x3333333333333333

/-- The constant `k4` of Utility.cpp. -/
def k4 : Nat := 0x0f0f0f0f0f0f0f0f

/-- The constant `kf` of Utility.cpp. -/
def kf : Nat := 0x0101010101010101

/-- The table `index64` of Utility.cpp. -/
def index64 : List Int := [
  0,  1, 48,  2, 57, 49, 28,  3,
  61, 58, 50, 42, 38, 29, 17,  4,
  62, 55, 59, 36, 53, 51, 43, 22,
  45, 39, 33, 30, 24, 18, 12,  5,
  63, 47, 56, 27, 60, 41, 37, 16,
  54, 35, 52, 21, 44, 32, 23, 11,
  46, 26, 40, 15, 34, 20, 31, 10,
  25, 14, 19,  9, 13,  8,  7,  6]

/-- The table `index64Reverse` of Utility.cpp. -/
def index64Reverse : List Int := [
  0, 47,  1, 56, 48, 27,  2, 60,
  57, 49, 41, 37, 28, 16,  3, 61,
  54, 58, 35, 52, 50, 42, 21, 44,
  38, 32, 29, 23, 17, 11,  4, 62,
  46, 55, 26, 59, 40, 36, 15, 53,
  34, 51, 20, 43, 31, 22, 10, 45,
  25, 39, 14, 33, 19, 30,  9, 24,
  13, 18,  8, 12,  7,  6,  5, 63]

/-- `Utility::GetLSB`.  `~bitmask` on 64 bits is `2 ^ 64 - 1 - bitmask`; the increment and the
multiplication wrap. -/
def GetLSB (bitmask : Nat) : Int :=
  let bitmask := bitmask % 2 ^ 64
  if bitmask = 0 then -1
  else
    let debruijn64 : Nat := 0x03F79D71B4CB0A89
    index64.getD
      ((((bitmask &&& (((2 ^ 64 - 1 - bitmask) + 1) % 2 ^ 64)) * debruijn64) % 2 ^ 64) >>> 58) 0

/-- `Utility::GetMSB`.  The right shifts and the ors stay inside 64 bits; the multiplication
wraps. -/
def GetMSB (bitmask : Nat) : Int :=
  let bitmask := bitmask % 2 ^ 64
  if bitmask = 0 then -1
  else
    let debruijn64 : Nat := 0x03F79D71B4CB0A89
    let bitmask := bitmask ||| (bitmask >>> 1)
    let bitmask := bitmask ||| (bitmask >>> 2)
    let bitmask := bitmask ||| (bitmask >>> 4)
    let bitmask := bitmask ||| (bitmask >>> 8)
    let bitmask := bitmask ||| (bitmask >>> 16)
    let bitmask := bitmask ||| (bitmask >>> 32)
    index64Reverse.getD (((bitmask * debruijn64) % 2 ^ 64) >>> 58) 0

/-- `Utility::PopCount`, each step in 64-bit wrap-around arithmetic. -/
def PopCount (bitmask : Nat) : Int :=
  let x := bitmask % 2 ^ 64
  let x := (x + 2 ^ 64 - (((x >>> 1) &&& k1) % 2 ^ 64)) % 2 ^ 64
  let x := ((x &&& k2) + ((x >>> 2) &&& k2)) % 2 ^ 64
  let x := ((x + (x >>> 4)) % 2 ^ 64) &&& k4
  let x := ((x * kf) % 2 ^ 64) >>> 56
  ((x : Nat) : Int)

/-- The loop of `Utility::GetFileFromLocation`: `todo` iterations are left, `index` is the loop
counter and `mask` the file mask it has reached. -/
def GetFileFromLocationLoop (location : Nat) : Nat → Nat → Nat → Char
  | 0, _, _ => ' '
  | todo + 1, index, mask =>
    if (mask &&& location) ≠ 0 then Char.ofNat (index + 97)
    else GetFileFromLocationLoop location todo (index + 1) ((mask <<< 1) % 2 ^ 64)

/-- `Utility::GetFileFromLocation`. -/
def GetFileFromLocation (location : Nat) : String :=
  String.singleton (GetFileFromLocationLoop (location % 2 ^ 64) 8 0 0x0101010101010101)

/-- The loop of `Utility::GetRankFromLocation`: `todo` iterations are left. -/
def GetRankFromLocationLoop (location : Nat) : Nat → Nat → Nat → Int
  | 0, index, _ => index
  | todo + 1, index, mask =>
    if (mask &&& location) ≠ 0 then index
    else GetRankFromLocationLoop location todo (index + 1) ((mask <<< 8) % 2 ^ 64)

/-- `Utility::GetRankFromLocation`: the loop runs `index` from 1 to 8 and leaves 9 when no rank
mask meets the location. -/
def GetRankFromLocation (location : Nat) : Int :=
  GetRankFromLocationLoop (location % 2 ^ 64) 8 1 0x00000000000000FF

/-- `Utility::GenerateXBoardNotation`. -/
def GenerateXBoardNotation (move : Move) : String :=
  let ss := GetFileFromLocation move.SourceLocation
    ++ toString (GetRankFromLocation move.SourceLocation)
    ++ GetFileFromLocation move.TargetLocation
    ++ toString (GetRankFromLocation move.TargetLocation)
  if move.PromotedRank ≠ PieceRank.NONE then
    if move.PromotedRank = PieceRank.KNIGHT then ss ++ "n"
    else if move.PromotedRank = PieceRank.BISHOP then ss ++ "b"
    else if move.PromotedRank = PieceRank.ROOK then ss ++ "r"
    else if move.PromotedRank = PieceRank.QUEEN then ss ++ "q"
    else ss
  else ss

/-- `std::isdigit` on a character of the basic character set. -/
def isdigit (c : Char) : Bool := decide (48 ≤ c.toNat ∧ c.toNat ≤ 57)

/-- `std::stoi` on a string whose first character is a decimal digit, the only kind of string
`GetSquareFromAlgebraic` passes to it: the value of the leading run of digits.  `none` stands
for the exceptions `std::invalid_argument` (no digit to convert) and `std::out_of_range` (the
value does not fit an `int`). -/
def stoi (str : List Char) : Option Int :=
  let digits := str.takeWhile isdigit
  if digits.length = 0 then none
  else
    let value : Nat := digits.foldl (fun v c => 10 * v + (c.toNat - 48)) 0
    if value ≤ 2147483647 then some (value : Int) else none

/-- `Utility::GetSquareFromAlgebraic` on a string of characters of the basic character set.
`algebraic[i]` at or past the end of the string reads the null character.  `none` stands for
an exception thrown by `std::stoi` and for a shift amount outside `0..63`, on which the shift
is undefined. -/
def GetSquareFromAlgebraic (algebraic : String) : Option Nat :=
  let rank : Int := 0
  let file : Int := ((algebraic.data.getD 0 (Char.ofNat 0)).toNat : Int)
  let file := file - 97
  let rank : Option Int :=
    if isdigit (algebraic.data.getD 1 (Char.ofNat 0)) = true then
      match stoi (algebraic.data.drop 1) with
      | some v => some (v - 1)
      | none => none
    else some rank
  match rank with
  | none => none
  | some rank =>
    let amount : Int := (rank * 8) + file
    if 0 ≤ amount ∧ amount < 64 then some ((0x0000000000000001 <<< amount.toNat) % 2 ^ 64)
    else none

/-- `std::string::substr(pos, len)`; `none` stands for the exception `std::out_of_range`,
thrown when `pos` is past the end of the string. -/
def substr (str : String) (pos len : Nat) : Option String :=
  if pos ≤ str.length then some (String.mk ((str.data.drop pos).take len)) else none

/-- Modelled from the spec: `operator==` on `Move`, declared outside the given sources: two
moves are equal when all their attributes are (section 3, "Move"). -/
def MoveEquals (a b : Move) : Bool := decide (a = b)

/-- The first part of `Utility::GetMoveFromXBoardNotation`, up to the call of the generator:
the move built from the string, each field holding the value the function assigns to it.
`move` is the indeterminate initial value of the local of that name, which `PromotedRank` and
`CapturedPiece` keep on the paths that do not assign them; `GetRankAt` is
`Position::GetRankAt`, which is outside the given sources.  `none` stands for an exception. -/
def BuildMoveFromXBoardNotation (GetRankAt : Board → Nat → PieceRank) (position : Board)
    (moveString : String) (move : Move) : Option Move :=
  match substr moveString 0 2 with
  | none => none
  | some sourceText =>
  match GetSquareFromAlgebraic sourceText with
  | none => none
  | some source =>
  match substr moveString 2 2 with
  | none => none
  | some targetText =>
  match GetSquareFromAlgebraic targetText with
  | none => none
  | some target =>
    let SourceLocation := source
    let TargetLocation := target
    let MoveColor := position.ColorToMove
    let CastlingStatus := position.CastlingStatus
    let CurrentEnPassant := position.EnPassantTarget
    let CurrentHalfMoves := position.HalfMoveCounter
    let MovingPiece := GetRankAt position SourceLocation
    let PromotedRank :=
      if moveString.length = 5 then
        if moveString.data.getD 4 (Char.ofNat 0) = 'q' then PieceRank.QUEEN
        else if moveString.data.getD 4 (Char.ofNat 0) = 'r' then PieceRank.ROOK
        else if moveString.data.getD 4 (Char.ofNat 0) = 'b' then PieceRank.BISHOP
        else if moveString.data.getD 4 (Char.ofNat 0) = 'n' then PieceRank.KNIGHT
        else move.PromotedRank
      else PieceRank.NONE
    let CapturedPiece :=
      if position.ColorToMove = PieceColor.WHITE then
        if MovingPiece = PieceRank.PAWN ∧ TargetLocation = position.EnPassantTarget then
          GetRankAt position ((TargetLocation >>> 8) &&& position.BlackPawns)
        else
          GetRankAt position (TargetLocation &&& position.BlackPieces)
      else if position.ColorToMove = PieceColor.BLACK then
        if MovingPiece = PieceRank.PAWN ∧ TargetLocation = position.EnPassantTarget then
          GetRankAt position (((TargetLocation <<< 8) % 2 ^ 64) &&& position.WhitePawns)
        else
          GetRankAt position (TargetLocation &&& position.WhitePieces)
      else move.CapturedPiece
    some
      { SourceLocation := SourceLocation, TargetLocation := TargetLocation,
        MoveColor := MoveColor, MovingPiece := MovingPiece, CapturedPiece := CapturedPiece,
        PromotedRank := PromotedRank, CastlingStatus := CastlingStatus,
        CurrentEnPassant := CurrentEnPassant, CurrentHalfMoves := CurrentHalfMoves }

/-- `Utility::GetMoveFromXBoardNotation`: the returned move and the board, which is a
reference parameter.  `none` stands for an exception. -/
def GetMoveFromXBoardNotation (R : Rules) (GetRankAt : Board → Nat → PieceRank)
    (position : Board) (moveString : String) (move : Move) : Option (Move × Board) :=
  match BuildMoveFromXBoardNotation GetRankAt position moveString move with
  | none => none
  | some move =>
    let legalMoves := R.GenerateMoves position
    let isLegalMove := legalMoves.any (fun it => MoveEquals move it)
    let move := if ¬ isLegalMove = true then { move with TargetLocation := 0 } else move
    some (move, position)

/-- The bitboard `pieces` that `Utility::GenerateSAN` selects for a move that is not a
castling move: the pieces of the moving rank and colour, and 0 for a king or a pawn. -/
def GenerateSANPieces (position : Board) (move : Move) : Nat :=
  let pieces : Nat := 0x0000000000000000
  if move.MovingPiece = PieceRank.KNIGHT then
    if move.MoveColor = PieceColor.WHITE then position.WhiteKnights else position.BlackKnights
  else if move.MovingPiece = PieceRank.BISHOP then
    if move.MoveColor = PieceColor.WHITE then position.WhiteBishops else position.BlackBishops
  else if move.MovingPiece = PieceRank.ROOK then
    if move.MoveColor = PieceColor.WHITE then position.WhiteRooks else position.BlackRooks
  else if move.MovingPiece = PieceRank.QUEEN then
    if move.MoveColor = PieceColor.WHITE then position.WhiteQueens else position.BlackQueens
  else pieces

/-- The moves `Utility::GenerateSAN` collects in `possibleMoves`: the moves of `allMoves` with
the moving piece, colour and target of `move` and another source. -/
def GenerateSANPossibleMoves (move : Move) (allMoves : List Move) : List Move :=
  allMoves.filter (fun it =>
    decide (it.MovingPiece = move.MovingPiece ∧ it.MoveColor = move.MoveColor
      ∧ it.TargetLocation = move.TargetLocation ∧ it.SourceLocation ≠ move.SourceLocation))

/-- The text `Utility::GenerateSAN` writes between the piece letter and the capture mark or
target square of a move that is not a pawn move and not a castling move. -/
def GenerateSANDisambiguation (position : Board) (move : Move) (allMoves : List Move) :
    String :=
  if PopCount (GenerateSANPieces position move) > 1 then
    let possibleMoves := GenerateSANPossibleMoves move allMoves
    if possibleMoves.length ≠ 0 then
      let conflictFile := possibleMoves.any (fun it =>
        decide (GetFileFromLocation it.SourceLocation = GetFileFromLocation move.SourceLocation))
      let conflictRank := possibleMoves.any (fun it =>
        decide (GetRankFromLocation it.SourceLocation = GetRankFromLocation move.SourceLocation))
      if ¬ conflictFile = true then GetFileFromLocation move.SourceLocation
      else if ¬ conflictRank = true then toString (GetRankFromLocation move.SourceLocation)
      else GetFileFromLocation move.SourceLocation
        ++ toString (GetRankFromLocation move.SourceLocation)
    else ""
  else ""

/-- The piece letter `Utility::GenerateSAN` writes first for a move that is not a pawn move,
and whether the move is a castling move. -/
def GenerateSANLetter (move : Move) : String × Bool :=
  if move.MovingPiece = PieceRank.KNIGHT then ("N", false)
  else if move.MovingPiece = PieceRank.BISHOP then ("B", false)
  else if move.MovingPiece = PieceRank.ROOK then ("R", false)
  else if move.MovingPiece = PieceRank.QUEEN then ("Q", false)
  else if move.MovingPiece = PieceRank.KING then
    if (move.SourceLocation = 0x0000000000000010 ∧ move.TargetLocation = 0x0000000000000004)
        ∨ (move.SourceLocation = 0x0000000000000010 ∧ move.TargetLocation = 0x0000000000000040)
        ∨ (move.SourceLocation = 0x1000000000000000 ∧ move.TargetLocation = 0x0400000000000000)
        ∨ (move.SourceLocation = 0x1000000000000000 ∧ move.TargetLocation = 0x4000000000000000)
    then ("", true)
    else ("K", false)
  else ("", false)

/-- `Utility::GenerateSAN`: the text and the board, which is a reference parameter that is
played on and taken back for the check mark. -/
def GenerateSAN (R : Rules) (position : Board) (move : Move) (allMoves : List Move) :
    String × Board :=
  let san : String :=
    if move.MovingPiece ≠ PieceRank.PAWN then
      let san := (GenerateSANLetter move).1
      let isCastle := (GenerateSANLetter move).2
      if ¬ isCastle = true then
        let san := san ++ GenerateSANDisambiguation position move allMoves
        let san := if move.CapturedPiece ≠ PieceRank.NONE then san ++ "x" else san
        let san := san ++ GetFileFromLocation move.TargetLocation
        san ++ toString (GetRankFromLocation move.TargetLocation)
      else
        if move.TargetLocation = 0x0000000000000040
            ∨ move.TargetLocation = 0x4000000000000000 then
          san ++ "0-0"
        else san ++ "0-0-0"
    else
      let san := ""
      let san :=
        if move.CapturedPiece ≠ PieceRank.NONE then
          san ++ GetFileFromLocation move.SourceLocation ++ "x"
        else san
      let san := san ++ GetFileFromLocation move.TargetLocation
      let san := san ++ toString (GetRankFromLocation move.TargetLocation)
      let san :=
        if move.TargetLocation = position.EnPassantTarget
            ∧ move.CapturedPiece ≠ PieceRank.NONE then
          san ++ "e.p"
        else san
      if move.PromotedRank ≠ PieceRank.NONE then
        let san := san ++ "="
        if move.PromotedRank = PieceRank.KNIGHT then san ++ "N"
        else if move.PromotedRank = PieceRank.BISHOP then san ++ "B"
        else if move.PromotedRank = PieceRank.ROOK then san ++ "R"
        else if move.PromotedRank = PieceRank.QUEEN then san ++ "Q"
        else san
      else san
  let position := R.Make position move
  let san :=
    if (move.MoveColor = PieceColor.WHITE
          ∧ R.IsSquareAttacked position.BlackKing position = true)
        ∨ (move.MoveColor = PieceColor.BLACK
          ∧ R.IsSquareAttacked position.WhiteKing position = true) then
      san ++ "+"
    else san
  let position := R.Unmake position move
  (san, position)

/-- `std::string::find` with a string argument: the first position at which `delimiter` occurs
in `str`, `none` for `npos`. -/
def find : List Char → List Char → Option Nat
  | [], delimiter => if delimiter = [] then some 0 else none
  | c :: str, delimiter =>
    if delimiter.isPrefixOf (c :: str) = true then some 0
    else (find str delimiter).map (fun i => i + 1)

/-- The `do ... while (!tmpStr.empty())` loop of `Utility::split`.  Every pass shortens
`tmpStr`, so `fuel` larger than its length is never used up; `none` stands for the exception
of `substr` with a position beyond the end (and for the unreachable `fuel = 0`). -/
def splitLoop (delimiter : List Char) : Nat → List Char → List String → Option (List String)
  | 0, _, _ => none
  | fuel + 1, tmpStr, result =>
    match find tmpStr delimiter with
    | some tmpIndex =>
      let result := result ++ [String.mk (tmpStr.take tmpIndex)]
      let tmpIndex := tmpIndex + 1
      if tmpIndex ≤ tmpStr.length then
        let tmpStr := tmpStr.drop tmpIndex
        if ¬ tmpStr.isEmpty = true then splitLoop delimiter fuel tmpStr result
        else some result
      else none
    | none =>
      let result := result ++ [String.mk tmpStr]
      some result

/-- `Utility::split`. -/
def split (str delimiter : String) : Option (List String) :=
  splitLoop delimiter.data (str.length + 1) str.data []

/-- `Utility::GetMaskFromRankOrFile`; the shifts stay inside 64 bits. -/
def GetMaskFromRankOrFile (rankorfile : Char) : Nat :=
  let result : Nat := 0
  let files := "abcdefgh"
  let ranks := "12345678"
  if rankorfile ∈ files.data then
    let result : Nat := 0x0101010101010101
    (result <<< (rankorfile.toNat - 97)) % 2 ^ 64
  else if rankorfile ∈ ranks.data then
    (result <<< ((rankorfile.toNat - 49) * 8)) % 2 ^ 64
  else result

/-! ## Engine.cpp -/

/-- `Engine::EvaluatePosition`.  The board is a reference parameter; it is returned next to the
score. -/
def EvaluatePosition (position : Board) : Int × Board :=
  let score : Int := 0
  let sideToMoveFactor : Int := if position.ColorToMove = PieceColor.WHITE then 1 else -1
  let score := score + (100 * (PopCount position.WhitePawns - PopCount position.BlackPawns))
  let score := score + (300 * (PopCount position.WhiteKnights - PopCount position.BlackKnights))
  let score := score + (300 * (PopCount position.WhiteBishops - PopCount position.BlackBishops))
  let score := score + (500 * (PopCount position.WhiteRooks - PopCount position.BlackRooks))
  let score := score + (900 * (PopCount position.WhiteQueens - PopCount position.BlackQueens))
  let score := score + (10000 * (PopCount position.WhiteKing - PopCount position.BlackKing))
  (score * sideToMoveFactor, position)

/-- The state the search works on: the board (`Board& position`) and the two process-wide
variables `pv` and `nodeCount`. -/
structure SearchState where
  position : Board
  pv : List String
  nodeCount : Nat

/-- The loop `for (count = 0; count < depth; count++) pvBackup.push_back(pv[count]);`. -/
def pvPush (depth : Nat) (pv pvBackup : List String) : List String :=
  (List.range depth).foldl (fun b count => b ++ [pv.getD count ""]) pvBackup

/-- The loop `for (count = 0; count < depth; count++) dst[count] = src[count];`. -/
def pvCopy (depth : Nat) (src dst : List String) : List String :=
  (List.range depth).foldl (fun d count => d.set count (src.getD count "")) dst

/-- The accumulator of the move loop of `Engine::NegaMax`: the locals `max` and `pvBackup` and
the search state. -/
structure NegaMaxAcc where
  max : Int
  pvBackup : List String
  st : SearchState

/-- The body of the move loop of `Engine::NegaMax` at remaining depth `depth`, for the move
`it`; `child` is the recursive call `NegaMax(position, depth - 1)`. -/
def NegaMaxStep (R : Rules) (depth : Nat) (child : SearchState → Int × SearchState)
    (acc : NegaMaxAcc) (it : Move) : NegaMaxAcc :=
  let st := acc.st
  let st := { st with position := R.Make st.position it }
  let st := { st with nodeCount := (st.nodeCount + 1) % 2 ^ 64 }
  let pvBackup := pvPush depth st.pv acc.pvBackup
  let r := child st
  let currentScore : Int := -r.1
  let st := r.2
  let st := { st with position := R.Unmake st.position it }
  if currentScore > acc.max then
    let pv := st.pv.set (depth - 1) (GenerateXBoardNotation it)
    let pvBackup := pvCopy depth pv pvBackup
    { max := currentScore, pvBackup := pvBackup, st := { st with pv := pv } }
  else
    let pv := pvCopy depth pvBackup st.pv
    { max := acc.max, pvBackup := pvBackup, st := { st with pv := pv } }

/-- `Engine::NegaMax`.  The remaining depth is a natural number: the search calls it with
`depth - 1` for `depth >= 1` only. -/
def NegaMax (R : Rules) : Nat → SearchState → Int × SearchState
  | 0, st =>
    let r := EvaluatePosition st.position
    (r.1, { st with position := r.2 })
  | depth + 1, st =>
    let max : Int := -1999999
    let availableMoves := R.GenerateMoves st.position
    let pvBackup : List String := List.replicate (depth + 1) ""
    if availableMoves.length > 0 then
      let acc := availableMoves.foldl (NegaMaxStep R (depth + 1) (NegaMax R depth))
        { max := max, pvBackup := pvBackup, st := st }
      (acc.max, acc.st)
    else if st.position.ColorToMove = PieceColor.WHITE
        ∧ ¬ R.IsSquareAttacked st.position.WhiteKing st.position = true then
      (0, st)
    else if st.position.ColorToMove = PieceColor.BLACK
        ∧ ¬ R.IsSquareAttacked st.position.BlackKing st.position = true then
      (0, st)
    else
      (max - ((depth + 1 : Nat) : Int), st)

/-- `Engine::Perft`; the count is a `uint64_t`.  Depths 0 and 1 both take the branch
`depth <= 1`. -/
def Perft (R : Rules) : Nat → Board → Nat × Board
  | 0, position => ((R.GenerateMoves position).length % 2 ^ 64, position)
  | depth + 1, position =>
    if depth + 1 ≤ 1 then ((R.GenerateMoves position).length % 2 ^ 64, position)
    else
      let availableMoves := R.GenerateMoves position
      availableMoves.foldl
        (fun (acc : Nat × Board) it =>
          let position := R.Make acc.2 it
          let r := Perft R depth position
          ((acc.1 + r.1) % 2 ^ 64, R.Unmake r.2 it))
        (0, position)

/-- The process-wide variables `NegaMaxRoot` reads besides `pv` and `nodeCount`:
`currentPosition`, `currentClock`, `randomMode` and `maxSearchDepth`. -/
structure Globals where
  currentPosition : Board
  currentClock : TimeControl
  randomMode : Bool
  maxSearchDepth : Int

/-- What `NegaMaxRoot` obtains from outside the program, indexed by the iteration depth: the
elapsed milliseconds read from the clock at the end of an iteration, the value the
floating-point estimate leaves in `timeRequiredForNextIteration`, and the draws
`dist(generator)` of the random source (iteration depth, then position of the move in the move
list). -/
structure Oracle where
  msecs : Nat → Nat
  timeRequiredForNextIteration : Nat → Nat
  dist : Nat → Nat → Int

/-- The search report line `depth max msecs/10 nodeCount pv...` written to standard output. -/
structure Report where
  depth : Nat
  score : Int
  centiseconds : Nat
  nodes : Nat
  line : List String

/-- A line `NegaMaxRoot` writes to standard output: a search report, or the line
`depth maxSearchDepth` written after `depth++`. -/
inductive OutputLine where
  | report (r : Report)
  | nextDepth (depth : Nat) (maxSearchDepth : Int)

/-- The computation of `availableTimeForThisMove` at the start of `Engine::NegaMaxRoot`, in
32-bit unsigned arithmetic; `none` is the integer division by zero. -/
def availableTimeForThisMove (currentClock : TimeControl) (currentPosition : Board) :
    Option Nat :=
  if currentClock.type = TimeControlType.CONVENTIONAL then
    let movesRemainingUntilNextTimeControl : Nat :=
      if currentClock.movesPerControl = 0 then 30
      else
        let m := (currentClock.movesPerControl + 2 ^ 32
          - (((currentPosition.FullMoveCounter + 2 ^ 32 - 1) % 2 ^ 32)
              % currentClock.movesPerControl)) % 2 ^ 32
        if m = 0 then 1 else m
    if movesRemainingUntilNextTimeControl / 2 = 0 then none
    else some (((currentClock.remainingTime + 2 ^ 32 - 100) % 2 ^ 32)
      / (movesRemainingUntilNextTimeControl / 2))
  else if currentClock.type = TimeControlType.INCREMENTAL then
    some (((((currentClock.remainingTime + 2 ^ 32 - 100) % 2 ^ 32) / 30)
      + ((currentClock.timeIncrement + 2 ^ 32 - 50) % 2 ^ 32)) % 2 ^ 32)
  else if currentClock.type = TimeControlType.TIME_PER_MOVE then
    some ((currentClock.remainingTime + 2 ^ 32 - 10) % 2 ^ 32)
  else some 0

/-- The accumulator of the move loop of `Engine::NegaMaxRoot`: the locals `max`, `bestMove` and
`pvBackup`, the search state, and the number of moves already tried. -/
structure RootAcc where
  max : Int
  bestMove : Move
  pvBackup : List String
  st : SearchState
  tried : Nat

/-- The body of the move loop of `Engine::NegaMaxRoot` in the iteration of depth `depth`, for
the move `it`. -/
def NegaMaxRootStep (R : Rules) (randomMode : Bool) (O : Oracle) (depth : Nat)
    (acc : RootAcc) (it : Move) : RootAcc :=
  let st := acc.st
  let st := { st with position := R.Make st.position it }
  let st := { st with nodeCount := (st.nodeCount + 1) % 2 ^ 64 }
  let pvBackup := pvPush depth st.pv acc.pvBackup
  let r := NegaMax R (depth - 1) st
  let currentScore : Int := -r.1
  let st := r.2
  let st := { st with position := R.Unmake st.position it }
  let currentScore : Int :=
    if randomMode = true then currentScore + O.dist depth acc.tried else currentScore
  if currentScore > acc.max then
    let pv := st.pv.set (depth - 1) (GenerateXBoardNotation it)
    let pvBackup := pvCopy depth pv pvBackup
    { max := currentScore, bestMove := it, pvBackup := pvBackup, st := { st with pv := pv },
      tried := acc.tried + 1 }
  else
    let pv := pvCopy depth pvBackup st.pv
    { max := acc.max, bestMove := acc.bestMove, pvBackup := pvBackup,
      st := { st with pv := pv }, tried := acc.tried + 1 }

/-- The locals of `Engine::NegaMaxRoot` that live across iterations, with the search state and
the lines written so far. -/
structure RootState where
  st : SearchState
  max : Int
  bestMove : Move
  leafNodesAtCurrentDepth : Nat
  output : List OutputLine

/-- One pass through the body of the `while (true)` loop of `Engine::NegaMaxRoot`, up to and
including the report line, at iteration depth `depth`. -/
def NegaMaxRootIteration (R : Rules) (G : Globals) (O : Oracle) (depth : Nat)
    (rs : RootState) : RootState :=
  let max : Int := -3000000
  let bestMove := { rs.bestMove with TargetLocation := 0 }
  let nodeCountAtPreviousDepth := rs.st.nodeCount
  let availableMoves := R.GenerateMoves rs.st.position
  let pvBackup : List String := List.replicate depth ""
  let pv := rs.st.pv ++ [""]
  let pv := (List.range depth).foldl (fun p count => p.set count "") pv
  let acc := availableMoves.foldl (NegaMaxRootStep R G.randomMode O depth)
    { max := max, bestMove := bestMove, pvBackup := pvBackup, st := { rs.st with pv := pv },
      tried := 0 }
  let leafNodesAtCurrentDepth :=
    ((acc.st.nodeCount + 2 ^ 64 - nodeCountAtPreviousDepth) % 2 ^ 64) % 2 ^ 32
  let msecs := O.msecs depth
  let line : Report :=
    { depth := depth, score := acc.max, centiseconds := msecs / 10, nodes := acc.st.nodeCount,
      line := acc.st.pv.reverse }
  { st := acc.st, max := acc.max, bestMove := acc.bestMove,
    leafNodesAtCurrentDepth := leafNodesAtCurrentDepth,
    output := rs.output ++ [OutputLine.report line] }

/-- The `while (true)` loop of `Engine::NegaMaxRoot`, entered at iteration depth `depth`.  It
returns the state after the last iteration together with the depth of that iteration.  `fuel`
bounds the iterations still to come; `NegaMaxRoot` passes enough of it for the branch
`fuel = 0` never to be taken (lemma `NegaMaxRootLoop_fuel`). -/
def NegaMaxRootLoop (R : Rules) (G : Globals) (O : Oracle) (availableTime : Nat) :
    Nat → Nat → RootState → RootState × Nat
  | fuel, depth, rs =>
    let rs := NegaMaxRootIteration R G O depth rs
    if O.msecs depth / 10 + O.timeRequiredForNextIteration depth ≥ availableTime then
      (rs, depth)
    else
      let rs := { rs with output := rs.output ++ [OutputLine.nextDepth (depth + 1)
        G.maxSearchDepth] }
      if ((depth + 1 : Nat) : Int) > G.maxSearchDepth then (rs, depth)
      else
        match fuel with
        | 0 => (rs, depth)
        | fuel + 1 => NegaMaxRootLoop R G O availableTime fuel (depth + 1) rs

/-- What `Engine::NegaMaxRoot` leaves behind: the returned move, the board, the process-wide
`pv` and `nodeCount`, the lines written to standard output, and the depth of the last
iteration it ran. -/
structure RootResult where
  bestMove : Move
  position : Board
  pv : List String
  nodeCount : Nat
  output : List OutputLine
  depth : Nat

/-- `Engine::NegaMaxRoot`.  `pv` is the content of the process-wide `pv` on entry and
`bestMove` the indeterminate initial value of the local of that name.  The result is `none`
when the computation of the time budget divides by zero. -/
def NegaMaxRoot (R : Rules) (G : Globals) (O : Oracle) (position : Board) (pv : List String)
    (bestMove : Move) : Option RootResult :=
  match availableTimeForThisMove G.currentClock G.currentPosition with
  | none => none
  | some availableTime =>
    let rs : RootState :=
      { st := { position := position, pv := pv, nodeCount := 0 }, max := 0,
        bestMove := bestMove, leafNodesAtCurrentDepth := 0, output := [] }
    let r := NegaMaxRootLoop R G O availableTime G.maxSearchDepth.toNat 1 rs
    some { bestMove := r.1.bestMove, position := r.1.st.position, pv := [],
           nodeCount := r.1.st.nodeCount, output := r.1.output, depth := r.2 }

/-- `Engine::IsGameOver`. -/
def IsGameOver (R : Rules) (position : Board) : Bool :=
  if (R.GenerateMoves position).length = 0 then true else false

/-- `Engine::GetGameResult`.  `currentPosition` is the process-wide board of that name, which
the attack tests read. -/
def GetGameResult (R : Rules) (currentPosition : Board) (position : Board) : String :=
  let result := ""
  if IsGameOver R position = true then
    if position.ColorToMove = PieceColor.BLACK
        ∧ R.IsSquareAttacked currentPosition.BlackKing currentPosition = true then
      "1-0 \x7bWhite mates\x7d"
    else if position.ColorToMove = PieceColor.WHITE
        ∧ R.IsSquareAttacked currentPosition.WhiteKing currentPosition = true then
      "0-1 \x7bBlack mates\x7d"
    else
      "1/2-1/2 \x7bStalemate\x7d"
  else result

/-! ## Auxiliary definitions used in the proofs -/

/-- The six shift-and-or steps of `GetMSB`, which copy the highest set bit into every lower
position. -/
def smear (bitmask : Nat) : Nat :=
  let bitmask := bitmask ||| (bitmask >>> 1)
  let bitmask := bitmask ||| (bitmask >>> 2)
  let bitmask := bitmask ||| (bitmask >>> 4)
  let bitmask := bitmask ||| (bitmask >>> 8)
  let bitmask := bitmask ||| (bitmask >>> 16)
  bitmask ||| (bitmask >>> 32)

/-- First step of `PopCount` without the reductions modulo `2 ^ 64`. -/
def swar1 (x : Nat) : Nat := x - ((x >>> 1) &&& k1)

/-- Second step of `PopCount` without the reduction modulo `2 ^ 64`. -/
def swar2 (x : Nat) : Nat := (x &&& k2) + ((x >>> 2) &&& k2)

/-- Third step of `PopCount` without the reduction modulo `2 ^ 64`. -/
def swar3 (x : Nat) : Nat := (x + (x >>> 4)) &&& k4

/-- The first three steps of `PopCount`: every byte of the result counts the bits of the same
byte of `x`. -/
def swarBytes (x : Nat) : Nat := swar3 (swar2 (swar1 x))

/-- The naive bit count: the sum over `i < n` of bit `i` of `m`. -/
def bitSum (n m : Nat) : Nat := ∑ i in Finset.range n, (m.testBit i).toNat

/-- The hypothesis under which the search is analysed: `Unmake` reverses `Make` for every
move the generator produces. -/
def Reversible (R : Rules) : Prop :=
  ∀ b m, m ∈ R.GenerateMoves b → R.Unmake (R.Make b m) m = b

/-- The value `Engine::NegaMax` computes when every `Unmake` restores the board: the score as
a function of the position alone. -/
def negaValue (R : Rules) : Nat → Board → Int
  | 0, b => (EvaluatePosition b).1
  | depth + 1, b =>
    if (R.GenerateMoves b).length > 0 then
      (R.GenerateMoves b).foldl
        (fun mx it => if -negaValue R depth (R.Make b it) > mx
          then -negaValue R depth (R.Make b it) else mx) (-1999999)
    else if b.ColorToMove = PieceColor.WHITE ∧ ¬ R.IsSquareAttacked b.WhiteKing b = true then 0
    else if b.ColorToMove = PieceColor.BLACK ∧ ¬ R.IsSquareAttacked b.BlackKing b = true then 0
    else -1999999 - ((depth + 1 : Nat) : Int)

/-- The score the root loop compares with `max` for the move `m`, tried as number `i` of the
iteration of depth `depth` from the board `b`, when every `Unmake` restores the board. -/
def rootScore (R : Rules) (randomMode : Bool) (O : Oracle) (depth : Nat) (b : Board)
    (i : Nat) (m : Move) : Int :=
  if randomMode = true then -negaValue R (depth - 1) (R.Make b m) + O.dist depth i
  else -negaValue R (depth - 1) (R.Make b m)

/-- The effect of one pass of the root move loop on `max`, `bestMove` and the number of moves
tried, for a score function `sc`. -/
def rootPureStep (sc : Nat → Move → Int) (acc : Int × Move × Nat) (it : Move) :
    Int × Move × Nat :=
  if sc acc.2.2 it > acc.1 then (sc acc.2.2 it, it, acc.2.2 + 1)
  else (acc.1, acc.2.1, acc.2.2 + 1)

/-- Sample position: White king a1 and pawn a2, Black king d3, rook h8 and
pawn a3, White to move (FEN `7r/8/8/8/8/p2k4/P7/K7 w - - 0 1`).  White has the single legal move
Ka1-b1, after which Rh8-h1 is checkmate. -/
def mateLine0 : Board :=
  { WhitePawns := 0x100, WhiteKnights := 0, WhiteBishops := 0, WhiteRooks := 0,
    WhiteQueens := 0, WhiteKing := 0x1,
    BlackPawns := 0x10000, BlackKnights := 0, BlackBishops := 0,
    BlackRooks := 0x8000000000000000, BlackQueens := 0, BlackKing := 0x80000,
    WhitePieces := 0x101, BlackPieces := 0x8000000000090000,
    ColorToMove := PieceColor.WHITE, CastlingStatus := 0, EnPassantTarget := 0,
    HalfMoveCounter := 0, FullMoveCounter := 1 }

/-- The move Ka1-b1 of the sample line. -/
def moveKb1 : Move :=
  { SourceLocation := 0x1, TargetLocation := 0x2, MoveColor := PieceColor.WHITE,
    MovingPiece := PieceRank.KING, CapturedPiece := PieceRank.NONE,
    PromotedRank := PieceRank.NONE, CastlingStatus := 0, CurrentEnPassant := 0,
    CurrentHalfMoves := 0 }

/-- The sample position after Ka1-b1, Black to move. -/
def mateLine1 : Board :=
  { mateLine0 with WhiteKing := 0x2, WhitePieces := 0x102, ColorToMove := PieceColor.BLACK,
                   HalfMoveCounter := 1 }

/-- The move Rh8-h1 of the sample line. -/
def moveRh1 : Move :=
  { SourceLocation := 0x8000000000000000, TargetLocation := 0x80,
    MoveColor := PieceColor.BLACK, MovingPiece := PieceRank.ROOK,
    CapturedPiece := PieceRank.NONE, PromotedRank := PieceRank.NONE, CastlingStatus := 0,
    CurrentEnPassant := 0, CurrentHalfMoves := 1 }

/-- The sample position after Ka1-b1 Rh8-h1: White to move is checkmated. -/
def mateLine2 : Board :=
  { mateLine1 with BlackRooks := 0x80, BlackPieces := 0x90080,
                   ColorToMove := PieceColor.WHITE, HalfMoveCounter := 2,
                   FullMoveCounter := 2 }

/-- The rules of chess restricted to the sample line: the generator gives Ka1-b1 in the first
position, Rh8-h1 in the second and nothing elsewhere; `Make` and `Unmake` step along the line;
a king is attacked in the final position only. -/
def mateLineRules : Rules :=
  { GenerateMoves := fun b =>
      if b = mateLine0 then [moveKb1] else if b = mateLine1 then [moveRh1] else [],
    IsSquareAttacked := fun _ b => decide (b = mateLine2),
    Make := fun b m =>
      if b = mateLine0 ∧ m = moveKb1 then mateLine1
      else if b = mateLine1 ∧ m = moveRh1 then mateLine2 else b,
    Unmake := fun b m =>
      if b = mateLine1 ∧ m = moveKb1 then mateLine0
      else if b = mateLine2 ∧ m = moveRh1 then mateLine1 else b }

/-- Sample engine settings: 500 ms per move, random mode off, at most three plies. -/
def sampleGlobals : Globals :=
  { currentPosition := mateLine0,
    currentClock := { type := TimeControlType.TIME_PER_MOVE, movesPerControl := 40,
                      remainingTime := 500, timeIncrement := 0 },
    randomMode := false, maxSearchDepth := 3 }

/-- Sample clock: every iteration ends after one millisecond, the estimate for the next one is
zero, and the random source always draws zero. -/
def sampleOracle : Oracle :=
  { msecs := fun _ => 1, timeRequiredForNextIteration := fun _ => 0, dist := fun _ _ => 0 }

/-- The clock `Engine::InitializeEngine` installs: conventional, 40 moves in 30000 ms. -/
def defaultClock : TimeControl :=
  { type := TimeControlType.CONVENTIONAL, movesPerControl := 40, remainingTime := 30000,
    timeIncrement := 0 }

/-- Sample position at move 40: the first position of the sample line with
`FullMoveCounter = 40`. -/
def move40Board : Board := { mateLine0 with FullMoveCounter := 40 }

/-- The number of legal move sequences of length `depth` from the position `p` (the leaf count
of the legal move tree), as an unbounded natural number: one sequence of length 0, and a
sequence of length `depth + 1` is a generated move followed by a sequence of length `depth`
from the position the move leads to. -/
def countSequences (R : Rules) : Nat → Board → Nat
  | 0, _ => 1
  | depth + 1, p =>
    ((R.GenerateMoves p).map (fun m => countSequences R depth (R.Make p m))).sum

/-- The number of nodes at plies 1 to `depth` of the legal move tree below `p`, as an
unbounded natural number: every generated move contributes its own node and the nodes below
it. -/
def countNodes (R : Rules) : Nat → Board → Nat
  | 0, _ => 0
  | depth + 1, p =>
    ((R.GenerateMoves p).map (fun m => 1 + countNodes R depth (R.Make p m))).sum

/-- A game in which every position has exactly two moves: a move adds one to
`HalfMoveCounter` and taking it back subtracts one. -/
def binaryRules : Rules :=
  { GenerateMoves := fun _ => [moveKb1, moveRh1],
    IsSquareAttacked := fun _ _ => false,
    Make := fun b _ => { b with HalfMoveCounter := b.HalfMoveCounter + 1 },
    Unmake := fun b _ => { b with HalfMoveCounter := b.HalfMoveCounter - 1 } }

/-- The side to move in `p` has no legal move and its king is attacked. -/
def Checkmated (R : Rules) (p : Board) : Prop :=
  R.GenerateMoves p = [] ∧
  ((p.ColorToMove = PieceColor.WHITE ∧ R.IsSquareAttacked p.WhiteKing p = true) ∨
   (p.ColorToMove = PieceColor.BLACK ∧ R.IsSquareAttacked p.BlackKing p = true))

/-- The state in which `NegaMaxRoot` enters its loop from the sample position. -/
def sampleRootState : RootState :=
  { st := { position := mateLine0, pv := [], nodeCount := 0 }, max := 0, bestMove := moveKb1,
    leafNodesAtCurrentDepth := 0, output := [] }

/-- The letter of file `i` (0 for the a-file). -/
def fileChar (i : Nat) : Char := Char.ofNat (97 + i)

/-- The digit of rank `j` (0 for the first rank). -/
def rankChar (j : Nat) : Char := Char.ofNat (49 + j)

/-- The letter `GenerateXBoardNotation` appends for a promotion: `n`, `b`, `r` or `q`, and
nothing for the other values of `PromotedRank`. -/
def promotionLetter : PieceRank → List Char
  | PieceRank.KNIGHT => ['n']
  | PieceRank.BISHOP => ['b']
  | PieceRank.ROOK => ['r']
  | PieceRank.QUEEN => ['q']
  | _ => []

/-- Sample move: a white pawn goes from e7 to e8 and becomes a queen. -/
def samplePromotion : Move :=
  { SourceLocation := 0x10000000000000, TargetLocation := 0x1000000000000000,
    MoveColor := PieceColor.WHITE, MovingPiece := PieceRank.PAWN,
    CapturedPiece := PieceRank.NONE, PromotedRank := PieceRank.QUEEN, CastlingStatus := 0,
    CurrentEnPassant := 0, CurrentHalfMoves := 0 }

/-- The text `text` is consistent with the square `location` as a SAN disambiguation: it is
empty, or the file of the square, or its rank, or its file followed by its rank. -/
def SANTextMatches (text : String) (location : Nat) : Prop :=
  text = "" ∨ text = GetFileFromLocation location
    ∨ text = toString (GetRankFromLocation location)
    ∨ text = GetFileFromLocation location ++ toString (GetRankFromLocation location)

/-- A sample position with white knights on b1 and f3, which can both move to d2. -/
def knightBoard : Board :=
  { WhitePawns := 0, WhiteKnights := 0x200002, WhiteBishops := 0, WhiteRooks := 0,
    WhiteQueens := 0, WhiteKing := 0x10,
    BlackPawns := 0, BlackKnights := 0, BlackBishops := 0,
    BlackRooks := 0, BlackQueens := 0, BlackKing := 0x1000000000000000,
    WhitePieces := 0x200012, BlackPieces := 0x1000000000000000,
    ColorToMove := PieceColor.WHITE, CastlingStatus := 0, EnPassantTarget := 0,
    HalfMoveCounter := 0, FullMoveCounter := 1 }

/-- The move Nb1-d2 in `knightBoard`. -/
def moveNbd2 : Move :=
  { SourceLocation := 0x2, TargetLocation := 0x800, MoveColor := PieceColor.WHITE,
    MovingPiece := PieceRank.KNIGHT, CapturedPiece := PieceRank.NONE,
    PromotedRank := PieceRank.NONE, CastlingStatus := 0,
    CurrentEnPassant := 0, CurrentHalfMoves := 0 }

/-- The move Nf3-d2 in `knightBoard`. -/
def moveNfd2 : Move :=
  { SourceLocation := 0x200000, TargetLocation := 0x800, MoveColor := PieceColor.WHITE,
    MovingPiece := PieceRank.KNIGHT, CapturedPiece := PieceRank.NONE,
    PromotedRank := PieceRank.NONE, CastlingStatus := 0,
    CurrentEnPassant := 0, CurrentHalfMoves := 0 }

/-- The depths of the search reports among the lines written, in the order written: one report
is written at the end of every iteration. -/
def reportDepths (output : List OutputLine) : List Nat :=
  output.filterMap (fun x =>
    match x with
    | OutputLine.report r => some r.depth
    | OutputLine.nextDepth _ _ => none)

/-- The principal variations of the search reports among the lines written, in the order
written; each is listed from the deepest slot to slot 0, as the report prints it. -/
def reportLines (output : List OutputLine) : List (List String) :=
  output.filterMap (fun x =>
    match x with
    | OutputLine.report r => some r.line
    | OutputLine.nextDepth _ _ => none)

/-- Sample position with a mate in one: White king g2 and rook a1, Black king e8, rooks d8 and
f8, pawns d7 and f7, White to move (FEN `3rkr2/3p1p2/8/8/8/8/6K1/R7 w - - 0 1`).  Ra1-e1 is
checkmate. -/
def pvSample0 : Board :=
  { WhitePawns := 0, WhiteKnights := 0, WhiteBishops := 0, WhiteRooks := 0x1,
    WhiteQueens := 0, WhiteKing := 0x4000,
    BlackPawns := 0x28000000000000, BlackKnights := 0, BlackBishops := 0,
    BlackRooks := 0x2800000000000000, BlackQueens := 0, BlackKing := 0x1000000000000000,
    WhitePieces := 0x4001, BlackPieces := 0x3828000000000000,
    ColorToMove := PieceColor.WHITE, CastlingStatus := 0, EnPassantTarget := 0,
    HalfMoveCounter := 0, FullMoveCounter := 1 }

/-- The move Kg2-g3 in `pvSample0`. -/
def moveKg3 : Move :=
  { SourceLocation := 0x4000, TargetLocation := 0x400000, MoveColor := PieceColor.WHITE,
    MovingPiece := PieceRank.KING, CapturedPiece := PieceRank.NONE,
    PromotedRank := PieceRank.NONE, CastlingStatus := 0,
    CurrentEnPassant := 0, CurrentHalfMoves := 0 }

/-- The position after Kg2-g3: Black to move. -/
def pvSampleQuiet : Board :=
  { pvSample0 with WhiteKing := 0x400000, WhitePieces := 0x400001,
                   ColorToMove := PieceColor.BLACK, HalfMoveCounter := 1 }

/-- The reply d7-d6 in `pvSampleQuiet`. -/
def movePd6 : Move :=
  { SourceLocation := 0x8000000000000, TargetLocation := 0x80000000000,
    MoveColor := PieceColor.BLACK, MovingPiece := PieceRank.PAWN,
    CapturedPiece := PieceRank.NONE, PromotedRank := PieceRank.NONE, CastlingStatus := 0,
    CurrentEnPassant := 0, CurrentHalfMoves := 1 }

/-- The position after Kg2-g3 d7-d6: White to move. -/
def pvSampleLeaf : Board :=
  { pvSampleQuiet with BlackPawns := 0x20080000000000, BlackPieces := 0x3820080000000000,
                       ColorToMove := PieceColor.WHITE, HalfMoveCounter := 0,
                       FullMoveCounter := 2 }

/-- The move Ra1-e1 in `pvSample0`. -/
def moveRe1 : Move :=
  { SourceLocation := 0x1, TargetLocation := 0x10, MoveColor := PieceColor.WHITE,
    MovingPiece := PieceRank.ROOK, CapturedPiece := PieceRank.NONE,
    PromotedRank := PieceRank.NONE, CastlingStatus := 0,
    CurrentEnPassant := 0, CurrentHalfMoves := 0 }

/-- The position after Ra1-e1: Black to move is checkmated. -/
def pvSampleMate : Board :=
  { pvSample0 with WhiteRooks := 0x10, WhitePieces := 0x4010,
                   ColorToMove := PieceColor.BLACK, HalfMoveCounter := 1 }

/-- The rules restricted to the sample: in `pvSample0` the generator lists Kg2-g3 and then
Ra1-e1, in `pvSampleQuiet` the reply d7-d6, and nothing elsewhere; only the king of the
checkmated position is attacked. -/
def pvSampleRules : Rules :=
  { GenerateMoves := fun b =>
      if b = pvSample0 then [moveKg3, moveRe1]
      else if b = pvSampleQuiet then [movePd6] else [],
    IsSquareAttacked := fun _ b => decide (b = pvSampleMate),
    Make := fun b m =>
      if b = pvSample0 ∧ m = moveKg3 then pvSampleQuiet
      else if b = pvSample0 ∧ m = moveRe1 then pvSampleMate
      else if b = pvSampleQuiet ∧ m = movePd6 then pvSampleLeaf else b,
    Unmake := fun b m =>
      if b = pvSampleQuiet ∧ m = moveKg3 then pvSample0
      else if b = pvSampleMate ∧ m = moveRe1 then pvSample0
      else if b = pvSampleLeaf ∧ m = movePd6 then pvSampleQuiet else b }

/-- Sample engine settings for the search from `pvSample0`: 500 ms per move, random mode off,
at most two plies. -/
def pvSampleGlobals : Globals :=
  { currentPosition := pvSample0,
    currentClock := { type := TimeControlType.TIME_PER_MOVE, movesPerControl := 40,
                      remainingTime := 500, timeIncrement := 0 },
    randomMode := false, maxSearchDepth := 2 }

/-! ## Bit-scan primitives -/

theorem land_compl_eq_zero (n x : Nat) (h : x < 2 ^ n) : x &&& (2 ^ n - (x + 1)) = 0 := by
  apply Nat.eq_of_testBit_eq
  intro i
  rw [Nat.testBit_and, Nat.testBit_two_pow_sub_succ h]
  cases Nat.testBit x i <;> simp

theorem land_eq_of_div_mod (a b : Nat) :
    a &&& b = 2 * (a / 2 &&& b / 2) + (if a % 2 = 1 ∧ b % 2 = 1 then 1 else 0) := by
  have h1 : (a &&& b) / 2 = a / 2 &&& b / 2 := Nat.and_div_two
  have h2 : (a &&& b) % 2 = 1 ↔ a % 2 = 1 ∧ b % 2 = 1 := Nat.and_mod_two_eq_one
  have h3 := Nat.div_add_mod (a &&& b) 2
  rw [h1] at h3
  by_cases hc : a % 2 = 1 ∧ b % 2 = 1
  · rw [if_pos hc]
    have := h2.mpr hc
    omega
  · rw [if_neg hc]
    have : ¬ (a &&& b) % 2 = 1 := fun h => hc (h2.mp h)
    omega

theorem isolate_lowest (n : Nat) : ∀ m : Nat, 0 < m → m < 2 ^ n →
    ∃ k, k < n ∧ m &&& (2 ^ n - m) = 2 ^ k ∧ m.testBit k = true ∧
      ∀ j, j < k → m.testBit j = false := by
  induction n with
  | zero => intro m h0 h1; simp at h1; omega
  | succ n ih =>
    intro m h0 h1
    have hp : 2 ^ (n + 1) = 2 * 2 ^ n := by rw [pow_succ]; ring
    by_cases hm : m % 2 = 1
    · refine ⟨0, by omega, ?_, ?_, ?_⟩
      · rw [land_eq_of_div_mod]
        have hb : (2 ^ (n + 1) - m) % 2 = 1 := by omega
        have hd : (2 ^ (n + 1) - m) / 2 = 2 ^ n - (m / 2 + 1) := by omega
        rw [hd, land_compl_eq_zero n (m / 2) (by omega), if_pos ⟨hm, hb⟩]
        rfl
      · simp [hm]
      · intro j hj; omega
    · have hm0 : m % 2 = 0 := by omega
      obtain ⟨k, hk, hand, hbit, hlow⟩ := ih (m / 2) (by omega) (by omega)
      refine ⟨k + 1, by omega, ?_, ?_, ?_⟩
      · rw [land_eq_of_div_mod]
        have hd : (2 ^ (n + 1) - m) / 2 = 2 ^ n - m / 2 := by omega
        rw [hd, hand, if_neg (by omega)]
        rw [pow_succ]; ring
      · rw [Nat.testBit_succ]; exact hbit
      · intro j hj
        cases j with
        | zero => simp [hm0]
        | succ j => rw [Nat.testBit_succ]; exact hlow j (by omega)

theorem index64_lookup : ∀ i : Fin 64,
    index64.getD ((((2 : Nat) ^ i.val * 0x03F79D71B4CB0A89) % 2 ^ 64) >>> 58) 0 = (i.val : Int) := by
  decide

theorem smear_step (m x w : Nat)
    (hx : ∀ i, x.testBit i = true ↔ ∃ d, d < w ∧ m.testBit (i + d) = true) :
    ∀ i, (x ||| (x >>> w)).testBit i = true ↔ ∃ d, d < 2 * w ∧ m.testBit (i + d) = true := by
  intro i
  rw [Nat.testBit_or, Nat.testBit_shiftRight, Bool.or_eq_true, hx, hx]
  constructor
  · rintro (⟨d, hd, h⟩ | ⟨d, hd, h⟩)
    · exact ⟨d, by omega, h⟩
    · exact ⟨w + d, by omega, by rw [← h]; congr 1; omega⟩
  · rintro ⟨d, hd, h⟩
    by_cases hlt : d < w
    · exact Or.inl ⟨d, hlt, h⟩
    · exact Or.inr ⟨d - w, by omega, by rw [← h]; congr 1; omega⟩

theorem smear_testBit (m : Nat) (i : Nat) :
    (smear m).testBit i = true ↔ ∃ d, d < 64 ∧ m.testBit (i + d) = true := by
  have h0 : ∀ i, m.testBit i = true ↔ ∃ d, d < 1 ∧ m.testBit (i + d) = true := by
    intro i
    constructor
    · intro h; exact ⟨0, by omega, h⟩
    · rintro ⟨d, hd, h⟩
      have : d = 0 := by omega
      subst this; exact h
  have h1 := smear_step m _ 1 h0
  have h2 := smear_step m _ 2 h1
  have h3 := smear_step m _ 4 h2
  have h4 := smear_step m _ 8 h3
  have h5 := smear_step m _ 16 h4
  have h6 := smear_step m _ 32 h5
  exact h6 i

theorem smear_eq (m L : Nat) (hL : L < 64) (hbit : m.testBit L = true)
    (hhigh : ∀ j, L < j → m.testBit j = false) : smear m = 2 ^ (L + 1) - 1 := by
  apply Nat.eq_of_testBit_eq
  intro i
  rw [Nat.testBit_two_pow_sub_one]
  by_cases hi : i < L + 1
  · rw [decide_eq_true hi, smear_testBit]
    exact ⟨L - i, by omega, by rw [← hbit]; congr 1; omega⟩
  · rw [decide_eq_false hi]
    cases hs : (smear m).testBit i with
    | false => rfl
    | true =>
      obtain ⟨d, _, h⟩ := (smear_testBit m i).mp hs
      rw [hhigh (i + d) (by omega)] at h
      exact absurd h (by simp)

theorem index64Reverse_lookup : ∀ i : Fin 64,
    index64Reverse.getD (((((2 : Nat) ^ (i.val + 1) - 1) * 0x03F79D71B4CB0A89) % 2 ^ 64) >>> 58) 0
      = (i.val : Int) := by
  decide

theorem land_split (a c y z : Nat) (ha : a < 256) (hc : c < 256) :
    (a + 256 * y) &&& (c + 256 * z) = (a &&& c) + 256 * (y &&& z) := by
  have hac : a &&& c < 2 ^ 8 := Nat.and_lt_two_pow a (by omega)
  have e1 : a + 256 * y = 2 ^ 8 * y + a := by omega
  have e2 : c + 256 * z = 2 ^ 8 * z + c := by omega
  have e3 : (a &&& c) + 256 * (y &&& z) = 2 ^ 8 * (y &&& z) + (a &&& c) := by omega
  rw [e1, e2, e3]
  apply Nat.eq_of_testBit_eq
  intro i
  rw [Nat.testBit_and, Nat.testBit_mul_pow_two_add y (by omega : a < 2 ^ 8),
    Nat.testBit_mul_pow_two_add z (by omega : c < 2 ^ 8),
    Nat.testBit_mul_pow_two_add (y &&& z) hac]
  by_cases h : i < 8 <;> simp [h]

theorem land_mod_of_lt (n a k : Nat) (ha : a < 2 ^ n) : a &&& k = a &&& (k % 2 ^ n) := by
  apply Nat.eq_of_testBit_eq
  intro i
  rw [Nat.testBit_and, Nat.testBit_and, Nat.testBit_mod_two_pow]
  by_cases h : i < n
  · simp [h]
  · have : a.testBit i = false :=
      Nat.testBit_lt_two_pow (lt_of_lt_of_le ha (Nat.pow_le_pow_right (by omega) (by omega)))
    simp [this]

theorem land_mod_le (n a k : Nat) : (a &&& k) % 2 ^ n ≤ k % 2 ^ n := by
  rw [← Nat.and_pow_two_sub_one_eq_mod, Nat.and_assoc, Nat.and_pow_two_sub_one_eq_mod]
  exact Nat.and_le_right


theorem land_mod_left (n a k : Nat) (hk : k < 2 ^ n) : a &&& k = (a % 2 ^ n) &&& k := by
  rw [Nat.and_comm a k, land_mod_of_lt n k a hk, Nat.and_comm]

theorem swar1_split (b y : Nat) (hb : b < 256) (hy : y < 2 ^ 56) :
    swar1 (b + 256 * y) = swar1 b + 256 * swar1 y := by
  unfold swar1
  simp only [Nat.shiftRight_eq_div_pow]
  have hk : k1 = 0x55 + 256 * 0x55555555555555 := by decide
  have hd : (b + 256 * y) / 2 ^ 1 = (b / 2 + 128 * (y % 2)) + 256 * (y / 2) := by omega
  have hlo : (b / 2 + 128 * (y % 2)) &&& 0x55 = (b / 2 ^ 1) &&& k1 := by
    rw [land_mod_left 7 _ 0x55 (by decide), land_mod_of_lt 8 (b / 2 ^ 1) k1 (by omega)]
    have : (b / 2 + 128 * (y % 2)) % 2 ^ 7 = b / 2 ^ 1 := by omega
    rw [this]
    rfl
  have hhi : (y / 2) &&& 0x55555555555555 = (y / 2 ^ 1) &&& k1 := by
    rw [land_mod_of_lt 56 (y / 2 ^ 1) k1 (by omega)]
    have : y / 2 = y / 2 ^ 1 := by omega
    rw [this]
    rfl
  have h1 : (b / 2 ^ 1) &&& k1 ≤ b / 2 ^ 1 := Nat.and_le_left
  have h2 : (y / 2 ^ 1) &&& k1 ≤ y / 2 ^ 1 := Nat.and_le_left
  rw [hd]
  nth_rewrite 1 [hk]
  rw [land_split _ _ _ _ (by omega) (by omega), hlo, hhi]
  generalize (b / 2 ^ 1) &&& k1 = A at *
  generalize (y / 2 ^ 1) &&& k1 = B at *
  omega

theorem swar1_le (x : Nat) : swar1 x ≤ x := by
  unfold swar1; omega

theorem swar2_split (c z : Nat) (hc : c < 256) (hz : z < 2 ^ 56) :
    swar2 (c + 256 * z) = swar2 c + 256 * swar2 z := by
  unfold swar2
  simp only [Nat.shiftRight_eq_div_pow]
  have hk : k2 = 0x33 + 256 * 0x33333333333333 := by decide
  have hd : (c + 256 * z) / 2 ^ 2 = (c / 4 + 64 * (z % 4)) + 256 * (z / 4) := by omega
  have hlo0 : c &&& 0x33 = c &&& k2 := by
    rw [land_mod_of_lt 8 c k2 (by omega)]; rfl
  have hhi0 : z &&& 0x33333333333333 = z &&& k2 := by
    rw [land_mod_of_lt 56 z k2 hz]; rfl
  have hlo : (c / 4 + 64 * (z % 4)) &&& 0x33 = (c / 2 ^ 2) &&& k2 := by
    rw [land_mod_left 6 _ 0x33 (by decide), land_mod_of_lt 8 (c / 2 ^ 2) k2 (by omega)]
    have : (c / 4 + 64 * (z % 4)) % 2 ^ 6 = c / 2 ^ 2 := by omega
    rw [this]
    rfl
  have hhi : (z / 4) &&& 0x33333333333333 = (z / 2 ^ 2) &&& k2 := by
    rw [land_mod_of_lt 56 (z / 2 ^ 2) k2 (by omega)]
    have : z / 4 = z / 2 ^ 2 := by omega
    rw [this]
    rfl
  rw [hd]
  nth_rewrite 1 [hk]
  nth_rewrite 1 [hk]
  rw [land_split _ _ _ _ hc (by omega), land_split _ _ _ _ (by omega) (by omega),
    hlo, hhi, hlo0, hhi0]
  omega

theorem swar2_le (n x : Nat) : swar2 x % 2 ^ n ≤ 2 * (k2 % 2 ^ n) := by
  unfold swar2
  have h1 := land_mod_le n x k2
  have h2 := land_mod_le n (x >>> 2) k2
  have h3 := Nat.add_mod (x &&& k2) ((x >>> 2) &&& k2) (2 ^ n)
  have h4 := Nat.mod_le ((x &&& k2) % 2 ^ n + ((x >>> 2) &&& k2) % 2 ^ n) (2 ^ n)
  omega

theorem swar2_le_of_lt (n x : Nat) (hx : x < 2 ^ n) : swar2 x ≤ 2 * (k2 % 2 ^ n) := by
  unfold swar2
  have hs : x >>> 2 < 2 ^ n := by
    rw [Nat.shiftRight_eq_div_pow]
    exact lt_of_le_of_lt (Nat.div_le_self x (2 ^ 2)) hx
  rw [land_mod_of_lt n x k2 hx, land_mod_of_lt n (x >>> 2) k2 hs]
  have h1 : x &&& (k2 % 2 ^ n) ≤ k2 % 2 ^ n := Nat.and_le_right
  have h2 : (x >>> 2) &&& (k2 % 2 ^ n) ≤ k2 % 2 ^ n := Nat.and_le_right
  omega

theorem swar3_split (e f : Nat) (he : e ≤ 0x66) (hf : f ≤ 0x66666666666666)
    (hf16 : f % 16 ≤ 6) :
    swar3 (e + 256 * f) = swar3 e + 256 * swar3 f := by
  unfold swar3
  simp only [Nat.shiftRight_eq_div_pow]
  have hk : k4 = 0x0f + 256 * 0x0f0f0f0f0f0f0f := by decide
  have hd : e + 256 * f + (e + 256 * f) / 2 ^ 4
      = (e + e / 16 + 16 * (f % 16)) + 256 * (f + f / 16) := by omega
  have hlo : (e + e / 16 + 16 * (f % 16)) &&& 0x0f = (e + e / 2 ^ 4) &&& k4 := by
    rw [land_mod_left 4 _ 0x0f (by decide), land_mod_of_lt 8 (e + e / 2 ^ 4) k4 (by omega),
      land_mod_left 4 (e + e / 2 ^ 4) _ (by decide)]
    have : (e + e / 16 + 16 * (f % 16)) % 2 ^ 4 = (e + e / 2 ^ 4) % 2 ^ 4 := by omega
    rw [this]
    rfl
  have hhi : (f + f / 16) &&& 0x0f0f0f0f0f0f0f = (f + f / 2 ^ 4) &&& k4 := by
    rw [land_mod_of_lt 56 (f + f / 2 ^ 4) k4 (by omega)]
    have : f / 16 = f / 2 ^ 4 := by omega
    rw [this]
    rfl
  rw [hd]
  nth_rewrite 1 [hk]
  rw [land_split _ _ _ _ (by omega) (by omega), hlo, hhi]

theorem swarBytes_split (b y : Nat) (hb : b < 256) (hy : y < 2 ^ 56) :
    swarBytes (b + 256 * y) = swarBytes b + 256 * swarBytes y := by
  unfold swarBytes
  have h1b := swar1_le b
  have h1y := swar1_le y
  rw [swar1_split b y hb hy, swar2_split _ _ (by omega) (by omega)]
  have h2b := swar2_le_of_lt 8 (swar1 b) (by omega)
  have h2y := swar2_le_of_lt 56 (swar1 y) (by omega)
  have h2z := swar2_le 4 (swar1 y)
  have e1 : k2 % 2 ^ 8 = 0x33 := by decide
  have e2 : k2 % 2 ^ 56 = 0x33333333333333 := by decide
  have e3 : k2 % 2 ^ 4 = 3 := by decide
  rw [e1] at h2b
  rw [e2] at h2y
  rw [e3] at h2z
  exact swar3_split _ _ (by omega) (by omega) (by omega)


theorem bitSum_succ (n m : Nat) : bitSum (n + 1) m = m % 2 + bitSum n (m / 2) := by
  unfold bitSum
  rw [Finset.sum_range_succ', Nat.add_comm]
  congr 1
  · rw [Nat.testBit_zero]
    rcases Nat.mod_two_eq_zero_or_one m with h | h <;> simp [h]
  · apply Finset.sum_congr rfl
    intro i _
    rw [Nat.testBit_succ]

theorem bitSum_zero (m : Nat) : bitSum 0 m = 0 := by
  simp [bitSum]

theorem bitSum_byte (n m : Nat) :
    bitSum (n + 8) m = bitSum 8 (m % 256) + bitSum n (m / 256) := by
  simp only [bitSum_succ, bitSum_zero]
  have e : m / 2 / 2 / 2 / 2 / 2 / 2 / 2 / 2 = m / 256 := by omega
  rw [e]
  omega

set_option maxRecDepth 100000 in
theorem swarBytes_byte : ∀ b : Fin 256,
    swarBytes b.val = b.val % 2 + (b.val / 2 % 2 + (b.val / 2 / 2 % 2 + (b.val / 2 / 2 / 2 % 2
      + (b.val / 2 / 2 / 2 / 2 % 2 + (b.val / 2 / 2 / 2 / 2 / 2 % 2
      + (b.val / 2 / 2 / 2 / 2 / 2 / 2 % 2 + (b.val / 2 / 2 / 2 / 2 / 2 / 2 / 2 % 2 + 0))))))) := by
  decide

theorem swarBytes_eq_bitSum (b : Nat) (hb : b < 256) : swarBytes b = bitSum 8 b := by
  simp only [bitSum_succ, bitSum_zero]
  exact swarBytes_byte ⟨b, hb⟩

theorem bitSum_le (n m : Nat) : bitSum n m ≤ n := by
  induction n generalizing m with
  | zero => simp [bitSum_zero]
  | succ n ih =>
    rw [bitSum_succ]
    have := ih (m / 2)
    omega


theorem PopCount_eq_swar (x : Nat) (hx : x < 2 ^ 64) :
    PopCount x = (((swarBytes x * kf) % 2 ^ 64) >>> 56 : Nat) := by
  unfold PopCount swarBytes
  simp only [Nat.mod_eq_of_lt hx]
  have h1 : (x + 2 ^ 64 - (((x >>> 1) &&& k1) % 2 ^ 64)) % 2 ^ 64 = swar1 x := by
    unfold swar1
    have ha : (x >>> 1) &&& k1 ≤ x >>> 1 := Nat.and_le_left
    have hb : x >>> 1 ≤ x := by
      rw [Nat.shiftRight_eq_div_pow]; exact Nat.div_le_self x _
    generalize (x >>> 1) &&& k1 = A at *
    omega
  have h2 : ∀ y, ((y &&& k2) + ((y >>> 2) &&& k2)) % 2 ^ 64 = swar2 y := by
    intro y
    unfold swar2
    have ha : y &&& k2 ≤ 0x3333333333333333 := Nat.and_le_right
    have hb : (y >>> 2) &&& k2 ≤ 0x3333333333333333 := Nat.and_le_right
    exact Nat.mod_eq_of_lt (by omega)
  have h3 : ∀ y, ((swar2 y + (swar2 y >>> 4)) % 2 ^ 64) &&& k4 = swar3 (swar2 y) := by
    intro y
    unfold swar3
    have ha : swar2 y ≤ 2 * k2 := by
      unfold swar2
      have ha : y &&& k2 ≤ k2 := Nat.and_le_right
      have hb : (y >>> 2) &&& k2 ≤ k2 := Nat.and_le_right
      omega
    have hk : k2 = 0x3333333333333333 := rfl
    rw [hk] at ha
    have hb : swar2 y >>> 4 ≤ swar2 y := by
      rw [Nat.shiftRight_eq_div_pow]; exact Nat.div_le_self _ _
    rw [Nat.mod_eq_of_lt (by omega)]
  simp only [h1, h2, h3]

theorem swarBytes_bytes (x : Nat) (hx : x < 2 ^ 64) :
    swarBytes x = bitSum 8 (x % 256) + 256 * (bitSum 8 (x / 256 % 256)
      + 256 * (bitSum 8 (x / 256 / 256 % 256) + 256 * (bitSum 8 (x / 256 / 256 / 256 % 256)
      + 256 * (bitSum 8 (x / 256 / 256 / 256 / 256 % 256)
      + 256 * (bitSum 8 (x / 256 / 256 / 256 / 256 / 256 % 256)
      + 256 * (bitSum 8 (x / 256 / 256 / 256 / 256 / 256 / 256 % 256)
      + 256 * bitSum 8 (x / 256 / 256 / 256 / 256 / 256 / 256 / 256 % 256))))))) := by
  have step : ∀ y, y < 2 ^ 64 →
      swarBytes y = bitSum 8 (y % 256) + 256 * swarBytes (y / 256) := by
    intro y hy
    have e : y = y % 256 + 256 * (y / 256) := by omega
    rw [← swarBytes_eq_bitSum (y % 256) (by omega),
      ← swarBytes_split (y % 256) (y / 256) (by omega) (by omega), ← e]
  rw [step x hx, step (x / 256) (by omega), step (x / 256 / 256) (by omega),
    step (x / 256 / 256 / 256) (by omega), step (x / 256 / 256 / 256 / 256) (by omega),
    step (x / 256 / 256 / 256 / 256 / 256) (by omega),
    step (x / 256 / 256 / 256 / 256 / 256 / 256) (by omega),
    step (x / 256 / 256 / 256 / 256 / 256 / 256 / 256) (by omega)]
  have e0 : x / 256 / 256 / 256 / 256 / 256 / 256 / 256 / 256 = 0 := by omega
  have z : swarBytes 0 = 0 := by decide
  rw [e0, z]
  omega

theorem bitSum_bytes (x : Nat) :
    bitSum 64 x = bitSum 8 (x % 256) + (bitSum 8 (x / 256 % 256)
      + (bitSum 8 (x / 256 / 256 % 256) + (bitSum 8 (x / 256 / 256 / 256 % 256)
      + (bitSum 8 (x / 256 / 256 / 256 / 256 % 256)
      + (bitSum 8 (x / 256 / 256 / 256 / 256 / 256 % 256)
      + (bitSum 8 (x / 256 / 256 / 256 / 256 / 256 / 256 % 256)
      + bitSum 8 (x / 256 / 256 / 256 / 256 / 256 / 256 / 256 % 256))))))) := by
  rw [bitSum_byte 56 x, bitSum_byte 48 (x / 256), bitSum_byte 40 (x / 256 / 256),
    bitSum_byte 32 (x / 256 / 256 / 256), bitSum_byte 24 (x / 256 / 256 / 256 / 256),
    bitSum_byte 16 (x / 256 / 256 / 256 / 256 / 256),
    bitSum_byte 8 (x / 256 / 256 / 256 / 256 / 256 / 256),
    bitSum_byte 0 (x / 256 / 256 / 256 / 256 / 256 / 256 / 256), bitSum_zero]
  omega

theorem fold_bytes (c0 c1 c2 c3 c4 c5 c6 c7 : Nat) (h0 : c0 ≤ 8) (h1 : c1 ≤ 8) (h2 : c2 ≤ 8)
    (h3 : c3 ≤ 8) (h4 : c4 ≤ 8) (h5 : c5 ≤ 8) (h6 : c6 ≤ 8) (h7 : c7 ≤ 8) :
    (((c0 + 256 * (c1 + 256 * (c2 + 256 * (c3 + 256 * (c4 + 256 * (c5 + 256 * (c6 + 256 * c7)))))))
      * kf) % 2 ^ 64) >>> 56 = c0 + (c1 + (c2 + (c3 + (c4 + (c5 + (c6 + c7)))))) := by
  rw [Nat.shiftRight_eq_div_pow]
  have hk : kf = 0x0101010101010101 := rfl
  rw [hk]
  have key : (c0 + 256 * (c1 + 256 * (c2 + 256 * (c3 + 256 * (c4 + 256 * (c5 + 256 * (c6
      + 256 * c7))))))) * 0x0101010101010101
      = 2 ^ 64 * ((c1 + c2 + c3 + c4 + c5 + c6 + c7)
          + 256 * ((c2 + c3 + c4 + c5 + c6 + c7) + 256 * ((c3 + c4 + c5 + c6 + c7)
          + 256 * ((c4 + c5 + c6 + c7) + 256 * ((c5 + c6 + c7) + 256 * ((c6 + c7) + 256 * c7))))))
        + (c0 + 256 * ((c0 + c1) + 256 * ((c0 + c1 + c2) + 256 * ((c0 + c1 + c2 + c3)
          + 256 * ((c0 + c1 + c2 + c3 + c4) + 256 * ((c0 + c1 + c2 + c3 + c4 + c5)
          + 256 * ((c0 + c1 + c2 + c3 + c4 + c5 + c6)
          + 256 * (c0 + c1 + c2 + c3 + c4 + c5 + c6 + c7)))))))) := by
    ring
  rw [key, Nat.mul_add_mod, Nat.mod_eq_of_lt (by omega)]
  omega

theorem PopCount_eq_bitSum_of_lt (x : Nat) (hx : x < 2 ^ 64) :
    PopCount x = (bitSum 64 x : Int) := by
  rw [PopCount_eq_swar x hx, swarBytes_bytes x hx, bitSum_bytes x,
    fold_bytes _ _ _ _ _ _ _ _ (bitSum_le 8 _) (bitSum_le 8 _) (bitSum_le 8 _) (bitSum_le 8 _)
      (bitSum_le 8 _) (bitSum_le 8 _) (bitSum_le 8 _) (bitSum_le 8 _)]

theorem bitSum_mod (n m : Nat) : bitSum n (m % 2 ^ n) = bitSum n m := by
  unfold bitSum
  apply Finset.sum_congr rfl
  intro i hi
  rw [Nat.testBit_mod_two_pow]
  simp [Finset.mem_range.mp hi]

/-- `PopCount` is the naive count of the low 64 bits, whatever natural number it is given. -/
theorem PopCount_eq_bitSum (x : Nat) : PopCount x = (bitSum 64 x : Int) := by
  have h : PopCount x = PopCount (x % 2 ^ 64) := by
    unfold PopCount
    simp only [Nat.mod_mod]
  rw [h, PopCount_eq_bitSum_of_lt _ (Nat.mod_lt _ (by norm_num)), bitSum_mod]

theorem PopCount_nonneg (x : Nat) : 0 ≤ PopCount x := by
  rw [PopCount_eq_bitSum]; exact Int.natCast_nonneg _

theorem PopCount_le (x : Nat) : PopCount x ≤ 64 := by
  rw [PopCount_eq_bitSum]
  have := bitSum_le 64 x
  omega

/-- C1. For every 64-bit mask `m`, `GetMSB m` is `-1` when `m = 0`, and otherwise it is the
index `i < 64` of the highest set bit: bit `i` of `m` is set and no bit above `i` is set. -/
theorem GetMSB_highest_set_bit (m : Nat) (hm : m < 2 ^ 64) :
    (m = 0 → GetMSB m = -1) ∧
    (m ≠ 0 → ∃ i : Nat, GetMSB m = (i : Int) ∧ i < 64 ∧ m.testBit i = true ∧
      ∀ j, i < j → m.testBit j = false) := by
  constructor
  · intro h0
    subst h0
    rfl
  · intro h0
    obtain ⟨L, hbit, hhigh⟩ := Nat.exists_most_significant_bit h0
    have hL : L < 64 := by
      by_contra hge
      have := Nat.testBit_lt_two_pow (x := m) (i := L)
        (lt_of_lt_of_le hm (Nat.pow_le_pow_right (by omega) (by omega)))
      rw [this] at hbit
      exact absurd hbit (by simp)
    refine ⟨L, ?_, hL, hbit, hhigh⟩
    have hs := smear_eq m L hL hbit hhigh
    unfold GetMSB
    simp only [Nat.mod_eq_of_lt hm]
    rw [if_neg h0]
    unfold smear at hs
    simp only [hs]
    exact index64Reverse_lookup ⟨L, hL⟩

/-- Witness for C1 at the mask of the unit test: `GetMSB 0x0001000000010101 = 48`. -/
theorem GetMSB_highest_set_bit_witness :
    (0x0001000000010101 : Nat) < 2 ^ 64 ∧ GetMSB 0x0001000000010101 = 48 ∧
    ((0x0001000000010101 : Nat) = 0 → GetMSB 0x0001000000010101 = -1) ∧
    ((0x0001000000010101 : Nat) ≠ 0 → ∃ i : Nat, GetMSB 0x0001000000010101 = (i : Int) ∧
      i < 64 ∧ (0x0001000000010101 : Nat).testBit i = true ∧
      ∀ j, i < j → (0x0001000000010101 : Nat).testBit j = false) :=
  ⟨by decide, by decide, GetMSB_highest_set_bit 0x0001000000010101 (by decide)⟩

/-- C2. For every 64-bit mask `m`, `GetLSB m` is `-1` when `m = 0`, and otherwise it is the
index `i < 64` of the lowest set bit: bit `i` of `m` is set and no bit below `i` is set. -/
theorem GetLSB_lowest_set_bit (m : Nat) (hm : m < 2 ^ 64) :
    (m = 0 → GetLSB m = -1) ∧
    (m ≠ 0 → ∃ i : Nat, GetLSB m = (i : Int) ∧ i < 64 ∧ m.testBit i = true ∧
      ∀ j, j < i → m.testBit j = false) := by
  constructor
  · intro h0
    subst h0
    rfl
  · intro h0
    obtain ⟨k, hk, hand, hbit, hlow⟩ := isolate_lowest 64 m (by omega) hm
    refine ⟨k, ?_, hk, hbit, hlow⟩
    have hneg : (2 ^ 64 - 1 - m + 1) % 2 ^ 64 = 2 ^ 64 - m := by omega
    unfold GetLSB
    simp only [Nat.mod_eq_of_lt hm]
    rw [if_neg h0]
    simp only [hneg, hand]
    exact index64_lookup ⟨k, hk⟩

/-- Witness for C2 at the mask of scenario S3: `GetLSB 0x80 = 7`. -/
theorem GetLSB_lowest_set_bit_witness :
    (0x80 : Nat) < 2 ^ 64 ∧ GetLSB 0x80 = 7 ∧
    ((0x80 : Nat) = 0 → GetLSB 0x80 = -1) ∧
    ((0x80 : Nat) ≠ 0 → ∃ i : Nat, GetLSB 0x80 = (i : Int) ∧
      i < 64 ∧ (0x80 : Nat).testBit i = true ∧
      ∀ j, j < i → (0x80 : Nat).testBit j = false) :=
  ⟨by decide, by decide, GetLSB_lowest_set_bit 0x80 (by decide)⟩

/-- C3. For every 64-bit mask `m`, `PopCount m`, computed with the SWAR steps in 64-bit
wrap-around arithmetic, is the sum over `i < 64` of bit `i` of `m`, a value between 0 and 64. -/
theorem PopCount_naive (m : Nat) (hm : m < 2 ^ 64) :
    PopCount m = ((∑ i in Finset.range 64, (m.testBit i).toNat : Nat) : Int) ∧
    0 ≤ PopCount m ∧ PopCount m ≤ 64 :=
  ⟨PopCount_eq_bitSum_of_lt m hm, PopCount_nonneg m, PopCount_le m⟩

/-- Witness for C3 at the full mask, whose 64 bits are all set. -/
theorem PopCount_naive_witness :
    (0xFFFFFFFFFFFFFFFF : Nat) < 2 ^ 64 ∧ PopCount 0xFFFFFFFFFFFFFFFF = 64 ∧
    (PopCount 0xFFFFFFFFFFFFFFFF
      = ((∑ i in Finset.range 64, ((0xFFFFFFFFFFFFFFFF : Nat).testBit i).toNat : Nat) : Int) ∧
    0 ≤ PopCount 0xFFFFFFFFFFFFFFFF ∧ PopCount 0xFFFFFFFFFFFFFFFF ≤ 64) :=
  ⟨by decide, by decide, PopCount_naive 0xFFFFFFFFFFFFFFFF (by decide)⟩

/-! ## Material evaluation -/

/-- The material balance of a board, White minus Black, with the piece values of
`EvaluatePosition` and the naive bit count of each bitboard. -/
theorem EvaluatePosition_eq (p : Board) :
    (EvaluatePosition p).1
      = (if p.ColorToMove = PieceColor.WHITE then 1 else -1)
        * (100 * ((bitSum 64 p.WhitePawns : Int) - (bitSum 64 p.BlackPawns : Int))
          + 300 * ((bitSum 64 p.WhiteKnights : Int) - (bitSum 64 p.BlackKnights : Int))
          + 300 * ((bitSum 64 p.WhiteBishops : Int) - (bitSum 64 p.BlackBishops : Int))
          + 500 * ((bitSum 64 p.WhiteRooks : Int) - (bitSum 64 p.BlackRooks : Int))
          + 900 * ((bitSum 64 p.WhiteQueens : Int) - (bitSum 64 p.BlackQueens : Int))
          + 10000 * ((bitSum 64 p.WhiteKing : Int) - (bitSum 64 p.BlackKing : Int))) := by
  unfold EvaluatePosition
  simp only [PopCount_eq_bitSum]
  ring

/-- The static evaluation is at most `64 * 12100 = 774400` in absolute value. -/
theorem EvaluatePosition_abs_le (p : Board) :
    -774400 ≤ (EvaluatePosition p).1 ∧ (EvaluatePosition p).1 ≤ 774400 := by
  rw [EvaluatePosition_eq]
  have a1 := bitSum_le 64 p.WhitePawns
  have a2 := bitSum_le 64 p.WhiteKnights
  have a3 := bitSum_le 64 p.WhiteBishops
  have a4 := bitSum_le 64 p.WhiteRooks
  have a5 := bitSum_le 64 p.WhiteQueens
  have a6 := bitSum_le 64 p.WhiteKing
  have b1 := bitSum_le 64 p.BlackPawns
  have b2 := bitSum_le 64 p.BlackKnights
  have b3 := bitSum_le 64 p.BlackBishops
  have b4 := bitSum_le 64 p.BlackRooks
  have b5 := bitSum_le 64 p.BlackQueens
  have b6 := bitSum_le 64 p.BlackKing
  split <;> omega

/-- C4. For every board, `EvaluatePosition` returns `s * (100*(wP-bP) + 300*(wN-bN)
+ 300*(wB-bB) + 500*(wR-bR) + 900*(wQ-bQ) + 10000*(wK-bK))`, where each term is the bit count
of the corresponding bitboard and `s` is `+1` when White is to move and `-1` otherwise.  The
right-hand side mentions the twelve piece bitboards and `ColorToMove` only, and the board is
handed back unchanged. -/
theorem EvaluatePosition_material (p : Board) :
    (EvaluatePosition p).1
      = (if p.ColorToMove = PieceColor.WHITE then 1 else -1)
        * (100 * ((bitSum 64 p.WhitePawns : Int) - (bitSum 64 p.BlackPawns : Int))
          + 300 * ((bitSum 64 p.WhiteKnights : Int) - (bitSum 64 p.BlackKnights : Int))
          + 300 * ((bitSum 64 p.WhiteBishops : Int) - (bitSum 64 p.BlackBishops : Int))
          + 500 * ((bitSum 64 p.WhiteRooks : Int) - (bitSum 64 p.BlackRooks : Int))
          + 900 * ((bitSum 64 p.WhiteQueens : Int) - (bitSum 64 p.BlackQueens : Int))
          + 10000 * ((bitSum 64 p.WhiteKing : Int) - (bitSum 64 p.BlackKing : Int)))
    ∧ (EvaluatePosition p).2 = p :=
  ⟨EvaluatePosition_eq p, rfl⟩

/-- C5. Static evaluation symmetry: with White to move, the evaluation of `p` is the negation
of the evaluation of `p` with `ColorToMove` set to `BLACK` and every bitboard unchanged. -/
theorem EvaluatePosition_symmetry (p : Board) (h : p.ColorToMove = PieceColor.WHITE) :
    (EvaluatePosition p).1
      = -(EvaluatePosition { p with ColorToMove := PieceColor.BLACK }).1 := by
  rw [EvaluatePosition_eq, EvaluatePosition_eq]
  simp only [h]
  simp

/-! ## The search -/

theorem NegaMaxStep_spec (R : Rules) (depth : Nat) (child : SearchState → Int × SearchState)
    (val : Board → Int)
    (hchild : ∀ st, (child st).2.position = st.position ∧ (child st).1 = val st.position)
    (acc : NegaMaxAcc) (it : Move)
    (hrev : R.Unmake (R.Make acc.st.position it) it = acc.st.position) :
    (NegaMaxStep R depth child acc it).st.position = acc.st.position ∧
    (NegaMaxStep R depth child acc it).max
      = (if -val (R.Make acc.st.position it) > acc.max
          then -val (R.Make acc.st.position it) else acc.max) := by
  unfold NegaMaxStep
  simp only []
  have h := hchild
    { position := R.Make acc.st.position it, pv := acc.st.pv,
      nodeCount := (acc.st.nodeCount + 1) % 2 ^ 64 }
  simp only [] at h
  rw [h.1, h.2, hrev]
  split <;> simp

theorem NegaMax_fold_spec (R : Rules) (depth : Nat) (child : SearchState → Int × SearchState)
    (val : Board → Int)
    (hchild : ∀ st, (child st).2.position = st.position ∧ (child st).1 = val st.position)
    (b : Board) (l : List Move) (hl : ∀ m ∈ l, R.Unmake (R.Make b m) m = b) :
    ∀ acc : NegaMaxAcc, acc.st.position = b →
      (l.foldl (NegaMaxStep R depth child) acc).st.position = b ∧
      (l.foldl (NegaMaxStep R depth child) acc).max
        = l.foldl (fun mx it => if -val (R.Make b it) > mx then -val (R.Make b it) else mx)
            acc.max := by
  induction l with
  | nil => intro acc hacc; exact ⟨hacc, rfl⟩
  | cons m t ih =>
    intro acc hacc
    have hm : R.Unmake (R.Make acc.st.position m) m = acc.st.position := by
      rw [hacc]; exact hl m (List.mem_cons_self m t)
    have hs := NegaMaxStep_spec R depth child val hchild acc m hm
    have ht := ih (fun x hx => hl x (List.mem_cons_of_mem m hx))
      (NegaMaxStep R depth child acc m) (by rw [hs.1, hacc])
    rw [List.foldl_cons, List.foldl_cons]
    refine ⟨ht.1, ?_⟩
    rw [ht.2, hs.2, hacc]

theorem NegaMax_spec (R : Rules) (hrev : Reversible R) :
    ∀ depth st, (NegaMax R depth st).2.position = st.position ∧
      (NegaMax R depth st).1 = negaValue R depth st.position := by
  intro depth
  induction depth with
  | zero =>
    intro st
    exact ⟨rfl, rfl⟩
  | succ d ih =>
    intro st
    have hf := NegaMax_fold_spec R (d + 1) (NegaMax R d) (negaValue R d) ih st.position
      (R.GenerateMoves st.position) (fun m hm => hrev st.position m hm)
      { max := -1999999, pvBackup := List.replicate (d + 1) "", st := st } rfl
    unfold NegaMax negaValue
    simp only []
    split
    · exact ⟨hf.1, hf.2⟩
    · split
      · exact ⟨rfl, rfl⟩
      · split
        · exact ⟨rfl, rfl⟩
        · exact ⟨rfl, rfl⟩


theorem foldl_max_bounds (f : Move → Int) (lo hi : Int) (l : List Move)
    (hf : ∀ m ∈ l, f m ≤ hi) :
    ∀ init : Int, lo ≤ init → init ≤ hi →
      lo ≤ l.foldl (fun mx it => if f it > mx then f it else mx) init ∧
      l.foldl (fun mx it => if f it > mx then f it else mx) init ≤ hi := by
  induction l with
  | nil => intro init h1 h2; exact ⟨h1, h2⟩
  | cons m t ih =>
    intro init h1 h2
    rw [List.foldl_cons]
    have hm := hf m (List.mem_cons_self m t)
    apply ih (fun x hx => hf x (List.mem_cons_of_mem m hx))
    · split <;> omega
    · split <;> omega

/-- Every value of the search is at most `1999999 + depth` in absolute value. -/
theorem negaValue_abs_le (R : Rules) :
    ∀ (depth : Nat) (b : Board), -1999999 - (depth : Int) ≤ negaValue R depth b ∧
      negaValue R depth b ≤ 1999999 + (depth : Int) := by
  intro depth
  induction depth with
  | zero =>
    intro b
    have h := EvaluatePosition_abs_le b
    unfold negaValue
    constructor <;> simp <;> omega
  | succ d ih =>
    intro b
    unfold negaValue
    split
    · have h := foldl_max_bounds (fun it => -negaValue R d (R.Make b it)) (-1999999)
        (1999999 + ((d + 1 : Nat) : Int)) (R.GenerateMoves b)
        (fun m _ => by
          have := (ih (R.Make b m)).1
          push_cast
          omega)
        (-1999999) (le_refl _) (by push_cast; omega)
      constructor
      · have := h.1
        push_cast at this ⊢
        omega
      · exact h.2
    · split
      · constructor <;> push_cast <;> omega
      · split
        · constructor <;> push_cast <;> omega
        · constructor <;> push_cast <;> omega

theorem Perft_fold_board (R : Rules) (child : Board → Nat × Board)
    (hchild : ∀ b, (child b).2 = b) (b : Board) (l : List Move)
    (hl : ∀ m ∈ l, R.Unmake (R.Make b m) m = b) :
    ∀ acc : Nat × Board, acc.2 = b →
      (l.foldl (fun (acc : Nat × Board) it =>
          ((acc.1 + (child (R.Make acc.2 it)).1) % 2 ^ 64,
            R.Unmake (child (R.Make acc.2 it)).2 it)) acc).2 = b := by
  induction l with
  | nil => intro acc hacc; exact hacc
  | cons m t ih =>
    intro acc hacc
    rw [List.foldl_cons]
    apply ih (fun x hx => hl x (List.mem_cons_of_mem m hx))
    simp only [hchild, hacc]
    exact hl m (List.mem_cons_self m t)

theorem Perft_board (R : Rules) (hrev : Reversible R) :
    ∀ depth b, (Perft R depth b).2 = b := by
  intro depth
  induction depth with
  | zero => intro b; rfl
  | succ d ih =>
    intro b
    unfold Perft
    split
    · rfl
    · exact Perft_fold_board R (Perft R d) ih b (R.GenerateMoves b)
        (fun m hm => hrev b m hm) (0, b) rfl


theorem NegaMaxRootStep_spec (R : Rules) (hrev : Reversible R) (randomMode : Bool)
    (O : Oracle) (depth : Nat) (acc : RootAcc) (it : Move)
    (hit : R.Unmake (R.Make acc.st.position it) it = acc.st.position) :
    (NegaMaxRootStep R randomMode O depth acc it).st.position = acc.st.position ∧
    ((NegaMaxRootStep R randomMode O depth acc it).max,
      (NegaMaxRootStep R randomMode O depth acc it).bestMove,
      (NegaMaxRootStep R randomMode O depth acc it).tried)
      = rootPureStep (rootScore R randomMode O depth acc.st.position)
          (acc.max, acc.bestMove, acc.tried) it := by
  unfold NegaMaxRootStep rootPureStep rootScore
  simp only []
  have h := NegaMax_spec R hrev (depth - 1)
    { position := R.Make acc.st.position it, pv := acc.st.pv,
      nodeCount := (acc.st.nodeCount + 1) % 2 ^ 64 }
  simp only [] at h
  rw [h.1, h.2, hit]
  by_cases hr : randomMode = true
  · simp only [if_pos hr]
    by_cases hc : -negaValue R (depth - 1) (R.Make acc.st.position it)
        + O.dist depth acc.tried > acc.max
    · simp only [if_pos hc]
      exact ⟨trivial, trivial⟩
    · simp only [if_neg hc]
      exact ⟨trivial, trivial⟩
  · simp only [if_neg hr]
    by_cases hc : -negaValue R (depth - 1) (R.Make acc.st.position it) > acc.max
    · simp only [if_pos hc]
      exact ⟨trivial, trivial⟩
    · simp only [if_neg hc]
      exact ⟨trivial, trivial⟩

theorem NegaMaxRoot_fold_spec (R : Rules) (hrev : Reversible R) (randomMode : Bool)
    (O : Oracle) (depth : Nat) (b : Board) (l : List Move)
    (hl : ∀ m ∈ l, R.Unmake (R.Make b m) m = b) :
    ∀ acc : RootAcc, acc.st.position = b →
      (l.foldl (NegaMaxRootStep R randomMode O depth) acc).st.position = b ∧
      ((l.foldl (NegaMaxRootStep R randomMode O depth) acc).max,
        (l.foldl (NegaMaxRootStep R randomMode O depth) acc).bestMove,
        (l.foldl (NegaMaxRootStep R randomMode O depth) acc).tried)
        = l.foldl (rootPureStep (rootScore R randomMode O depth b))
            (acc.max, acc.bestMove, acc.tried) := by
  induction l with
  | nil => intro acc hacc; exact ⟨hacc, rfl⟩
  | cons m t ih =>
    intro acc hacc
    have hm : R.Unmake (R.Make acc.st.position m) m = acc.st.position := by
      rw [hacc]; exact hl m (List.mem_cons_self m t)
    have hs := NegaMaxRootStep_spec R hrev randomMode O depth acc m hm
    have ht := ih (fun x hx => hl x (List.mem_cons_of_mem m hx))
      (NegaMaxRootStep R randomMode O depth acc m) (by rw [hs.1, hacc])
    rw [List.foldl_cons, List.foldl_cons]
    refine ⟨ht.1, ?_⟩
    rw [ht.2, hs.2, hacc]

theorem rootPure_best_mem_or (sc : Nat → Move → Int) (l : List Move) :
    ∀ acc : Int × Move × Nat,
      (l.foldl (rootPureStep sc) acc).2.1 = acc.2.1 ∨
      (l.foldl (rootPureStep sc) acc).2.1 ∈ l := by
  induction l with
  | nil => intro acc; exact Or.inl rfl
  | cons m t ih =>
    intro acc
    rw [List.foldl_cons]
    rcases ih (rootPureStep sc acc m) with h | h
    · rw [h]
      unfold rootPureStep
      split
      · exact Or.inr (List.mem_cons_self m t)
      · exact Or.inl rfl
    · exact Or.inr (List.mem_cons_of_mem m h)

theorem rootPure_best_mem (sc : Nat → Move → Int) (l : List Move) (acc : Int × Move × Nat)
    (hne : l ≠ []) (hsc : ∀ i, ∀ m ∈ l, sc i m > acc.1) :
    (l.foldl (rootPureStep sc) acc).2.1 ∈ l := by
  cases l with
  | nil => exact absurd rfl hne
  | cons m t =>
    rw [List.foldl_cons]
    have h1 : rootPureStep sc acc m = (sc acc.2.2 m, m, acc.2.2 + 1) := by
      unfold rootPureStep
      rw [if_pos (hsc acc.2.2 m (List.mem_cons_self m t))]
    rw [h1]
    rcases rootPure_best_mem_or sc t (sc acc.2.2 m, m, acc.2.2 + 1) with h | h
    · rw [h]; exact List.mem_cons_self m t
    · exact List.mem_cons_of_mem m h

theorem rootPure_argmax (sc : Nat → Move → Int) (f : Move → Int) (hsc : ∀ i m, sc i m = f m)
    (l : List Move) :
    ∀ acc : Int × Move × Nat,
      ((l.foldl (rootPureStep sc) acc).1 = acc.1 ∧
        (l.foldl (rootPureStep sc) acc).2.1 = acc.2.1 ∧ ∀ m ∈ l, f m ≤ acc.1) ∨
      (∃ pre post, l = pre ++ (l.foldl (rootPureStep sc) acc).2.1 :: post ∧
        (l.foldl (rootPureStep sc) acc).1 = f (l.foldl (rootPureStep sc) acc).2.1 ∧
        acc.1 < f (l.foldl (rootPureStep sc) acc).2.1 ∧
        (∀ m ∈ pre, f m < f (l.foldl (rootPureStep sc) acc).2.1) ∧
        (∀ m ∈ post, f m ≤ f (l.foldl (rootPureStep sc) acc).2.1)) := by
  induction l with
  | nil =>
    intro acc
    exact Or.inl ⟨rfl, rfl, fun m hm => absurd hm (List.not_mem_nil m)⟩
  | cons m t ih =>
    intro acc
    rw [List.foldl_cons]
    by_cases hgt : f m > acc.1
    · have h1 : rootPureStep sc acc m = (f m, m, acc.2.2 + 1) := by
        unfold rootPureStep
        rw [hsc, if_pos hgt]
      rw [h1]
      rcases ih (f m, m, acc.2.2 + 1) with ⟨e1, e2, e3⟩ | ⟨pre, post, e1, e2, e3, e4, e5⟩
      · right
        refine ⟨[], t, ?_, ?_, ?_, ?_, ?_⟩
        · rw [e2]; rfl
        · rw [e1, e2]
        · rw [e2]; exact hgt
        · intro x hx; exact absurd hx (List.not_mem_nil x)
        · intro x hx; rw [e2]; exact e3 x hx
      · right
        refine ⟨m :: pre, post, ?_, e2, ?_, ?_, e5⟩
        · rw [List.cons_append, ← e1]
        · exact lt_trans hgt e3
        · intro x hx
          rcases List.mem_cons.mp hx with rfl | hx
          · exact e3
          · exact e4 x hx
    · have h1 : rootPureStep sc acc m = (acc.1, acc.2.1, acc.2.2 + 1) := by
        unfold rootPureStep
        rw [hsc, if_neg hgt]
      rw [h1]
      rcases ih (acc.1, acc.2.1, acc.2.2 + 1) with ⟨e1, e2, e3⟩ | ⟨pre, post, e1, e2, e3, e4, e5⟩
      · left
        refine ⟨e1, e2, ?_⟩
        intro x hx
        rcases List.mem_cons.mp hx with rfl | hx
        · exact not_lt.mp hgt
        · exact e3 x hx
      · right
        refine ⟨m :: pre, post, ?_, e2, e3, ?_, e5⟩
        · rw [List.cons_append, ← e1]
        · intro x hx
          rcases List.mem_cons.mp hx with rfl | hx
          · exact lt_of_le_of_lt (not_lt.mp hgt) e3
          · exact e4 x hx


theorem NegaMaxRootIteration_spec (R : Rules) (hrev : Reversible R) (G : Globals) (O : Oracle)
    (depth : Nat) (rs : RootState) :
    (NegaMaxRootIteration R G O depth rs).st.position = rs.st.position ∧
    (NegaMaxRootIteration R G O depth rs).max
      = ((R.GenerateMoves rs.st.position).foldl
          (rootPureStep (rootScore R G.randomMode O depth rs.st.position))
          (-3000000, { rs.bestMove with TargetLocation := 0 }, 0)).1 ∧
    (NegaMaxRootIteration R G O depth rs).bestMove
      = ((R.GenerateMoves rs.st.position).foldl
          (rootPureStep (rootScore R G.randomMode O depth rs.st.position))
          (-3000000, { rs.bestMove with TargetLocation := 0 }, 0)).2.1 ∧
    ∃ rep : Report, (NegaMaxRootIteration R G O depth rs).output
        = rs.output ++ [OutputLine.report rep] ∧ rep.depth = depth ∧
      rep.score = (NegaMaxRootIteration R G O depth rs).max := by
  have hf := NegaMaxRoot_fold_spec R hrev G.randomMode O depth rs.st.position
    (R.GenerateMoves rs.st.position) (fun m hm => hrev _ m hm)
    { max := -3000000, bestMove := { rs.bestMove with TargetLocation := 0 },
      pvBackup := List.replicate depth "",
      st := { rs.st with
        pv := (List.range depth).foldl (fun p count => p.set count "") (rs.st.pv ++ [""]) },
      tried := 0 } rfl
  simp only [] at hf
  unfold NegaMaxRootIteration
  simp only []
  refine ⟨hf.1, ?_, ?_, ⟨_, rfl, rfl, rfl⟩⟩
  · exact congrArg Prod.fst hf.2
  · exact congrArg (fun p => p.2.1) hf.2

theorem NegaMaxRootLoop_spec (R : Rules) (hrev : Reversible R) (G : Globals) (O : Oracle)
    (t : Nat) (b : Board) :
    ∀ fuel depth rs, rs.st.position = b →
      ∃ rs0 trailer, rs0.st.position = b ∧
        depth ≤ (NegaMaxRootLoop R G O t fuel depth rs).2 ∧
        (NegaMaxRootLoop R G O t fuel depth rs).1.st.position = b ∧
        (NegaMaxRootLoop R G O t fuel depth rs).1.bestMove
          = (NegaMaxRootIteration R G O (NegaMaxRootLoop R G O t fuel depth rs).2 rs0).bestMove ∧
        (NegaMaxRootLoop R G O t fuel depth rs).1.output
          = (NegaMaxRootIteration R G O (NegaMaxRootLoop R G O t fuel depth rs).2 rs0).output
            ++ trailer ∧
        ∀ x ∈ trailer, ∀ rp, x ≠ OutputLine.report rp := by
  intro fuel
  induction fuel with
  | zero =>
    intro depth rs hrs
    have hpos := (NegaMaxRootIteration_spec R hrev G O depth rs).1
    unfold NegaMaxRootLoop
    simp only []
    split
    · exact ⟨rs, [], hrs, le_refl _, by rw [hpos, hrs], rfl, by simp, by simp⟩
    · split
      · exact ⟨rs, [OutputLine.nextDepth (depth + 1) G.maxSearchDepth], hrs, le_refl _,
          by rw [hpos, hrs], rfl, rfl, by simp⟩
      · exact ⟨rs, [OutputLine.nextDepth (depth + 1) G.maxSearchDepth], hrs, le_refl _,
          by rw [hpos, hrs], rfl, rfl, by simp⟩
  | succ f ih =>
    intro depth rs hrs
    have hpos := (NegaMaxRootIteration_spec R hrev G O depth rs).1
    unfold NegaMaxRootLoop
    simp only []
    split
    · exact ⟨rs, [], hrs, le_refl _, by rw [hpos, hrs], rfl, by simp, by simp⟩
    · split
      · exact ⟨rs, [OutputLine.nextDepth (depth + 1) G.maxSearchDepth], hrs, le_refl _,
          by rw [hpos, hrs], rfl, rfl, by simp⟩
      · obtain ⟨rs0, trailer, h1, h2, h3, h4, h5, h6⟩ := ih (depth + 1)
          { st := (NegaMaxRootIteration R G O depth rs).st,
            max := (NegaMaxRootIteration R G O depth rs).max,
            bestMove := (NegaMaxRootIteration R G O depth rs).bestMove,
            leafNodesAtCurrentDepth :=
              (NegaMaxRootIteration R G O depth rs).leafNodesAtCurrentDepth,
            output := (NegaMaxRootIteration R G O depth rs).output
              ++ [OutputLine.nextDepth (depth + 1) G.maxSearchDepth] }
          (by simp only []; rw [hpos, hrs])
        exact ⟨rs0, trailer, h1, Nat.le_of_succ_le h2, h3, h4, h5, h6⟩


/-- Fuel beyond `maxSearchDepth - depth` is never used: the branch `fuel = 0` of the loop is
not reached from `NegaMaxRoot`, and more fuel gives the same run. -/
theorem NegaMaxRootLoop_fuel (R : Rules) (G : Globals) (O : Oracle) (t : Nat) :
    ∀ fuel depth rs, G.maxSearchDepth ≤ ((fuel + depth : Nat) : Int) →
      NegaMaxRootLoop R G O t (fuel + 1) depth rs = NegaMaxRootLoop R G O t fuel depth rs := by
  intro fuel
  induction fuel with
  | zero =>
    intro depth rs h
    unfold NegaMaxRootLoop
    simp only []
    split
    · rfl
    · have hgt : ((depth + 1 : Nat) : Int) > G.maxSearchDepth := by
        push_cast at h ⊢
        omega
      rw [if_pos hgt, if_pos hgt]
  | succ f ih =>
    intro depth rs h
    rw [NegaMaxRootLoop]
    conv_rhs => rw [NegaMaxRootLoop]
    simp only []
    split
    · rfl
    · split
      · rfl
      · exact ih (depth + 1) _ (by push_cast at h ⊢; omega)

theorem NegaMaxRoot_some (R : Rules) (hrev : Reversible R) (G : Globals) (O : Oracle)
    (position : Board) (pv : List String) (bestMove : Move) (t : Nat)
    (htime : availableTimeForThisMove G.currentClock G.currentPosition = some t) :
    ∃ r rs0 trailer, NegaMaxRoot R G O position pv bestMove = some r ∧
      rs0.st.position = position ∧ 1 ≤ r.depth ∧ r.position = position ∧
      r.bestMove = (NegaMaxRootIteration R G O r.depth rs0).bestMove ∧
      r.output = (NegaMaxRootIteration R G O r.depth rs0).output ++ trailer ∧
      ∀ x ∈ trailer, ∀ rp, x ≠ OutputLine.report rp := by
  obtain ⟨rs0, trailer, h1, h2, h3, h4, h5, h6⟩ :=
    NegaMaxRootLoop_spec R hrev G O t position G.maxSearchDepth.toNat 1
      { st := { position := position, pv := pv, nodeCount := 0 }, max := 0,
        bestMove := bestMove, leafNodesAtCurrentDepth := 0, output := [] } rfl
  have hr : NegaMaxRoot R G O position pv bestMove
      = some
        { bestMove := (NegaMaxRootLoop R G O t G.maxSearchDepth.toNat 1
            { st := { position := position, pv := pv, nodeCount := 0 }, max := 0,
              bestMove := bestMove, leafNodesAtCurrentDepth := 0, output := [] }).1.bestMove,
          position := (NegaMaxRootLoop R G O t G.maxSearchDepth.toNat 1
            { st := { position := position, pv := pv, nodeCount := 0 }, max := 0,
              bestMove := bestMove, leafNodesAtCurrentDepth := 0,
              output := [] }).1.st.position,
          pv := [],
          nodeCount := (NegaMaxRootLoop R G O t G.maxSearchDepth.toNat 1
            { st := { position := position, pv := pv, nodeCount := 0 }, max := 0,
              bestMove := bestMove, leafNodesAtCurrentDepth := 0,
              output := [] }).1.st.nodeCount,
          output := (NegaMaxRootLoop R G O t G.maxSearchDepth.toNat 1
            { st := { position := position, pv := pv, nodeCount := 0 }, max := 0,
              bestMove := bestMove, leafNodesAtCurrentDepth := 0, output := [] }).1.output,
          depth := (NegaMaxRootLoop R G O t G.maxSearchDepth.toNat 1
            { st := { position := position, pv := pv, nodeCount := 0 }, max := 0,
              bestMove := bestMove, leafNodesAtCurrentDepth := 0, output := [] }).2 } := by
    unfold NegaMaxRoot
    rw [htime]
  exact ⟨_, rs0, trailer, hr, h1, h2, h3, h4, h5, h6⟩

theorem rootScore_gt (R : Rules) (randomMode : Bool) (O : Oracle)
    (hdist : ∀ d i, -10 ≤ O.dist d i ∧ O.dist d i ≤ 10) (depth : Nat) (hD : depth ≤ 10000)
    (b : Board) (i : Nat) (m : Move) : rootScore R randomMode O depth b i m > -3000000 := by
  have h := (negaValue_abs_le R (depth - 1) (R.Make b m)).2
  have hd := hdist depth i
  have hc : ((depth - 1 : Nat) : Int) ≤ 10000 := by omega
  unfold rootScore
  split <;> omega

theorem rootScore_off (R : Rules) (O : Oracle) (depth : Nat) (b : Board) (i : Nat) (m : Move) :
    rootScore R false O depth b i m = -negaValue R (depth - 1) (R.Make b m) := by
  unfold rootScore
  simp


theorem mateLineRules_reversible : Reversible mateLineRules := by
  intro b m hm
  by_cases h0 : b = mateLine0
  · subst h0
    have hm0 : m = moveKb1 := by simpa [mateLineRules] using hm
    subst hm0
    decide
  · by_cases h1 : b = mateLine1
    · subst h1
      have hm1 : m = moveRh1 := by
        have : mateLineRules.GenerateMoves mateLine1 = [moveRh1] := by decide
        rw [this] at hm
        simpa using hm
      subst hm1
      decide
    · exfalso
      have : mateLineRules.GenerateMoves b = [] := by
        simp [mateLineRules, h0, h1]
      rw [this] at hm
      exact absurd hm (List.not_mem_nil m)

theorem sampleOracle_dist_bounds :
    ∀ d i, -10 ≤ sampleOracle.dist d i ∧ sampleOracle.dist d i ≤ 10 := by
  intro d i
  simp [sampleOracle]

/-- What `NegaMax` returns at a node with legal moves when every `Unmake` restores the board:
the larger of `-1999999` and the best negated child value; and at depth 0 the static
evaluation. -/
theorem NegaMax_value (R : Rules) (hrev : Reversible R) (st : SearchState) :
    (NegaMax R 0 st).1 = (EvaluatePosition st.position).1 ∧
    ∀ depth, R.GenerateMoves st.position ≠ [] →
      (NegaMax R (depth + 1) st).1
        = (R.GenerateMoves st.position).foldl
            (fun mx it => if -negaValue R depth (R.Make st.position it) > mx
              then -negaValue R depth (R.Make st.position it) else mx) (-1999999) := by
  refine ⟨rfl, fun depth hne => ?_⟩
  rw [(NegaMax_spec R hrev (depth + 1) st).2]
  conv_lhs => unfold negaValue
  rw [if_pos (List.length_pos.mpr hne)]

/-- C6 (failing input). On the sample line, three plies deep: the only move of the first
position is Ka1-b1, its score `-NegaMax(Make(p, Ka1-b1), 2)` is `-2000000`, hence the maximum
over the generated moves is `-2000000`, and `NegaMax(p, 3)` returns `-1999999`, the initial
value of `max`. -/
theorem NegaMax_mate_floor :
    mateLineRules.GenerateMoves mateLine0 = [moveKb1] ∧
    -(NegaMax mateLineRules 2
        { position := mateLineRules.Make mateLine0 moveKb1, pv := ["", "", ""],
          nodeCount := 1 }).1 = -2000000 ∧
    (NegaMax mateLineRules 3 { position := mateLine0, pv := ["", "", ""], nodeCount := 0 }).1
      = -1999999 := by
  decide

/-- C7. At a node with remaining depth `depth >= 1` and no legal move, with White or Black to
move, `NegaMax` returns 0 when the king of the side to move is not attacked and
`-1999999 - depth` when it is. -/
theorem NegaMax_no_legal_move (R : Rules) (depth : Nat) (st : SearchState) (hd : 1 ≤ depth)
    (hmoves : R.GenerateMoves st.position = [])
    (hcolor : st.position.ColorToMove ≠ PieceColor.NONE) :
    (R.IsSquareAttacked
        (if st.position.ColorToMove = PieceColor.WHITE then st.position.WhiteKing
          else st.position.BlackKing) st.position = false →
      (NegaMax R depth st).1 = 0) ∧
    (R.IsSquareAttacked
        (if st.position.ColorToMove = PieceColor.WHITE then st.position.WhiteKing
          else st.position.BlackKing) st.position = true →
      (NegaMax R depth st).1 = -1999999 - (depth : Int)) := by
  cases depth with
  | zero => omega
  | succ d =>
    unfold NegaMax
    simp only [hmoves, List.length_nil, gt_iff_lt, lt_self_iff_false, if_false]
    cases hc : st.position.ColorToMove with
    | WHITE =>
      cases ha : R.IsSquareAttacked st.position.WhiteKing st.position <;> simp [ha]
    | BLACK =>
      cases ha : R.IsSquareAttacked st.position.BlackKing st.position <;> simp [ha]
    | NONE => exact absurd hc hcolor

/-- Witness for C7: the checkmated position of the sample line, with one ply left. -/
theorem NegaMax_no_legal_move_witness :
    (1 ≤ 1) ∧ mateLineRules.GenerateMoves mateLine2 = [] ∧
    mateLine2.ColorToMove ≠ PieceColor.NONE ∧
    (NegaMax mateLineRules 1 { position := mateLine2, pv := [""], nodeCount := 0 }).1
      = -2000000 :=
  ⟨le_refl 1, by decide, by decide,
    (NegaMax_no_legal_move mateLineRules 1 { position := mateLine2, pv := [""], nodeCount := 0 }
      (le_refl 1) (by decide) (by decide)).2 (by decide)⟩

/-- C8. With random mode off and `Unmake` reversing `Make`, when the time budget is computed
and the root has a legal move, `NegaMaxRoot` returns; if its last iteration has depth
`D <= 10000`, the returned move occurs in the generated list at a place where every earlier
move has a strictly smaller score `-NegaMax(Make(position, m), D - 1)` and every later move a
score that is not larger, and the last report written carries depth `D` and that best score. -/
theorem NegaMaxRoot_first_best_move (R : Rules) (G : Globals) (O : Oracle) (position : Board)
    (pv : List String) (bestMove : Move) (t : Nat) (hrev : Reversible R)
    (hrand : G.randomMode = false)
    (htime : availableTimeForThisMove G.currentClock G.currentPosition = some t)
    (hmoves : R.GenerateMoves position ≠ []) :
    ∃ r, NegaMaxRoot R G O position pv bestMove = some r ∧ 1 ≤ r.depth ∧
      (r.depth ≤ 10000 →
        ∃ pre post, R.GenerateMoves position = pre ++ r.bestMove :: post ∧
          (∀ m ∈ pre, ∀ s1 s2 : SearchState, s1.position = R.Make position m →
            s2.position = R.Make position r.bestMove →
            -(NegaMax R (r.depth - 1) s1).1 < -(NegaMax R (r.depth - 1) s2).1) ∧
          (∀ m ∈ post, ∀ s1 s2 : SearchState, s1.position = R.Make position m →
            s2.position = R.Make position r.bestMove →
            -(NegaMax R (r.depth - 1) s1).1 ≤ -(NegaMax R (r.depth - 1) s2).1) ∧
          ∃ earlier rep trailer, r.output = earlier ++ OutputLine.report rep :: trailer ∧
            (∀ x ∈ trailer, ∀ rp, x ≠ OutputLine.report rp) ∧ rep.depth = r.depth ∧
            ∀ s2 : SearchState, s2.position = R.Make position r.bestMove →
              rep.score = -(NegaMax R (r.depth - 1) s2).1) := by
  obtain ⟨r, rs0, trailer, hr, hpos, hd, _, hbest, hout, htr⟩ :=
    NegaMaxRoot_some R hrev G O position pv bestMove t htime
  refine ⟨r, hr, hd, fun hD => ?_⟩
  obtain ⟨_, hmax, hbm, rep, hrep, hrd, hrs⟩ := NegaMaxRootIteration_spec R hrev G O r.depth rs0
  rw [hpos, hrand] at hmax hbm
  have hval : ∀ (m : Move) (s : SearchState), s.position = R.Make position m →
      (NegaMax R (r.depth - 1) s).1 = negaValue R (r.depth - 1) (R.Make position m) := by
    intro m s hs
    rw [(NegaMax_spec R hrev (r.depth - 1) s).2, hs]
  rcases rootPure_argmax (rootScore R false O r.depth position)
      (fun m => -negaValue R (r.depth - 1) (R.Make position m))
      (rootScore_off R O r.depth position) (R.GenerateMoves position)
      (-3000000, { rs0.bestMove with TargetLocation := 0 }, 0)
    with ⟨_, _, h3⟩ | ⟨pre, post, e1, e2, _, e4, e5⟩
  · exfalso
    obtain ⟨m, hm⟩ := List.exists_mem_of_ne_nil _ hmoves
    have h := h3 m hm
    have hb := (negaValue_abs_le R (r.depth - 1) (R.Make position m)).2
    simp only [] at h
    have hc : ((r.depth - 1 : Nat) : Int) ≤ 10000 := by omega
    omega
  · rw [← hbm] at e1 e2 e4 e5
    rw [← hmax] at e2
    rw [← hbest] at e1 e2 e4 e5
    refine ⟨pre, post, e1, ?_, ?_, ?_⟩
    · intro m hm s1 s2 h1 h2
      rw [hval m s1 h1, hval r.bestMove s2 h2]
      exact e4 m hm
    · intro m hm s1 s2 h1 h2
      rw [hval m s1 h1, hval r.bestMove s2 h2]
      exact e5 m hm
    · refine ⟨rs0.output, rep, trailer, ?_, htr, hrd, ?_⟩
      · rw [hout, hrep, List.append_assoc]
        rfl
      · intro s2 h2
        rw [hval r.bestMove s2 h2, hrs, e2]

/-- Witness for C8: the sample line searched with the sample settings. -/
theorem NegaMaxRoot_first_best_move_witness :
    Reversible mateLineRules ∧ sampleGlobals.randomMode = false ∧
    availableTimeForThisMove sampleGlobals.currentClock sampleGlobals.currentPosition
      = some 490 ∧
    mateLineRules.GenerateMoves mateLine0 ≠ [] ∧
    ∃ r, NegaMaxRoot mateLineRules sampleGlobals sampleOracle mateLine0 [] moveRh1 = some r ∧
      1 ≤ r.depth ∧
      (r.depth ≤ 10000 →
        ∃ pre post, mateLineRules.GenerateMoves mateLine0 = pre ++ r.bestMove :: post ∧
          (∀ m ∈ pre, ∀ s1 s2 : SearchState, s1.position = mateLineRules.Make mateLine0 m →
            s2.position = mateLineRules.Make mateLine0 r.bestMove →
            -(NegaMax mateLineRules (r.depth - 1) s1).1
              < -(NegaMax mateLineRules (r.depth - 1) s2).1) ∧
          (∀ m ∈ post, ∀ s1 s2 : SearchState, s1.position = mateLineRules.Make mateLine0 m →
            s2.position = mateLineRules.Make mateLine0 r.bestMove →
            -(NegaMax mateLineRules (r.depth - 1) s1).1
              ≤ -(NegaMax mateLineRules (r.depth - 1) s2).1) ∧
          ∃ earlier rep trailer, r.output = earlier ++ OutputLine.report rep :: trailer ∧
            (∀ x ∈ trailer, ∀ rp, x ≠ OutputLine.report rp) ∧ rep.depth = r.depth ∧
            ∀ s2 : SearchState, s2.position = mateLineRules.Make mateLine0 r.bestMove →
              rep.score = -(NegaMax mateLineRules (r.depth - 1) s2).1) :=
  ⟨mateLineRules_reversible, rfl, by decide, by decide,
    NegaMaxRoot_first_best_move mateLineRules sampleGlobals sampleOracle mateLine0 [] moveRh1
      490 mateLineRules_reversible rfl (by decide) (by decide)⟩

/-- C9. With `Unmake` reversing `Make`, random draws between -10 and 10, every generated move
having a non-zero target, and the time budget computed, `NegaMaxRoot` returns, with or without
random mode: a move with `TargetLocation = 0` when the root has no legal move, and, when its
last iteration has depth at most 10000, one of the generated moves when there is one; so the
result is the sentinel exactly when the move list is empty. -/
theorem NegaMaxRoot_sentinel_iff (R : Rules) (G : Globals) (O : Oracle) (position : Board)
    (pv : List String) (bestMove : Move) (t : Nat) (hrev : Reversible R)
    (hdist : ∀ d i, -10 ≤ O.dist d i ∧ O.dist d i ≤ 10)
    (htime : availableTimeForThisMove G.currentClock G.currentPosition = some t)
    (htarget : ∀ m ∈ R.GenerateMoves position, m.TargetLocation ≠ 0) :
    ∃ r, NegaMaxRoot R G O position pv bestMove = some r ∧
      (R.GenerateMoves position = [] → r.bestMove.TargetLocation = 0) ∧
      (r.depth ≤ 10000 → R.GenerateMoves position ≠ [] →
        r.bestMove ∈ R.GenerateMoves position) ∧
      (r.depth ≤ 10000 →
        (r.bestMove.TargetLocation = 0 ↔ R.GenerateMoves position = [])) := by
  obtain ⟨r, rs0, trailer, hr, hpos, _, _, hbest, _, _⟩ :=
    NegaMaxRoot_some R hrev G O position pv bestMove t htime
  obtain ⟨_, _, hbm, _⟩ := NegaMaxRootIteration_spec R hrev G O r.depth rs0
  rw [hpos] at hbm
  have hempty : R.GenerateMoves position = [] → r.bestMove.TargetLocation = 0 := by
    intro he
    rw [hbest, hbm, he]
    rfl
  have hmem : r.depth ≤ 10000 → R.GenerateMoves position ≠ [] →
      r.bestMove ∈ R.GenerateMoves position := by
    intro hD hne
    rw [hbest, hbm]
    exact rootPure_best_mem _ _ _ hne
      (fun i m _ => rootScore_gt R G.randomMode O hdist r.depth hD position i m)
  refine ⟨r, hr, hempty, hmem, fun hD => ⟨fun h0 => ?_, hempty⟩⟩
  by_contra hne
  exact htarget _ (hmem hD hne) h0

/-- Witness for C9: the sample line searched with the sample settings. -/
theorem NegaMaxRoot_sentinel_iff_witness :
    Reversible mateLineRules ∧
    (∀ d i, -10 ≤ sampleOracle.dist d i ∧ sampleOracle.dist d i ≤ 10) ∧
    availableTimeForThisMove sampleGlobals.currentClock sampleGlobals.currentPosition
      = some 490 ∧
    (∀ m ∈ mateLineRules.GenerateMoves mateLine0, m.TargetLocation ≠ 0) ∧
    ∃ r, NegaMaxRoot mateLineRules sampleGlobals sampleOracle mateLine0 [] moveRh1 = some r ∧
      (mateLineRules.GenerateMoves mateLine0 = [] → r.bestMove.TargetLocation = 0) ∧
      (r.depth ≤ 10000 → mateLineRules.GenerateMoves mateLine0 ≠ [] →
        r.bestMove ∈ mateLineRules.GenerateMoves mateLine0) ∧
      (r.depth ≤ 10000 →
        (r.bestMove.TargetLocation = 0 ↔ mateLineRules.GenerateMoves mateLine0 = [])) :=
  ⟨mateLineRules_reversible, sampleOracle_dist_bounds, by decide, by decide,
    NegaMaxRoot_sentinel_iff mateLineRules sampleGlobals sampleOracle mateLine0 [] moveRh1 490
      mateLineRules_reversible sampleOracle_dist_bounds (by decide) (by decide)⟩

/-- C10. When `Unmake (Make b m) m = b` for every board `b` and every move `m` generated from
`b`, the board after `NegaMax` and the board after `Perft` equal the board before the call, at
every depth. -/
theorem NegaMax_Perft_restore_board (R : Rules) (hrev : Reversible R) (depth : Nat) :
    (∀ st, (NegaMax R depth st).2.position = st.position) ∧
    (∀ b, (Perft R depth b).2 = b) :=
  ⟨fun st => (NegaMax_spec R hrev depth st).1, fun b => Perft_board R hrev depth b⟩

/-- Witness for C10: the sample line, three plies deep. -/
theorem NegaMax_Perft_restore_board_witness :
    Reversible mateLineRules ∧
    (NegaMax mateLineRules 3 { position := mateLine0, pv := ["", "", ""], nodeCount := 0 }
      ).2.position = mateLine0 ∧
    (Perft mateLineRules 3 mateLine0).2 = mateLine0 :=
  ⟨mateLineRules_reversible,
    (NegaMax_Perft_restore_board mateLineRules mateLineRules_reversible 3).1 _,
    (NegaMax_Perft_restore_board mateLineRules mateLineRules_reversible 3).2 _⟩

/-- Witness for C5: the first position of the sample line, White to move. -/
theorem EvaluatePosition_symmetry_witness :
    mateLine0.ColorToMove = PieceColor.WHITE ∧
    (EvaluatePosition mateLine0).1
      = -(EvaluatePosition { mateLine0 with ColorToMove := PieceColor.BLACK }).1 :=
  ⟨rfl, EvaluatePosition_symmetry mateLine0 rfl⟩

/-! ## The time budget -/

/-- Under a conventional time control with `1 <= movesPerControl` and `1 <= FullMoveCounter`
(both 32-bit), the budget computation divides by zero exactly when one move remains until the
time control, that is when `(FullMoveCounter - 1) mod movesPerControl = movesPerControl - 1`. -/
theorem availableTimeForThisMove_conventional_none (clock : TimeControl) (cp : Board)
    (htype : clock.type = TimeControlType.CONVENTIONAL)
    (h1 : 1 ≤ clock.movesPerControl) (h2 : clock.movesPerControl < 2 ^ 32)
    (h3 : 1 ≤ cp.FullMoveCounter) (h4 : cp.FullMoveCounter < 2 ^ 32) :
    availableTimeForThisMove clock cp = none ↔
      (cp.FullMoveCounter - 1) % clock.movesPerControl = clock.movesPerControl - 1 := by
  have e1 : (cp.FullMoveCounter + 2 ^ 32 - 1) % 2 ^ 32 = cp.FullMoveCounter - 1 := by omega
  have hx : (cp.FullMoveCounter - 1) % clock.movesPerControl < clock.movesPerControl :=
    Nat.mod_lt _ (by omega)
  have hm0 : ¬ clock.movesPerControl = 0 := by omega
  have e2 : (clock.movesPerControl + 2 ^ 32
      - (cp.FullMoveCounter - 1) % clock.movesPerControl) % 2 ^ 32
      = clock.movesPerControl - (cp.FullMoveCounter - 1) % clock.movesPerControl := by
    omega
  have hm1 : ¬ clock.movesPerControl - (cp.FullMoveCounter - 1) % clock.movesPerControl = 0 := by
    omega
  unfold availableTimeForThisMove
  simp only [htype, if_true, e1, e2, if_neg hm0, if_neg hm1]
  constructor
  · intro h
    by_contra hne
    rw [if_neg (by omega)] at h
    exact absurd h (by simp)
  · intro h
    rw [if_pos (by omega)]

/-- C12 (failing input). With the clock `InitializeEngine` installs (conventional, 40 moves per
control) and a current position whose `FullMoveCounter` is 40, one move remains, the divisor
`movesRemainingUntilNextTimeControl / 2` is `1 / 2 = 0`, and `NegaMaxRoot` divides by zero. -/
theorem availableTimeForThisMove_divides_by_zero :
    defaultClock.type = TimeControlType.CONVENTIONAL ∧ 1 ≤ defaultClock.movesPerControl ∧
    1 ≤ move40Board.FullMoveCounter ∧
    availableTimeForThisMove defaultClock move40Board = none ∧
    NegaMaxRoot mateLineRules
      { currentPosition := move40Board, currentClock := defaultClock, randomMode := false,
        maxSearchDepth := 10000 }
      sampleOracle move40Board [] moveRh1 = none :=
  ⟨rfl, by decide, by decide, by decide, rfl⟩

/-- C13 (counterexample). With 5 ms remaining under `TIME_PER_MOVE`, the budget stored is
`5 - 10` modulo `2 ^ 32`, that is 4294967291, which is larger than the remaining time. -/
theorem availableTimeForThisMove_per_move_wraps :
    availableTimeForThisMove
      { type := TimeControlType.TIME_PER_MOVE, movesPerControl := 40, remainingTime := 5,
        timeIncrement := 0 } mateLine0 = some 4294967291 ∧
    ¬ (4294967291 ≤ 5) := by
  decide

/-- C13 (amended). For every 32-bit `remainingTime`, under `TIME_PER_MOVE` the budget stored is
`(remainingTime - 10) mod 2 ^ 32`: it is `remainingTime - 10`, not larger than `remainingTime`,
when `remainingTime >= 10`, and it is `remainingTime + 2 ^ 32 - 10`, larger than
`remainingTime`, when `remainingTime < 10`. -/
theorem availableTimeForThisMove_per_move (clock : TimeControl) (cp : Board)
    (htype : clock.type = TimeControlType.TIME_PER_MOVE)
    (hrt : clock.remainingTime < 2 ^ 32) :
    ∃ t, availableTimeForThisMove clock cp = some t ∧
      t = (clock.remainingTime + 2 ^ 32 - 10) % 2 ^ 32 ∧
      (10 ≤ clock.remainingTime → t = clock.remainingTime - 10 ∧ t ≤ clock.remainingTime) ∧
      (clock.remainingTime < 10 →
        t = clock.remainingTime + 2 ^ 32 - 10 ∧ clock.remainingTime < t) := by
  refine ⟨(clock.remainingTime + 2 ^ 32 - 10) % 2 ^ 32, ?_, rfl, ?_, ?_⟩
  · unfold availableTimeForThisMove
    simp [htype]
  · intro h; omega
  · intro h; omega

/-- Witness for C13 (amended): 500 ms remaining give a budget of 490 ms. -/
theorem availableTimeForThisMove_per_move_witness :
    sampleGlobals.currentClock.type = TimeControlType.TIME_PER_MOVE ∧
    sampleGlobals.currentClock.remainingTime < 2 ^ 32 ∧
    ∃ t, availableTimeForThisMove sampleGlobals.currentClock mateLine0 = some t ∧
      t = (sampleGlobals.currentClock.remainingTime + 2 ^ 32 - 10) % 2 ^ 32 ∧
      (10 ≤ sampleGlobals.currentClock.remainingTime →
        t = sampleGlobals.currentClock.remainingTime - 10 ∧
        t ≤ sampleGlobals.currentClock.remainingTime) ∧
      (sampleGlobals.currentClock.remainingTime < 10 →
        t = sampleGlobals.currentClock.remainingTime + 2 ^ 32 - 10 ∧
        sampleGlobals.currentClock.remainingTime < t) :=
  ⟨rfl, by decide,
    availableTimeForThisMove_per_move sampleGlobals.currentClock mateLine0 rfl (by decide)⟩

/-! ## Perft and the node counter -/

theorem binaryRules_reversible : Reversible binaryRules := by
  intro b m _
  cases b
  simp [binaryRules]

theorem sum_map_mod (N : Nat) (f : Move → Nat) (l : List Move) :
    (l.map (fun m => f m % N)).sum % N = (l.map f).sum % N := by
  induction l with
  | nil => rfl
  | cons m t ih =>
    simp only [List.map_cons, List.sum_cons]
    rw [Nat.add_mod, ih, ← Nat.add_mod, Nat.add_mod (f m % N), Nat.mod_mod, ← Nat.add_mod]

theorem sum_map_one (l : List Move) : (l.map (fun _ => 1)).sum = l.length := by
  induction l with
  | nil => rfl
  | cons m t ih => simp only [List.map_cons, List.sum_cons, List.length_cons, ih]; omega

theorem Perft_fold_count (R : Rules) (child : Board → Nat × Board)
    (hchild : ∀ b, (child b).2 = b) (b : Board) (l : List Move)
    (hl : ∀ m ∈ l, R.Unmake (R.Make b m) m = b) :
    ∀ acc : Nat × Board, acc.2 = b → acc.1 < 2 ^ 64 →
      (l.foldl (fun (acc : Nat × Board) it =>
          ((acc.1 + (child (R.Make acc.2 it)).1) % 2 ^ 64,
            R.Unmake (child (R.Make acc.2 it)).2 it)) acc).1
        = (acc.1 + (l.map (fun m => (child (R.Make b m)).1)).sum) % 2 ^ 64 := by
  induction l with
  | nil =>
    intro acc _ hlt
    simp only [List.foldl_nil, List.map_nil, List.sum_nil, Nat.add_zero]
    exact (Nat.mod_eq_of_lt hlt).symm
  | cons m t ih =>
    intro acc hacc _
    rw [List.foldl_cons]
    rw [ih (fun x hx => hl x (List.mem_cons_of_mem m hx)) _
      (by simp only [hchild, hacc]; exact hl m (List.mem_cons_self m t))
      (Nat.mod_lt _ (by norm_num))]
    simp only [List.map_cons, List.sum_cons, hacc]
    omega

/-- For `depth >= 2`, `Perft` is the sum of the `Perft` values of the children, reduced modulo
`2 ^ 64`. -/
theorem Perft_succ_succ (R : Rules) (hrev : Reversible R) (depth : Nat) (p : Board) :
    (Perft R (depth + 2) p).1
      = ((R.GenerateMoves p).map (fun m => (Perft R (depth + 1) (R.Make p m)).1)).sum
          % 2 ^ 64 := by
  have h := Perft_fold_count R (Perft R (depth + 1)) (Perft_board R hrev (depth + 1)) p
    (R.GenerateMoves p) (fun m hm => hrev p m hm) (0, p) rfl (by norm_num)
  simp only [Nat.zero_add] at h
  rw [← h]
  conv_lhs => unfold Perft
  rw [if_neg (by omega)]

/-- `Perft` at `depth >= 1` is the number of legal move sequences of that length, reduced
modulo `2 ^ 64`. -/
theorem Perft_count (R : Rules) (hrev : Reversible R) :
    ∀ depth p, (Perft R (depth + 1) p).1 = countSequences R (depth + 1) p % 2 ^ 64 := by
  intro depth
  induction depth with
  | zero =>
    intro p
    have e : countSequences R 1 p = (R.GenerateMoves p).length := by
      unfold countSequences
      unfold countSequences
      exact sum_map_one _
    rw [e]
    unfold Perft
    rw [if_pos (Nat.le_refl _)]
  | succ d ih =>
    intro p
    rw [Perft_succ_succ R hrev d p]
    conv_rhs => unfold countSequences
    simp only [ih]
    exact sum_map_mod (2 ^ 64) _ _

theorem countSequences_binary : ∀ depth b, countSequences binaryRules depth b = 2 ^ depth := by
  intro depth
  induction depth with
  | zero => intro b; rfl
  | succ d ih =>
    intro b
    have hg : binaryRules.GenerateMoves b = [moveKb1, moveRh1] := rfl
    conv_lhs => unfold countSequences
    rw [hg]
    simp only [List.map_cons, List.map_nil, List.sum_cons, List.sum_nil, ih]
    rw [pow_succ]
    omega

/-- C11 (counterexample). In the game where every position has two moves there are `2 ^ 64`
move sequences of length 64, and the `Perft` values of the two children at depth 63 add up to
`2 ^ 64`, but `Perft` at depth 64 returns 0: the 64-bit count has wrapped. -/
theorem Perft_wraps_at_depth_64 :
    Reversible binaryRules ∧
    countSequences binaryRules 64 mateLine0 = 2 ^ 64 ∧
    ((binaryRules.GenerateMoves mateLine0).map
      (fun m => (Perft binaryRules 63 (binaryRules.Make mateLine0 m)).1)).sum = 2 ^ 64 ∧
    (Perft binaryRules 64 mateLine0).1 = 0 := by
  refine ⟨binaryRules_reversible, countSequences_binary 64 mateLine0, ?_, ?_⟩
  · have hg : binaryRules.GenerateMoves mateLine0 = [moveKb1, moveRh1] := rfl
    rw [hg]
    simp only [List.map_cons, List.map_nil, List.sum_cons, List.sum_nil,
      Perft_count binaryRules binaryRules_reversible 62, countSequences_binary]
    norm_num
  · rw [Perft_count binaryRules binaryRules_reversible 63, countSequences_binary]
    norm_num

/-- C11 (amended). With `Unmake` reversing `Make` and an arbitrary generator: `Perft(p, 1)` is
the number of generated moves and, for `depth >= 2`, `Perft(p, depth)` is the sum over the
generated moves `m` of `Perft(Make(p, m), depth - 1)`, both reduced modulo `2 ^ 64`; hence for
`depth >= 1`, `Perft(p, depth)` is the number of legal move sequences of length `depth` modulo
`2 ^ 64`, and that number itself whenever it is below `2 ^ 64`. -/
theorem Perft_leaf_count_mod (R : Rules) (hrev : Reversible R) (p : Board) :
    (Perft R 1 p).1 = (R.GenerateMoves p).length % 2 ^ 64 ∧
    (∀ depth, 2 ≤ depth →
      (Perft R depth p).1
        = ((R.GenerateMoves p).map (fun m => (Perft R (depth - 1) (R.Make p m)).1)).sum
            % 2 ^ 64) ∧
    (∀ depth, 1 ≤ depth → (Perft R depth p).1 = countSequences R depth p % 2 ^ 64) ∧
    (∀ depth, 1 ≤ depth → countSequences R depth p < 2 ^ 64 →
      (Perft R depth p).1 = countSequences R depth p) := by
  have hc : ∀ depth, 1 ≤ depth → (Perft R depth p).1 = countSequences R depth p % 2 ^ 64 := by
    intro depth hd
    obtain ⟨d, rfl⟩ : ∃ d, depth = d + 1 := ⟨depth - 1, by omega⟩
    exact Perft_count R hrev d p
  refine ⟨?_, ?_, hc, ?_⟩
  · unfold Perft
    rw [if_pos (Nat.le_refl _)]
  · intro depth hd
    obtain ⟨d, rfl⟩ : ∃ d, depth = d + 2 := ⟨depth - 2, by omega⟩
    exact Perft_succ_succ R hrev d p
  · intro depth hd hlt
    rw [hc depth hd, Nat.mod_eq_of_lt hlt]

/-- Witness for C11 (amended): the sample line from its first position. -/
theorem Perft_leaf_count_mod_witness :
    Reversible mateLineRules ∧
    ((Perft mateLineRules 1 mateLine0).1 = (mateLineRules.GenerateMoves mateLine0).length % 2 ^ 64 ∧
    (∀ depth, 2 ≤ depth →
      (Perft mateLineRules depth mateLine0).1
        = ((mateLineRules.GenerateMoves mateLine0).map
            (fun m => (Perft mateLineRules (depth - 1) (mateLineRules.Make mateLine0 m)).1)).sum
            % 2 ^ 64) ∧
    (∀ depth, 1 ≤ depth →
      (Perft mateLineRules depth mateLine0).1
        = countSequences mateLineRules depth mateLine0 % 2 ^ 64) ∧
    (∀ depth, 1 ≤ depth → countSequences mateLineRules depth mateLine0 < 2 ^ 64 →
      (Perft mateLineRules depth mateLine0).1 = countSequences mateLineRules depth mateLine0)) :=
  ⟨mateLineRules_reversible, Perft_leaf_count_mod mateLineRules mateLineRules_reversible mateLine0⟩

theorem sum_map_finset_sum (s : Finset Nat) (f : Nat → Move → Nat) (l : List Move) :
    (l.map (fun m => ∑ k in s, f k m)).sum = ∑ k in s, (l.map (f k)).sum := by
  induction l with
  | nil => simp
  | cons m t ih =>
    simp only [List.map_cons, List.sum_cons, ih, Finset.sum_add_distrib]

/-- The nodes at plies 1 to `depth` are the move sequences of lengths 1 to `depth`. -/
theorem countNodes_eq_sum (R : Rules) :
    ∀ depth p, countNodes R depth p = ∑ k in Finset.range depth, countSequences R (k + 1) p := by
  intro depth
  induction depth with
  | zero => intro p; simp [countNodes]
  | succ d ih =>
    intro p
    rw [Finset.sum_range_succ']
    conv_lhs => unfold countNodes
    have e1 : countSequences R (0 + 1) p = ((R.GenerateMoves p).map (fun _ => 1)).sum := by
      unfold countSequences
      unfold countSequences
      rfl
    have e2 : ∀ k, countSequences R (k + 1 + 1) p
        = ((R.GenerateMoves p).map (fun m => countSequences R (k + 1) (R.Make p m))).sum := by
      intro k
      conv_lhs => unfold countSequences
    rw [e1]
    simp only [e2, ih]
    rw [← sum_map_finset_sum, Nat.add_comm, ← List.sum_map_add]

theorem NegaMaxStep_nodeCount (R : Rules) (depth : Nat)
    (child : SearchState → Int × SearchState) (cn : Board → Nat)
    (hchild : ∀ st, st.nodeCount < 2 ^ 64 → (child st).2.position = st.position ∧
      (child st).2.nodeCount = (st.nodeCount + cn st.position) % 2 ^ 64)
    (acc : NegaMaxAcc) (it : Move)
    (hrev : R.Unmake (R.Make acc.st.position it) it = acc.st.position) :
    (NegaMaxStep R depth child acc it).st.position = acc.st.position ∧
    (NegaMaxStep R depth child acc it).st.nodeCount
      = (acc.st.nodeCount + (1 + cn (R.Make acc.st.position it))) % 2 ^ 64 := by
  unfold NegaMaxStep
  simp only []
  have h := hchild
    { position := R.Make acc.st.position it, pv := acc.st.pv,
      nodeCount := (acc.st.nodeCount + 1) % 2 ^ 64 } (Nat.mod_lt _ (by norm_num))
  simp only [] at h
  rw [h.1, h.2, hrev]
  split
  · exact ⟨rfl, by simp only []; omega⟩
  · exact ⟨rfl, by simp only []; omega⟩

theorem NegaMax_fold_nodeCount (R : Rules) (depth : Nat)
    (child : SearchState → Int × SearchState) (cn : Board → Nat)
    (hchild : ∀ st, st.nodeCount < 2 ^ 64 → (child st).2.position = st.position ∧
      (child st).2.nodeCount = (st.nodeCount + cn st.position) % 2 ^ 64)
    (b : Board) (l : List Move) (hl : ∀ m ∈ l, R.Unmake (R.Make b m) m = b) :
    ∀ acc : NegaMaxAcc, acc.st.position = b → acc.st.nodeCount < 2 ^ 64 →
      (l.foldl (NegaMaxStep R depth child) acc).st.position = b ∧
      (l.foldl (NegaMaxStep R depth child) acc).st.nodeCount
        = (acc.st.nodeCount + (l.map (fun m => 1 + cn (R.Make b m))).sum) % 2 ^ 64 := by
  induction l with
  | nil =>
    intro acc hacc hlt
    exact ⟨hacc, by simp only [List.foldl_nil, List.map_nil, List.sum_nil]; omega⟩
  | cons m t ih =>
    intro acc hacc _
    have hm : R.Unmake (R.Make acc.st.position m) m = acc.st.position := by
      rw [hacc]; exact hl m (List.mem_cons_self m t)
    have hs := NegaMaxStep_nodeCount R depth child cn hchild acc m hm
    have ht := ih (fun x hx => hl x (List.mem_cons_of_mem m hx))
      (NegaMaxStep R depth child acc m) (by rw [hs.1, hacc])
      (by rw [hs.2]; exact Nat.mod_lt _ (by norm_num))
    rw [List.foldl_cons]
    refine ⟨ht.1, ?_⟩
    rw [ht.2, hs.2, hacc]
    simp only [List.map_cons, List.sum_cons]
    omega

/-- The node counter after `NegaMax`: it has grown by the number of nodes at plies 1 to `depth`
below the position, modulo `2 ^ 64`. -/
theorem NegaMax_nodeCount (R : Rules) (hrev : Reversible R) :
    ∀ depth st, st.nodeCount < 2 ^ 64 →
      (NegaMax R depth st).2.position = st.position ∧
      (NegaMax R depth st).2.nodeCount
        = (st.nodeCount + countNodes R depth st.position) % 2 ^ 64 := by
  intro depth
  induction depth with
  | zero =>
    intro st hlt
    refine ⟨rfl, ?_⟩
    show st.nodeCount = (st.nodeCount + 0) % 2 ^ 64
    omega
  | succ d ih =>
    intro st hlt
    have hf := NegaMax_fold_nodeCount R (d + 1) (NegaMax R d) (countNodes R d) ih st.position
      (R.GenerateMoves st.position) (fun m hm => hrev st.position m hm)
      { max := -1999999, pvBackup := List.replicate (d + 1) "", st := st } rfl hlt
    have hcn : countNodes R (d + 1) st.position
        = ((R.GenerateMoves st.position).map
            (fun m => 1 + countNodes R d (R.Make st.position m))).sum := by
      conv_lhs => unfold countNodes
    rw [hcn]
    by_cases hne : (R.GenerateMoves st.position).length > 0
    · unfold NegaMax
      simp only []
      rw [if_pos hne]
      exact hf
    · have hnil : R.GenerateMoves st.position = [] :=
        List.length_eq_zero.mp (by omega)
      unfold NegaMax
      simp only []
      rw [if_neg hne, hnil]
      simp only [List.map_nil, List.sum_nil, Nat.add_zero]
      have hmod : st.nodeCount = st.nodeCount % 2 ^ 64 := (Nat.mod_eq_of_lt hlt).symm
      split
      · exact ⟨rfl, hmod⟩
      · split
        · exact ⟨rfl, hmod⟩
        · exact ⟨rfl, hmod⟩

theorem NegaMaxRootStep_nodeCount (R : Rules) (hrev : Reversible R) (randomMode : Bool)
    (O : Oracle) (depth : Nat) (acc : RootAcc) (it : Move)
    (hit : R.Unmake (R.Make acc.st.position it) it = acc.st.position) :
    (NegaMaxRootStep R randomMode O depth acc it).st.position = acc.st.position ∧
    (NegaMaxRootStep R randomMode O depth acc it).st.nodeCount
      = (acc.st.nodeCount + (1 + countNodes R (depth - 1) (R.Make acc.st.position it)))
          % 2 ^ 64 := by
  unfold NegaMaxRootStep
  simp only []
  have h := NegaMax_nodeCount R hrev (depth - 1)
    { position := R.Make acc.st.position it, pv := acc.st.pv,
      nodeCount := (acc.st.nodeCount + 1) % 2 ^ 64 } (Nat.mod_lt _ (by norm_num))
  simp only [] at h
  rw [h.1, h.2, hit]
  by_cases hr : randomMode = true
  · simp only [if_pos hr]
    by_cases hc : -(NegaMax R (depth - 1)
        { position := R.Make acc.st.position it, pv := acc.st.pv,
          nodeCount := (acc.st.nodeCount + 1) % 2 ^ 64 }).1
        + O.dist depth acc.tried > acc.max
    · simp only [if_pos hc]
      exact ⟨trivial, by omega⟩
    · simp only [if_neg hc]
      exact ⟨trivial, by omega⟩
  · simp only [if_neg hr]
    by_cases hc : -(NegaMax R (depth - 1)
        { position := R.Make acc.st.position it, pv := acc.st.pv,
          nodeCount := (acc.st.nodeCount + 1) % 2 ^ 64 }).1 > acc.max
    · simp only [if_pos hc]
      exact ⟨trivial, by omega⟩
    · simp only [if_neg hc]
      exact ⟨trivial, by omega⟩

theorem NegaMaxRoot_fold_nodeCount (R : Rules) (hrev : Reversible R) (randomMode : Bool)
    (O : Oracle) (depth : Nat) (b : Board) (l : List Move)
    (hl : ∀ m ∈ l, R.Unmake (R.Make b m) m = b) :
    ∀ acc : RootAcc, acc.st.position = b → acc.st.nodeCount < 2 ^ 64 →
      (l.foldl (NegaMaxRootStep R randomMode O depth) acc).st.nodeCount
        = (acc.st.nodeCount + (l.map (fun m => 1 + countNodes R (depth - 1) (R.Make b m))).sum)
            % 2 ^ 64 := by
  induction l with
  | nil =>
    intro acc _ hlt
    simp only [List.foldl_nil, List.map_nil, List.sum_nil]
    omega
  | cons m t ih =>
    intro acc hacc _
    have hm : R.Unmake (R.Make acc.st.position m) m = acc.st.position := by
      rw [hacc]; exact hl m (List.mem_cons_self m t)
    have hs := NegaMaxRootStep_nodeCount R hrev randomMode O depth acc m hm
    have ht := ih (fun x hx => hl x (List.mem_cons_of_mem m hx))
      (NegaMaxRootStep R randomMode O depth acc m) (by rw [hs.1, hacc])
      (by rw [hs.2]; exact Nat.mod_lt _ (by norm_num))
    rw [List.foldl_cons, ht, hs.2, hacc]
    simp only [List.map_cons, List.sum_cons]
    omega

/-- The node counter and `leafNodesAtCurrentDepth` after one iteration of `NegaMaxRoot`: the
counter has grown by the number of nodes at plies 1 to `depth`, modulo `2 ^ 64`, and the 32-bit
variable holds that number modulo `2 ^ 32`. -/
theorem NegaMaxRootIteration_nodeCount (R : Rules) (hrev : Reversible R) (G : Globals)
    (O : Oracle) (depth : Nat) (rs : RootState) (hd : 1 ≤ depth)
    (hn : rs.st.nodeCount < 2 ^ 64) :
    (NegaMaxRootIteration R G O depth rs).st.nodeCount
      = (rs.st.nodeCount + countNodes R depth rs.st.position) % 2 ^ 64 ∧
    (NegaMaxRootIteration R G O depth rs).leafNodesAtCurrentDepth
      = countNodes R depth rs.st.position % 2 ^ 32 := by
  have hf := NegaMaxRoot_fold_nodeCount R hrev G.randomMode O depth rs.st.position
    (R.GenerateMoves rs.st.position) (fun m hm => hrev _ m hm)
    { max := -3000000, bestMove := { rs.bestMove with TargetLocation := 0 },
      pvBackup := List.replicate depth "",
      st := { rs.st with
        pv := (List.range depth).foldl (fun p count => p.set count "") (rs.st.pv ++ [""]) },
      tried := 0 } rfl hn
  simp only [] at hf
  have hcn : countNodes R depth rs.st.position
      = ((R.GenerateMoves rs.st.position).map
          (fun m => 1 + countNodes R (depth - 1) (R.Make rs.st.position m))).sum := by
    obtain ⟨d, rfl⟩ : ∃ d, depth = d + 1 := ⟨depth - 1, by omega⟩
    conv_lhs => unfold countNodes
    rfl
  rw [← hcn] at hf
  unfold NegaMaxRootIteration
  simp only []
  rw [hf]
  constructor
  · trivial
  · omega

theorem mod_chain (r0 c x S y : Nat) (h1 : x = (r0 + c) % 2 ^ 64)
    (h2 : y = (x + S) % 2 ^ 64) : y = (r0 + (c + S)) % 2 ^ 64 := by
  omega

theorem NegaMaxRootLoop_nodeCount (R : Rules) (hrev : Reversible R) (G : Globals) (O : Oracle)
    (t : Nat) (b : Board) :
    ∀ fuel depth rs, rs.st.position = b → rs.st.nodeCount < 2 ^ 64 → 1 ≤ depth →
      (NegaMaxRootLoop R G O t fuel depth rs).1.st.nodeCount
        = (rs.st.nodeCount
            + ∑ D in Finset.Ico depth ((NegaMaxRootLoop R G O t fuel depth rs).2 + 1),
                countNodes R D b) % 2 ^ 64 := by
  intro fuel
  induction fuel with
  | zero =>
    intro depth rs hrs hn hd
    have hit := (NegaMaxRootIteration_nodeCount R hrev G O depth rs hd hn).1
    rw [hrs] at hit
    unfold NegaMaxRootLoop
    simp only []
    split
    · simp only [Nat.Ico_succ_singleton, Finset.sum_singleton]
      exact hit
    · split
      · simp only [Nat.Ico_succ_singleton, Finset.sum_singleton]
        exact hit
      · simp only [Nat.Ico_succ_singleton, Finset.sum_singleton]
        exact hit
  | succ f ih =>
    intro depth rs hrs hn hd
    have hit := (NegaMaxRootIteration_nodeCount R hrev G O depth rs hd hn).1
    have hpos := (NegaMaxRootIteration_spec R hrev G O depth rs).1
    rw [hrs] at hit
    unfold NegaMaxRootLoop
    simp only []
    split
    · simp only [Nat.Ico_succ_singleton, Finset.sum_singleton]
      exact hit
    · split
      · simp only [Nat.Ico_succ_singleton, Finset.sum_singleton]
        exact hit
      · have hrec := ih (depth + 1)
          { st := (NegaMaxRootIteration R G O depth rs).st,
            max := (NegaMaxRootIteration R G O depth rs).max,
            bestMove := (NegaMaxRootIteration R G O depth rs).bestMove,
            leafNodesAtCurrentDepth :=
              (NegaMaxRootIteration R G O depth rs).leafNodesAtCurrentDepth,
            output := (NegaMaxRootIteration R G O depth rs).output
              ++ [OutputLine.nextDepth (depth + 1) G.maxSearchDepth] }
          (by simp only []; rw [hpos, hrs])
          (by simp only []; rw [hit]; exact Nat.mod_lt _ (by norm_num))
          (by omega)
        obtain ⟨_, _, _, hle, _⟩ := NegaMaxRootLoop_spec R hrev G O t b f (depth + 1)
          { st := (NegaMaxRootIteration R G O depth rs).st,
            max := (NegaMaxRootIteration R G O depth rs).max,
            bestMove := (NegaMaxRootIteration R G O depth rs).bestMove,
            leafNodesAtCurrentDepth :=
              (NegaMaxRootIteration R G O depth rs).leafNodesAtCurrentDepth,
            output := (NegaMaxRootIteration R G O depth rs).output
              ++ [OutputLine.nextDepth (depth + 1) G.maxSearchDepth] }
          (by simp only []; rw [hpos, hrs])
        simp only [] at hrec
        rw [Finset.sum_eq_sum_Ico_succ_bot (Nat.lt_succ_of_le (Nat.le_of_succ_le hle))]
        exact mod_chain _ _ _ _ _ hit hrec

theorem sum_mod_two_pow_32 (s : Finset Nat) (f : Nat → Nat) :
    (∑ k in s, f k % 2 ^ 64) % 2 ^ 32 = (∑ k in s, f k) % 2 ^ 32 := by
  have h1 : (∑ k in s, f k % 2 ^ 64) % 2 ^ 64 = (∑ k in s, f k) % 2 ^ 64 :=
    (Finset.sum_nat_mod s (2 ^ 64) f).symm
  omega

theorem sum_two_pow_32 : ∑ k in Finset.range 32, 2 ^ (k + 1) = 8589934590 := by
  decide

/-- C19 (counterexample). In the game where every position has two moves, the iteration of
depth 32 visits `2 + 4 + ... + 2 ^ 32 = 8589934590` nodes, which is also the sum of
`Perft(position, k)` for `k = 1..32`, but `leafNodesAtCurrentDepth` receives 4294967294: the
cast to 32 bits has dropped the high part. -/
theorem leafNodesAtCurrentDepth_truncated :
    Reversible binaryRules ∧
    ∑ k in Finset.range 32, (Perft binaryRules (k + 1) mateLine0).1 = 8589934590 ∧
    (NegaMaxRootIteration binaryRules sampleGlobals sampleOracle 32
      sampleRootState).leafNodesAtCurrentDepth = 4294967294 := by
  refine ⟨binaryRules_reversible, ?_, ?_⟩
  · have h : ∀ k ∈ Finset.range 32, (Perft binaryRules (k + 1) mateLine0).1 = 2 ^ (k + 1) := by
      intro k hk
      rw [Perft_count binaryRules binaryRules_reversible k, countSequences_binary]
      apply Nat.mod_eq_of_lt
      exact Nat.pow_lt_pow_right (by norm_num) (by have := Finset.mem_range.mp hk; omega)
    rw [Finset.sum_congr rfl h]
    exact sum_two_pow_32
  · rw [(NegaMaxRootIteration_nodeCount binaryRules binaryRules_reversible sampleGlobals
      sampleOracle 32 sampleRootState (by norm_num) (by decide)).2, countNodes_eq_sum]
    simp only [countSequences_binary]
    rw [sum_two_pow_32]
    decide

/-- C19 (amended). With `Unmake` reversing `Make`: an iteration of `NegaMaxRoot` at depth
`D >= 1` adds to the 64-bit node counter, modulo `2 ^ 64`, the number of nodes at plies 1 to
`D` of the legal move tree; `leafNodesAtCurrentDepth` receives the sum for `k = 1..D` of
`Perft(position, k)` reduced modulo `2 ^ 32` (not `Perft(position, D)`); and the counter
starts from 0 at every root call, so that on return it holds the total over the iterations
run. -/
theorem NegaMaxRoot_node_counter (R : Rules) (G : Globals) (O : Oracle) (hrev : Reversible R)
    (position : Board) (pv : List String) (bestMove : Move) (t : Nat)
    (htime : availableTimeForThisMove G.currentClock G.currentPosition = some t)
    (depth : Nat) (rs : RootState) (hd : 1 ≤ depth) (hn : rs.st.nodeCount < 2 ^ 64) :
    (NegaMaxRootIteration R G O depth rs).st.nodeCount
      = (rs.st.nodeCount + ∑ k in Finset.range depth, countSequences R (k + 1) rs.st.position)
          % 2 ^ 64 ∧
    (NegaMaxRootIteration R G O depth rs).leafNodesAtCurrentDepth
      = (∑ k in Finset.range depth, (Perft R (k + 1) rs.st.position).1) % 2 ^ 32 ∧
    ∃ r, NegaMaxRoot R G O position pv bestMove = some r ∧
      r.nodeCount
        = (∑ D in Finset.Ico 1 (r.depth + 1),
            ∑ k in Finset.range D, countSequences R (k + 1) position) % 2 ^ 64 := by
  have hit := NegaMaxRootIteration_nodeCount R hrev G O depth rs hd hn
  refine ⟨?_, ?_, ?_⟩
  · rw [hit.1, countNodes_eq_sum]
  · rw [hit.2, countNodes_eq_sum]
    simp only [Perft_count R hrev]
    exact (sum_mod_two_pow_32 _ _).symm
  · have hl := NegaMaxRootLoop_nodeCount R hrev G O t position G.maxSearchDepth.toNat 1
      { st := { position := position, pv := pv, nodeCount := 0 }, max := 0,
        bestMove := bestMove, leafNodesAtCurrentDepth := 0, output := [] }
      rfl (by norm_num) (le_refl 1)
    simp only [Nat.zero_add, countNodes_eq_sum] at hl
    unfold NegaMaxRoot
    rw [htime]
    exact ⟨_, rfl, hl⟩

/-- Witness for C19 (amended): the sample line, iteration of depth 2 from the state in which
the root loop is entered. -/
theorem NegaMaxRoot_node_counter_witness :
    Reversible mateLineRules ∧
    availableTimeForThisMove sampleGlobals.currentClock sampleGlobals.currentPosition
      = some 490 ∧
    (1 ≤ 2) ∧ sampleRootState.st.nodeCount < 2 ^ 64 ∧
    ((NegaMaxRootIteration mateLineRules sampleGlobals sampleOracle 2 sampleRootState).st.nodeCount
      = (sampleRootState.st.nodeCount
          + ∑ k in Finset.range 2, countSequences mateLineRules (k + 1) sampleRootState.st.position)
          % 2 ^ 64 ∧
    (NegaMaxRootIteration mateLineRules sampleGlobals sampleOracle 2
        sampleRootState).leafNodesAtCurrentDepth
      = (∑ k in Finset.range 2, (Perft mateLineRules (k + 1) sampleRootState.st.position).1)
          % 2 ^ 32 ∧
    ∃ r, NegaMaxRoot mateLineRules sampleGlobals sampleOracle mateLine0 [] moveRh1 = some r ∧
      r.nodeCount
        = (∑ D in Finset.Ico 1 (r.depth + 1),
            ∑ k in Finset.range D, countSequences mateLineRules (k + 1) mateLine0) % 2 ^ 64) :=
  ⟨mateLineRules_reversible, by decide, by decide, by decide,
    NegaMaxRoot_node_counter mateLineRules sampleGlobals sampleOracle mateLineRules_reversible
      mateLine0 [] moveRh1 490 (by decide) 2 sampleRootState (by decide) (by decide)⟩

/-! ## The mate score -/

/-- At a node where the side to move is checkmated, `NegaMax` with remaining depth
`depth >= 1` returns `-1999999 - depth`. -/
theorem NegaMax_checkmated (R : Rules) (depth : Nat) (st : SearchState) (hd : 1 ≤ depth)
    (h : Checkmated R st.position) : (NegaMax R depth st).1 = -1999999 - (depth : Int) := by
  obtain ⟨hmoves, hatt⟩ := h
  cases depth with
  | zero => omega
  | succ d =>
    unfold NegaMax
    simp only [hmoves, List.length_nil, gt_iff_lt, lt_self_iff_false, if_false]
    rcases hatt with ⟨hc, ha⟩ | ⟨hc, ha⟩
    · simp [hc, ha]
    · simp [hc, ha]

theorem mateLine2_checkmated : Checkmated mateLineRules mateLine2 :=
  ⟨by decide, Or.inl ⟨rfl, by decide⟩⟩

/-- C20 (counterexample). For the checkmated position of the sample line, the parent's score
for the mating move is 2000000 when the mated node has remaining depth 1 and 2000001 when it has
remaining depth 2: the smaller remaining depth does not give the higher score. -/
theorem mate_score_smaller_depth_not_higher :
    Checkmated mateLineRules mateLine2 ∧
    -(NegaMax mateLineRules 1 { position := mateLine2, pv := [""], nodeCount := 0 }).1
      = 2000000 ∧
    -(NegaMax mateLineRules 2 { position := mateLine2, pv := ["", ""], nodeCount := 0 }).1
      = 2000001 ∧
    ¬ (-(NegaMax mateLineRules 1 { position := mateLine2, pv := [""], nodeCount := 0 }).1
        > -(NegaMax mateLineRules 2
            { position := mateLine2, pv := ["", ""], nodeCount := 0 }).1) := by
  refine ⟨mateLine2_checkmated, by decide, by decide, by decide⟩

/-- C20 (amended). The parent's score for a move into a checkmated node with remaining depth
`d >= 1` is `1999999 + d`.  Hence a checkmate found at a node with smaller remaining depth
(reached after more plies of the same iteration) gives the parent a strictly lower score than
a checkmate found at a node with larger remaining depth: the quicker mate scores higher for
the side delivering it. -/
theorem mate_score_prefers_quicker_mate (R : Rules) (d1 d2 : Nat) (s1 s2 : SearchState)
    (h1 : 1 ≤ d1) (h12 : d1 < d2) (hm1 : Checkmated R s1.position)
    (hm2 : Checkmated R s2.position) :
    -(NegaMax R d1 s1).1 = 1999999 + (d1 : Int) ∧
    -(NegaMax R d2 s2).1 = 1999999 + (d2 : Int) ∧
    -(NegaMax R d1 s1).1 < -(NegaMax R d2 s2).1 := by
  rw [NegaMax_checkmated R d1 s1 h1 hm1, NegaMax_checkmated R d2 s2 (by omega) hm2]
  refine ⟨by omega, by omega, by omega⟩

/-- Witness for C20 (amended): the checkmated position of the sample line with remaining
depths 1 and 2. -/
theorem mate_score_prefers_quicker_mate_witness :
    (1 ≤ 1) ∧ (1 < 2) ∧ Checkmated mateLineRules mateLine2 ∧
    (-(NegaMax mateLineRules 1 { position := mateLine2, pv := [""], nodeCount := 0 }).1
      = 1999999 + ((1 : Nat) : Int) ∧
    -(NegaMax mateLineRules 2 { position := mateLine2, pv := ["", ""], nodeCount := 0 }).1
      = 1999999 + ((2 : Nat) : Int) ∧
    -(NegaMax mateLineRules 1 { position := mateLine2, pv := [""], nodeCount := 0 }).1
      < -(NegaMax mateLineRules 2 { position := mateLine2, pv := ["", ""], nodeCount := 0 }).1) :=
  ⟨le_refl 1, by decide, mateLine2_checkmated,
    mate_score_prefers_quicker_mate mateLineRules 1 2
      { position := mateLine2, pv := [""], nodeCount := 0 }
      { position := mateLine2, pv := ["", ""], nodeCount := 0 }
      (le_refl 1) (by decide) mateLine2_checkmated mateLine2_checkmated⟩

/-! ## The game result -/

/-- What `GetGameResult` computes: the legal moves and the side to move are those of the
argument, the attack test is made on the process-wide `currentPosition`. -/
theorem GetGameResult_eq (R : Rules) (currentPosition position : Board) :
    (R.GenerateMoves position ≠ [] → GetGameResult R currentPosition position = "") ∧
    (R.GenerateMoves position = [] →
      (GetGameResult R currentPosition position = "1-0 \x7bWhite mates\x7d" ↔
        position.ColorToMove = PieceColor.BLACK
          ∧ R.IsSquareAttacked currentPosition.BlackKing currentPosition = true) ∧
      (GetGameResult R currentPosition position = "0-1 \x7bBlack mates\x7d" ↔
        position.ColorToMove = PieceColor.WHITE
          ∧ R.IsSquareAttacked currentPosition.WhiteKing currentPosition = true)) := by
  constructor
  · intro hne
    have hl : (R.GenerateMoves position).length ≠ 0 := fun h => hne (List.length_eq_zero.mp h)
    simp [GetGameResult, IsGameOver, hl]
  · intro he
    unfold GetGameResult IsGameOver
    simp only [he, List.length_nil, if_true]
    constructor
    · constructor
      · intro h
        by_contra hc
        rw [if_neg hc] at h
        split at h
        · exact absurd h (by decide)
        · exact absurd h (by decide)
      · intro h
        rw [if_pos h]
    · constructor
      · intro h
        split at h
        · exact absurd h (by decide)
        · split at h
          · assumption
          · exact absurd h (by decide)
      · intro h
        rw [if_neg (by rw [h.1]; simp), if_pos h]

/-- C18 (failing input). The checkmated position of the sample line (White to move, no legal
move, white king attacked) is passed while the process-wide `currentPosition` is the first
position of the line, where the white king is not attacked: the result is the stalemate text
instead of the mate text; passed while `currentPosition` is the same position, the result is
the mate text.  The result is not a function of the argument alone. -/
theorem GetGameResult_reads_currentPosition :
    mateLineRules.GenerateMoves mateLine2 = [] ∧
    mateLine2.ColorToMove = PieceColor.WHITE ∧
    mateLineRules.IsSquareAttacked mateLine2.WhiteKing mateLine2 = true ∧
    GetGameResult mateLineRules mateLine0 mateLine2 = "1/2-1/2 \x7bStalemate\x7d" ∧
    GetGameResult mateLineRules mateLine2 mateLine2 = "0-1 \x7bBlack mates\x7d" := by
  decide

/-! ## Square names -/

theorem char_eq_fileChar (c : Char) (h : 97 ≤ c.toNat ∧ c.toNat ≤ 104) :
    c = fileChar (c.toNat - 97) := by
  unfold fileChar
  have e : 97 + (c.toNat - 97) = c.toNat := by omega
  rw [e, Char.ofNat_toNat]

theorem char_eq_rankChar (c : Char) (h : 49 ≤ c.toNat ∧ c.toNat ≤ 56) :
    c = rankChar (c.toNat - 49) := by
  unfold rankChar
  have e : 49 + (c.toNat - 49) = c.toNat := by omega
  rw [e, Char.ofNat_toNat]

theorem GetSquareFromAlgebraic_fin : ∀ i j : Fin 8,
    GetSquareFromAlgebraic (String.mk [fileChar i.val, rankChar j.val])
      = some (1 <<< (8 * j.val + i.val)) := by
  decide

/-- The square named by a file letter and a rank digit. -/
theorem GetSquareFromAlgebraic_square (f r : Char) (hf : 97 ≤ f.toNat ∧ f.toNat ≤ 104)
    (hr : 49 ≤ r.toNat ∧ r.toNat ≤ 56) :
    GetSquareFromAlgebraic (String.mk [f, r])
      = some (1 <<< (8 * (r.toNat - 49) + (f.toNat - 97))) := by
  have h := GetSquareFromAlgebraic_fin ⟨f.toNat - 97, by omega⟩ ⟨r.toNat - 49, by omega⟩
  simp only [] at h
  rw [← char_eq_fileChar f hf, ← char_eq_rankChar r hr] at h
  exact h

/-- C14. For every file letter `f` in `a..h` and rank digit `r` in `1..8`,
`GetSquareFromAlgebraic` applied to the two-character string `f r` returns the single-square
mask `1 << (8 * (r - '1') + (f - 'a'))`, and the shift amount is below 64. -/
theorem GetSquareFromAlgebraic_mask (f r : Char)
    (hf : 'a'.toNat ≤ f.toNat ∧ f.toNat ≤ 'h'.toNat)
    (hr : '1'.toNat ≤ r.toNat ∧ r.toNat ≤ '8'.toNat) :
    GetSquareFromAlgebraic (String.mk [f, r])
      = some (1 <<< (8 * (r.toNat - '1'.toNat) + (f.toNat - 'a'.toNat))) ∧
    8 * (r.toNat - '1'.toNat) + (f.toNat - 'a'.toNat) < 64 := by
  have ea : 'a'.toNat = 97 := rfl
  have eh : 'h'.toNat = 104 := rfl
  have e1 : '1'.toNat = 49 := rfl
  have e8 : '8'.toNat = 56 := rfl
  rw [ea, eh] at hf
  rw [e1, e8] at hr
  rw [ea, e1]
  exact ⟨GetSquareFromAlgebraic_square f r hf hr, by omega⟩

/-- Witness for C14: the four corners a1, h1, a8 and h8 map to bits 0, 7, 56 and 63. -/
theorem GetSquareFromAlgebraic_mask_witness :
    ('a'.toNat ≤ 'h'.toNat ∧ 'h'.toNat ≤ 'h'.toNat) ∧
    ('1'.toNat ≤ '8'.toNat ∧ '8'.toNat ≤ '8'.toNat) ∧
    GetSquareFromAlgebraic "a1" = some (1 <<< 0) ∧
    GetSquareFromAlgebraic "h1" = some (1 <<< 7) ∧
    GetSquareFromAlgebraic "a8" = some (1 <<< 56) ∧
    (GetSquareFromAlgebraic (String.mk ['h', '8'])
      = some (1 <<< (8 * ('8'.toNat - '1'.toNat) + ('h'.toNat - 'a'.toNat))) ∧
    8 * ('8'.toNat - '1'.toNat) + ('h'.toNat - 'a'.toNat) < 64) :=
  ⟨by decide, by decide, by decide, by decide, by decide,
    GetSquareFromAlgebraic_mask 'h' '8' (by decide) (by decide)⟩

theorem square_strings_fin : ∀ i : Fin 64,
    GetFileFromLocation (1 <<< i.val) = String.mk [fileChar (i.val % 8)] ∧
    toString (GetRankFromLocation (1 <<< i.val)) = String.mk [rankChar (i.val / 8)] ∧
    GetRankFromLocation (1 <<< i.val) = ((i.val / 8 + 1 : Nat) : Int) := by
  decide

/-- The file letter and the rank digit `GetFileFromLocation` and `GetRankFromLocation` give
for the square named by `f` and `r`. -/
theorem square_strings (f r : Char) (hf : 97 ≤ f.toNat ∧ f.toNat ≤ 104)
    (hr : 49 ≤ r.toNat ∧ r.toNat ≤ 56) :
    GetFileFromLocation (1 <<< (8 * (r.toNat - 49) + (f.toNat - 97))) = String.mk [f] ∧
    toString (GetRankFromLocation (1 <<< (8 * (r.toNat - 49) + (f.toNat - 97))))
      = String.mk [r] := by
  have h := square_strings_fin ⟨8 * (r.toNat - 49) + (f.toNat - 97), by omega⟩
  simp only [] at h
  have e1 : (8 * (r.toNat - 49) + (f.toNat - 97)) % 8 = f.toNat - 97 := by omega
  have e2 : (8 * (r.toNat - 49) + (f.toNat - 97)) / 8 = r.toNat - 49 := by omega
  rw [e1, e2, ← char_eq_fileChar f hf, ← char_eq_rankChar r hr] at h
  exact ⟨h.1, h.2.1⟩

theorem fileChar_isLower : ∀ i : Fin 8, (fileChar i.val).isLower = true := by decide

theorem rankChar_isDigit : ∀ j : Fin 8, (rankChar j.val).isDigit = true := by decide

theorem promotionLetter_isLower (P : PieceRank) :
    ∀ c ∈ promotionLetter P, c.isLower = true := by
  cases P <;> simp [promotionLetter]

/-- The text `GenerateXBoardNotation` produces for a move between two named squares. -/
theorem GenerateXBoardNotation_eq (f1 r1 f2 r2 : Char)
    (hf1 : 97 ≤ f1.toNat ∧ f1.toNat ≤ 104) (hr1 : 49 ≤ r1.toNat ∧ r1.toNat ≤ 56)
    (hf2 : 97 ≤ f2.toNat ∧ f2.toNat ≤ 104) (hr2 : 49 ≤ r2.toNat ∧ r2.toNat ≤ 56)
    (m : Move)
    (hs : m.SourceLocation = 1 <<< (8 * (r1.toNat - 49) + (f1.toNat - 97)))
    (ht : m.TargetLocation = 1 <<< (8 * (r2.toNat - 49) + (f2.toNat - 97))) :
    GenerateXBoardNotation m
      = String.mk ([f1, r1, f2, r2] ++ promotionLetter m.PromotedRank) := by
  have h1 := square_strings f1 r1 hf1 hr1
  have h2 := square_strings f2 r2 hf2 hr2
  unfold GenerateXBoardNotation
  simp only [hs, ht, h1.1, h1.2, h2.1, h2.2]
  cases m.PromotedRank <;> rfl

/-- C15. Notation round trip: for squares named by `f1 r1` and `f2 r2` (file letters `a..h`,
rank digits `1..8`) and a move whose source and target are the masks
`GetSquareFromAlgebraic` gives for them, `GenerateXBoardNotation` returns exactly
`f1 r1 f2 r2` followed by the promotion letter (`n`, `b`, `r`, `q`, nothing for `NONE`); the
output has 4 or 5 characters, each a lower-case letter or a digit, and
`GetSquareFromAlgebraic` of its first two and of its next two characters gives back the
source and target masks. -/
theorem GenerateXBoardNotation_roundtrip (f1 r1 f2 r2 : Char)
    (hf1 : 'a'.toNat ≤ f1.toNat ∧ f1.toNat ≤ 'h'.toNat)
    (hr1 : '1'.toNat ≤ r1.toNat ∧ r1.toNat ≤ '8'.toNat)
    (hf2 : 'a'.toNat ≤ f2.toNat ∧ f2.toNat ≤ 'h'.toNat)
    (hr2 : '1'.toNat ≤ r2.toNat ∧ r2.toNat ≤ '8'.toNat)
    (m : Move)
    (hs : GetSquareFromAlgebraic (String.mk [f1, r1]) = some m.SourceLocation)
    (ht : GetSquareFromAlgebraic (String.mk [f2, r2]) = some m.TargetLocation) :
    GenerateXBoardNotation m
      = String.mk ([f1, r1, f2, r2] ++ promotionLetter m.PromotedRank) ∧
    ((GenerateXBoardNotation m).length = 4 ∨ (GenerateXBoardNotation m).length = 5) ∧
    (∀ c ∈ (GenerateXBoardNotation m).data, c.isLower = true ∨ c.isDigit = true) ∧
    GetSquareFromAlgebraic (String.mk ((GenerateXBoardNotation m).data.take 2))
      = some m.SourceLocation ∧
    GetSquareFromAlgebraic (String.mk (((GenerateXBoardNotation m).data.drop 2).take 2))
      = some m.TargetLocation := by
  have ea : 'a'.toNat = 97 := rfl
  have eh : 'h'.toNat = 104 := rfl
  have e1 : '1'.toNat = 49 := rfl
  have e8 : '8'.toNat = 56 := rfl
  rw [ea, eh] at hf1 hf2
  rw [e1, e8] at hr1 hr2
  have hs1 := GetSquareFromAlgebraic_square f1 r1 hf1 hr1
  have ht1 := GetSquareFromAlgebraic_square f2 r2 hf2 hr2
  have hsrc : m.SourceLocation = 1 <<< (8 * (r1.toNat - 49) + (f1.toNat - 97)) := by
    rw [hs] at hs1
    exact Option.some.inj hs1
  have htgt : m.TargetLocation = 1 <<< (8 * (r2.toNat - 49) + (f2.toNat - 97)) := by
    rw [ht] at ht1
    exact Option.some.inj ht1
  have heq := GenerateXBoardNotation_eq f1 r1 f2 r2 hf1 hr1 hf2 hr2 m hsrc htgt
  rw [heq]
  refine ⟨rfl, ?_, ?_, ?_, ?_⟩
  · cases m.PromotedRank <;> simp [promotionLetter, String.length]
  · intro c hc
    simp only [List.cons_append, List.nil_append, List.mem_cons] at hc
    rcases hc with rfl | rfl | rfl | rfl | hc
    · left
      rw [char_eq_fileChar c hf1]
      exact fileChar_isLower ⟨c.toNat - 97, by omega⟩
    · right
      rw [char_eq_rankChar c hr1]
      exact rankChar_isDigit ⟨c.toNat - 49, by omega⟩
    · left
      rw [char_eq_fileChar c hf2]
      exact fileChar_isLower ⟨c.toNat - 97, by omega⟩
    · right
      rw [char_eq_rankChar c hr2]
      exact rankChar_isDigit ⟨c.toNat - 49, by omega⟩
    · left
      exact promotionLetter_isLower m.PromotedRank c hc
  · exact hs
  · exact ht

/-- Witness for C15: the move e7-e8 promoting to a queen is written `e7e8q`. -/
theorem GenerateXBoardNotation_roundtrip_witness :
    ('a'.toNat ≤ 'e'.toNat ∧ 'e'.toNat ≤ 'h'.toNat) ∧
    ('1'.toNat ≤ '7'.toNat ∧ '7'.toNat ≤ '8'.toNat) ∧
    ('1'.toNat ≤ '8'.toNat ∧ '8'.toNat ≤ '8'.toNat) ∧
    GetSquareFromAlgebraic (String.mk ['e', '7']) = some samplePromotion.SourceLocation ∧
    GetSquareFromAlgebraic (String.mk ['e', '8']) = some samplePromotion.TargetLocation ∧
    GenerateXBoardNotation samplePromotion = "e7e8q" ∧
    (GenerateXBoardNotation samplePromotion
      = String.mk (['e', '7', 'e', '8'] ++ promotionLetter samplePromotion.PromotedRank) ∧
    ((GenerateXBoardNotation samplePromotion).length = 4
      ∨ (GenerateXBoardNotation samplePromotion).length = 5) ∧
    (∀ c ∈ (GenerateXBoardNotation samplePromotion).data,
      c.isLower = true ∨ c.isDigit = true) ∧
    GetSquareFromAlgebraic (String.mk ((GenerateXBoardNotation samplePromotion).data.take 2))
      = some samplePromotion.SourceLocation ∧
    GetSquareFromAlgebraic
        (String.mk (((GenerateXBoardNotation samplePromotion).data.drop 2).take 2))
      = some samplePromotion.TargetLocation) :=
  ⟨by decide, by decide, by decide, by decide, by decide, by decide,
    GenerateXBoardNotation_roundtrip 'e' '7' 'e' '8' (by decide) (by decide) (by decide)
      (by decide) samplePromotion (by decide) (by decide)⟩

/-! ## Move entry -/

theorem any_MoveEquals (move : Move) (l : List Move) :
    l.any (fun it => MoveEquals move it) = true ↔ move ∈ l := by
  simp [List.any_eq_true, MoveEquals]

/-- What `GetMoveFromXBoardNotation` returns once the move is built: the built move when the
generator lists it, the built move with a zero target otherwise; the board is unchanged. -/
theorem GetMoveFromXBoardNotation_of_build (R : Rules) (GetRankAt : Board → Nat → PieceRank)
    (position : Board) (moveString : String) (move built : Move)
    (h : BuildMoveFromXBoardNotation GetRankAt position moveString move = some built) :
    GetMoveFromXBoardNotation R GetRankAt position moveString move
      = some (if built ∈ R.GenerateMoves position then built
          else { built with TargetLocation := 0 }, position) := by
  unfold GetMoveFromXBoardNotation
  rw [h]
  simp only []
  by_cases hm : built ∈ R.GenerateMoves position
  · rw [if_pos hm, if_neg (by rw [(any_MoveEquals built _).mpr hm]; simp)]
  · have hf : ¬ (R.GenerateMoves position).any (fun it => MoveEquals built it) = true :=
      fun hc => hm ((any_MoveEquals built _).mp hc)
    rw [if_neg hm, if_pos hf]

/-- The move built from a well-formed string: source and target are the named squares, and the
colour and the saved state come from the position. -/
theorem BuildMoveFromXBoardNotation_wellFormed (GetRankAt : Board → Nat → PieceRank)
    (position : Board) (move : Move) (f1 r1 f2 r2 : Char) (promotion : List Char)
    (hf1 : 97 ≤ f1.toNat ∧ f1.toNat ≤ 104) (hr1 : 49 ≤ r1.toNat ∧ r1.toNat ≤ 56)
    (hf2 : 97 ≤ f2.toNat ∧ f2.toNat ≤ 104) (hr2 : 49 ≤ r2.toNat ∧ r2.toNat ≤ 56) :
    ∃ built,
      BuildMoveFromXBoardNotation GetRankAt position
        (String.mk (f1 :: r1 :: f2 :: r2 :: promotion)) move = some built ∧
      built.SourceLocation = 1 <<< (8 * (r1.toNat - 49) + (f1.toNat - 97)) ∧
      built.TargetLocation = 1 <<< (8 * (r2.toNat - 49) + (f2.toNat - 97)) ∧
      built.MoveColor = position.ColorToMove ∧
      built.MovingPiece = GetRankAt position built.SourceLocation ∧
      built.CastlingStatus = position.CastlingStatus ∧
      built.CurrentEnPassant = position.EnPassantTarget ∧
      built.CurrentHalfMoves = position.HalfMoveCounter := by
  have e1 : substr (String.mk (f1 :: r1 :: f2 :: r2 :: promotion)) 0 2
      = some (String.mk [f1, r1]) := by
    simp [substr]
  have e2 : substr (String.mk (f1 :: r1 :: f2 :: r2 :: promotion)) 2 2
      = some (String.mk [f2, r2]) := by
    simp [substr, String.length]
  unfold BuildMoveFromXBoardNotation
  rw [e1]
  simp only []
  rw [GetSquareFromAlgebraic_square f1 r1 hf1 hr1]
  simp only []
  rw [e2]
  simp only []
  rw [GetSquareFromAlgebraic_square f2 r2 hf2 hr2]
  simp only []
  exact ⟨_, rfl, rfl, rfl, rfl, rfl, rfl, rfl, rfl⟩

/-- The promotion rank of the move built from a well-formed string. -/
theorem BuildMoveFromXBoardNotation_promotion (GetRankAt : Board → Nat → PieceRank)
    (position : Board) (move built : Move) (f1 r1 f2 r2 : Char) (promotion : List Char)
    (hf1 : 97 ≤ f1.toNat ∧ f1.toNat ≤ 104) (hr1 : 49 ≤ r1.toNat ∧ r1.toNat ≤ 56)
    (hf2 : 97 ≤ f2.toNat ∧ f2.toNat ≤ 104) (hr2 : 49 ≤ r2.toNat ∧ r2.toNat ≤ 56)
    (h : BuildMoveFromXBoardNotation GetRankAt position
      (String.mk (f1 :: r1 :: f2 :: r2 :: promotion)) move = some built) :
    (promotion = [] → built.PromotedRank = PieceRank.NONE) ∧
    (promotion = ['n'] → built.PromotedRank = PieceRank.KNIGHT) ∧
    (promotion = ['b'] → built.PromotedRank = PieceRank.BISHOP) ∧
    (promotion = ['r'] → built.PromotedRank = PieceRank.ROOK) ∧
    (promotion = ['q'] → built.PromotedRank = PieceRank.QUEEN) := by
  have e1 : substr (String.mk (f1 :: r1 :: f2 :: r2 :: promotion)) 0 2
      = some (String.mk [f1, r1]) := by
    simp [substr]
  have e2 : substr (String.mk (f1 :: r1 :: f2 :: r2 :: promotion)) 2 2
      = some (String.mk [f2, r2]) := by
    simp [substr, String.length]
  unfold BuildMoveFromXBoardNotation at h
  rw [e1] at h
  simp only [] at h
  rw [GetSquareFromAlgebraic_square f1 r1 hf1 hr1] at h
  simp only [] at h
  rw [e2] at h
  simp only [] at h
  rw [GetSquareFromAlgebraic_square f2 r2 hf2 hr2] at h
  simp only [] at h
  have hb := Option.some.inj h
  rw [← hb]
  refine ⟨?_, ?_, ?_, ?_, ?_⟩ <;> intro hp <;> subst hp <;> simp [String.length]

/-- C16. For every position and every well-formed move string (file letter, rank digit, file
letter, rank digit, and possibly one of `n`, `b`, `r`, `q`), `GetMoveFromXBoardNotation` raises
no exception and leaves the position unchanged; it builds a move from the string (the named
source and target squares, the colour to move, the piece on the source, the promotion named
by the fifth character and the saved castling, en-passant and half-move values) and returns a
move with `TargetLocation != 0` if and only if that move is one of `GenerateMoves(position)`;
in that case the returned move is that move, otherwise it is that move with
`TargetLocation = 0`. -/
theorem GetMoveFromXBoardNotation_legal_iff (R : Rules) (GetRankAt : Board → Nat → PieceRank)
    (position : Board) (move : Move) (f1 r1 f2 r2 : Char) (promotion : List Char)
    (hf1 : 'a'.toNat ≤ f1.toNat ∧ f1.toNat ≤ 'h'.toNat)
    (hr1 : '1'.toNat ≤ r1.toNat ∧ r1.toNat ≤ '8'.toNat)
    (hf2 : 'a'.toNat ≤ f2.toNat ∧ f2.toNat ≤ 'h'.toNat)
    (hr2 : '1'.toNat ≤ r2.toNat ∧ r2.toNat ≤ '8'.toNat)
    (hp : promotion = [] ∨ promotion = ['n'] ∨ promotion = ['b'] ∨ promotion = ['r']
      ∨ promotion = ['q']) :
    ∃ built ret,
      BuildMoveFromXBoardNotation GetRankAt position
        (String.mk (f1 :: r1 :: f2 :: r2 :: promotion)) move = some built ∧
      GetMoveFromXBoardNotation R GetRankAt position
        (String.mk (f1 :: r1 :: f2 :: r2 :: promotion)) move = some (ret, position) ∧
      GetSquareFromAlgebraic (String.mk [f1, r1]) = some built.SourceLocation ∧
      GetSquareFromAlgebraic (String.mk [f2, r2]) = some built.TargetLocation ∧
      built.MoveColor = position.ColorToMove ∧
      built.MovingPiece = GetRankAt position built.SourceLocation ∧
      promotionLetter built.PromotedRank = promotion ∧
      built.CastlingStatus = position.CastlingStatus ∧
      built.CurrentEnPassant = position.EnPassantTarget ∧
      built.CurrentHalfMoves = position.HalfMoveCounter ∧
      (ret.TargetLocation ≠ 0 ↔ built ∈ R.GenerateMoves position) ∧
      (built ∈ R.GenerateMoves position → ret = built) ∧
      (built ∉ R.GenerateMoves position → ret = { built with TargetLocation := 0 }) := by
  have ea : 'a'.toNat = 97 := rfl
  have eh : 'h'.toNat = 104 := rfl
  have e1 : '1'.toNat = 49 := rfl
  have e8 : '8'.toNat = 56 := rfl
  rw [ea, eh] at hf1 hf2
  rw [e1, e8] at hr1 hr2
  obtain ⟨built, hb, h1, h2, h3, h4, h5, h6, h7⟩ :=
    BuildMoveFromXBoardNotation_wellFormed GetRankAt position move f1 r1 f2 r2 promotion
      hf1 hr1 hf2 hr2
  have hpr := BuildMoveFromXBoardNotation_promotion GetRankAt position move built f1 r1 f2 r2
    promotion hf1 hr1 hf2 hr2 hb
  have hret := GetMoveFromXBoardNotation_of_build R GetRankAt position _ move built hb
  have hne : built.TargetLocation ≠ 0 := by
    rw [h2, Nat.one_shiftLeft]
    exact Nat.pos_iff_ne_zero.mp (Nat.pos_pow_of_pos _ (by norm_num))
  refine ⟨built, _, hb, hret, ?_, ?_, h3, h4, ?_, h5, h6, h7, ?_, ?_, ?_⟩
  · rw [h1]; exact GetSquareFromAlgebraic_square f1 r1 hf1 hr1
  · rw [h2]; exact GetSquareFromAlgebraic_square f2 r2 hf2 hr2
  · rcases hp with hp | hp | hp | hp | hp
    · rw [hpr.1 hp, hp]; rfl
    · rw [hpr.2.1 hp, hp]; rfl
    · rw [hpr.2.2.1 hp, hp]; rfl
    · rw [hpr.2.2.2.1 hp, hp]; rfl
    · rw [hpr.2.2.2.2 hp, hp]; rfl
  · by_cases hm : built ∈ R.GenerateMoves position
    · rw [if_pos hm]
      exact ⟨fun _ => hm, fun _ => hne⟩
    · rw [if_neg hm]
      exact ⟨fun hc => absurd rfl hc, fun hc => absurd hc hm⟩
  · intro hm
    rw [if_pos hm]
  · intro hm
    rw [if_neg hm]

/-- Witness for C16: `e2e4` entered in the first position of the sample line, where the only
legal move is Ka1-b1. -/
theorem GetMoveFromXBoardNotation_legal_iff_witness :
    ('a'.toNat ≤ 'e'.toNat ∧ 'e'.toNat ≤ 'h'.toNat) ∧
    ('1'.toNat ≤ '2'.toNat ∧ '2'.toNat ≤ '8'.toNat) ∧
    ('1'.toNat ≤ '4'.toNat ∧ '4'.toNat ≤ '8'.toNat) ∧
    ∃ built ret,
      BuildMoveFromXBoardNotation (fun _ _ => PieceRank.NONE) mateLine0
        (String.mk ('e' :: '2' :: 'e' :: '4' :: [])) moveRh1 = some built ∧
      GetMoveFromXBoardNotation mateLineRules (fun _ _ => PieceRank.NONE) mateLine0
        (String.mk ('e' :: '2' :: 'e' :: '4' :: [])) moveRh1 = some (ret, mateLine0) ∧
      GetSquareFromAlgebraic (String.mk ['e', '2']) = some built.SourceLocation ∧
      GetSquareFromAlgebraic (String.mk ['e', '4']) = some built.TargetLocation ∧
      built.MoveColor = mateLine0.ColorToMove ∧
      built.MovingPiece = (fun _ _ => PieceRank.NONE) mateLine0 built.SourceLocation ∧
      promotionLetter built.PromotedRank = [] ∧
      built.CastlingStatus = mateLine0.CastlingStatus ∧
      built.CurrentEnPassant = mateLine0.EnPassantTarget ∧
      built.CurrentHalfMoves = mateLine0.HalfMoveCounter ∧
      (ret.TargetLocation ≠ 0 ↔ built ∈ mateLineRules.GenerateMoves mateLine0) ∧
      (built ∈ mateLineRules.GenerateMoves mateLine0 → ret = built) ∧
      (built ∉ mateLineRules.GenerateMoves mateLine0 →
        ret = { built with TargetLocation := 0 }) :=
  ⟨by decide, by decide, by decide,
    GetMoveFromXBoardNotation_legal_iff mateLineRules (fun _ _ => PieceRank.NONE) mateLine0
      moveRh1 'e' '2' 'e' '4' [] (by decide) (by decide) (by decide) (by decide)
      (Or.inl rfl)⟩

/-! ## SAN disambiguation -/

theorem fileChar_ne_rankChar : ∀ a b : Fin 8, fileChar a.val ≠ rankChar b.val := by decide

theorem fileChar_inj : ∀ a b : Fin 8, fileChar a.val = fileChar b.val → a = b := by decide

theorem rankChar_inj : ∀ a b : Fin 8, rankChar a.val = rankChar b.val → a = b := by decide

theorem string_mk_append (a b : List Char) : String.mk a ++ String.mk b = String.mk (a ++ b) :=
  rfl

/-- File letter, rank digit and rank number of a single-square mask. -/
theorem square_data (location : Nat) (h : ∃ i, i < 64 ∧ location = 1 <<< i) :
    ∃ a b, a < 8 ∧ b < 8 ∧ location = 1 <<< (8 * b + a) ∧
      GetFileFromLocation location = String.mk [fileChar a] ∧
      toString (GetRankFromLocation location) = String.mk [rankChar b] ∧
      GetRankFromLocation location = ((b + 1 : Nat) : Int) := by
  obtain ⟨i, hi, rfl⟩ := h
  have hs := square_strings_fin ⟨i, hi⟩
  simp only [] at hs
  refine ⟨i % 8, i / 8, by omega, by omega, ?_, hs.1, hs.2.1, hs.2.2⟩
  congr 1
  omega

theorem mem_GenerateSANPossibleMoves (m : Move) (allMoves : List Move) (o : Move) :
    o ∈ GenerateSANPossibleMoves m allMoves ↔
      o ∈ allMoves ∧ o.MovingPiece = m.MovingPiece ∧ o.MoveColor = m.MoveColor
        ∧ o.TargetLocation = m.TargetLocation ∧ o.SourceLocation ≠ m.SourceLocation := by
  unfold GenerateSANPossibleMoves
  rw [List.mem_filter, decide_eq_true_iff]

/-- The three non-empty forms of the disambiguation text. -/
theorem GenerateSANDisambiguation_cases (position : Board) (m : Move) (allMoves : List Move)
    (hne : GenerateSANPossibleMoves m allMoves ≠ [])
    (hcount : PopCount (GenerateSANPieces position m) > 1) :
    ((∀ o ∈ GenerateSANPossibleMoves m allMoves,
        GetFileFromLocation o.SourceLocation ≠ GetFileFromLocation m.SourceLocation) →
      GenerateSANDisambiguation position m allMoves = GetFileFromLocation m.SourceLocation) ∧
    (¬ (∀ o ∈ GenerateSANPossibleMoves m allMoves,
        GetFileFromLocation o.SourceLocation ≠ GetFileFromLocation m.SourceLocation) →
      (∀ o ∈ GenerateSANPossibleMoves m allMoves,
        GetRankFromLocation o.SourceLocation ≠ GetRankFromLocation m.SourceLocation) →
      GenerateSANDisambiguation position m allMoves
        = toString (GetRankFromLocation m.SourceLocation)) ∧
    (¬ (∀ o ∈ GenerateSANPossibleMoves m allMoves,
        GetFileFromLocation o.SourceLocation ≠ GetFileFromLocation m.SourceLocation) →
      ¬ (∀ o ∈ GenerateSANPossibleMoves m allMoves,
        GetRankFromLocation o.SourceLocation ≠ GetRankFromLocation m.SourceLocation) →
      GenerateSANDisambiguation position m allMoves
        = GetFileFromLocation m.SourceLocation
          ++ toString (GetRankFromLocation m.SourceLocation)) := by
  have hlen : (GenerateSANPossibleMoves m allMoves).length ≠ 0 :=
    fun h => hne (List.length_eq_zero.mp h)
  have hfile : (GenerateSANPossibleMoves m allMoves).any (fun it =>
      decide (GetFileFromLocation it.SourceLocation = GetFileFromLocation m.SourceLocation))
        = true ↔
      ¬ (∀ o ∈ GenerateSANPossibleMoves m allMoves,
        GetFileFromLocation o.SourceLocation ≠ GetFileFromLocation m.SourceLocation) := by
    simp [List.any_eq_true]
  have hrank : (GenerateSANPossibleMoves m allMoves).any (fun it =>
      decide (GetRankFromLocation it.SourceLocation = GetRankFromLocation m.SourceLocation))
        = true ↔
      ¬ (∀ o ∈ GenerateSANPossibleMoves m allMoves,
        GetRankFromLocation o.SourceLocation ≠ GetRankFromLocation m.SourceLocation) := by
    simp [List.any_eq_true]
  unfold GenerateSANDisambiguation
  simp only []
  rw [if_pos hcount, if_pos hlen]
  refine ⟨?_, ?_, ?_⟩
  · intro h
    rw [if_pos (fun hc => hfile.mp hc h)]
  · intro h1 h2
    rw [if_neg (fun hc => hc (hfile.mpr h1)), if_pos (fun hc => hrank.mp hc h2)]
  · intro h1 h2
    rw [if_neg (fun hc => hc (hfile.mpr h1)), if_neg (fun hc => hc (hrank.mpr h2))]

theorem GenerateSANDisambiguation_empty (position : Board) (m : Move) (allMoves : List Move)
    (he : GenerateSANPossibleMoves m allMoves = []) :
    GenerateSANDisambiguation position m allMoves = "" := by
  unfold GenerateSANDisambiguation
  simp only [he, List.length_nil, ne_eq, not_true_eq_false, if_false, ite_self]

/-- The text of a knight, bishop, rook or queen move is the piece letter, the disambiguation
text, the capture mark, the target square and the check mark, in this order. -/
theorem GenerateSAN_piece_move (R : Rules) (position : Board) (m : Move)
    (allMoves : List Move)
    (hpiece : m.MovingPiece = PieceRank.KNIGHT ∨ m.MovingPiece = PieceRank.BISHOP
      ∨ m.MovingPiece = PieceRank.ROOK ∨ m.MovingPiece = PieceRank.QUEEN) :
    ∃ letter : String, (letter = "N" ∨ letter = "B" ∨ letter = "R" ∨ letter = "Q") ∧
      (GenerateSAN R position m allMoves).1
        = letter ++ GenerateSANDisambiguation position m allMoves
          ++ (if m.CapturedPiece ≠ PieceRank.NONE then "x" else "")
          ++ GetFileFromLocation m.TargetLocation
          ++ toString (GetRankFromLocation m.TargetLocation)
          ++ (if (m.MoveColor = PieceColor.WHITE
                    ∧ R.IsSquareAttacked (R.Make position m).BlackKing (R.Make position m)
                        = true)
                  ∨ (m.MoveColor = PieceColor.BLACK
                    ∧ R.IsSquareAttacked (R.Make position m).WhiteKing (R.Make position m)
                        = true) then "+" else "") := by
  have happ : ∀ (c : Prop) [Decidable c] (s t : String),
      (if c then s ++ t else s) = s ++ (if c then t else "") := by
    intro c _ s t
    by_cases hc : c
    · rw [if_pos hc, if_pos hc]
    · rw [if_neg hc, if_neg hc, String.append_empty]
  have hlet : ∃ letter : String,
      (letter = "N" ∨ letter = "B" ∨ letter = "R" ∨ letter = "Q") ∧
        GenerateSANLetter m = (letter, false) ∧ m.MovingPiece ≠ PieceRank.PAWN := by
    rcases hpiece with h | h | h | h
    · exact ⟨"N", Or.inl rfl, by simp [GenerateSANLetter, h], by simp [h]⟩
    · exact ⟨"B", Or.inr (Or.inl rfl), by simp [GenerateSANLetter, h], by simp [h]⟩
    · exact ⟨"R", Or.inr (Or.inr (Or.inl rfl)), by simp [GenerateSANLetter, h], by simp [h]⟩
    · exact ⟨"Q", Or.inr (Or.inr (Or.inr rfl)), by simp [GenerateSANLetter, h], by simp [h]⟩
  obtain ⟨letter, hl, hL, hp⟩ := hlet
  refine ⟨letter, hl, ?_⟩
  unfold GenerateSAN
  simp only [hL, if_pos hp, Bool.false_eq_true, not_false_eq_true, if_true]
  rw [happ, happ]

/-- Two squares with the same file letter and the same rank digit are the same square. -/
theorem square_eq_of_chars (a b c d : Nat) (ha : a < 8) (hb : b < 8) (hc : c < 8) (hd : d < 8)
    (hf : fileChar a = fileChar c) (hr : rankChar b = rankChar d) :
    (1 : Nat) <<< (8 * b + a) = 1 <<< (8 * d + c) := by
  have h1 := fileChar_inj ⟨a, ha⟩ ⟨c, hc⟩ hf
  have h2 := rankChar_inj ⟨b, hb⟩ ⟨d, hd⟩ hr
  simp only [Fin.mk.injEq] at h1 h2
  rw [h1, h2]

/-- No other candidate's source square is consistent with the disambiguation text. -/
theorem GenerateSANDisambiguation_excludes (position : Board) (m : Move)
    (allMoves : List Move) (hm : m ∈ allMoves)
    (hsq : ∀ o ∈ allMoves, ∃ i, i < 64 ∧ o.SourceLocation = 1 <<< i)
    (hcount : GenerateSANPossibleMoves m allMoves ≠ [] →
      PopCount (GenerateSANPieces position m) > 1) :
    ∀ o ∈ GenerateSANPossibleMoves m allMoves,
      ¬ SANTextMatches (GenerateSANDisambiguation position m allMoves) o.SourceLocation := by
  intro o ho
  have hne : GenerateSANPossibleMoves m allMoves ≠ [] := List.ne_nil_of_mem ho
  obtain ⟨h1, h2, h3⟩ := GenerateSANDisambiguation_cases position m allMoves hne (hcount hne)
  have hoM := (mem_GenerateSANPossibleMoves m allMoves o).mp ho
  obtain ⟨a, b, ha, hb, hoS, hoF, hoR, hoN⟩ := square_data o.SourceLocation (hsq o hoM.1)
  obtain ⟨c, d, hc, hd, hmS, hmF, hmR, hmN⟩ := square_data m.SourceLocation (hsq m hm)
  have hfr : ∀ x y : Nat, x < 8 → y < 8 → fileChar x ≠ rankChar y :=
    fun x y hx hy => fileChar_ne_rankChar ⟨x, hx⟩ ⟨y, hy⟩
  unfold SANTextMatches
  rw [hoF, hoR, string_mk_append]
  by_cases hF : ∀ o ∈ GenerateSANPossibleMoves m allMoves,
      GetFileFromLocation o.SourceLocation ≠ GetFileFromLocation m.SourceLocation
  · rw [h1 hF, hmF]
    have hd1 := hF o ho
    rw [hoF, hmF] at hd1
    rintro (h | h | h | h)
    · simp [String.ext_iff] at h
    · exact hd1 h.symm
    · simp only [String.ext_iff, List.cons.injEq, and_true] at h
      exact hfr c b hc hb h
    · simp [String.ext_iff] at h
  · by_cases hR : ∀ o ∈ GenerateSANPossibleMoves m allMoves,
        GetRankFromLocation o.SourceLocation ≠ GetRankFromLocation m.SourceLocation
    · rw [h2 hF hR, hmR]
      have hd1 := hR o ho
      rintro (h | h | h | h)
      · simp [String.ext_iff] at h
      · simp only [String.ext_iff, List.cons.injEq, and_true] at h
        exact hfr a d ha hd h.symm
      · simp only [String.ext_iff, List.cons.injEq, and_true] at h
        have h5 := rankChar_inj ⟨d, hd⟩ ⟨b, hb⟩ h
        simp only [Fin.mk.injEq] at h5
        apply hd1
        rw [hoN, hmN, h5]
      · simp [String.ext_iff] at h
    · rw [h3 hF hR, hmF, hmR, string_mk_append]
      rintro (h | h | h | h)
      · simp [String.ext_iff] at h
      · simp [String.ext_iff] at h
      · simp [String.ext_iff] at h
      · simp only [String.ext_iff, List.cons_append, List.nil_append, List.cons.injEq,
          and_true] at h
        apply hoM.2.2.2.2
        rw [hoS, hmS]
        exact square_eq_of_chars a b c d ha hb hc hd h.1.symm h.2.symm

/-- Claim C17 (SAN minimal disambiguation): for a knight, bishop, rook or queen move `m` of
`allMoves`, where every move of `allMoves` starts on a single square and a move of the same
piece, colour and target from another source implies that the board holds more than one such
piece, the text of `Utility::GenerateSAN` is the piece letter, then the disambiguation text,
then the capture mark, the target square and the check mark; the disambiguation text is empty
when no other move of `allMoves` has the same moving piece, colour and target with a different
source; otherwise it is the source file of `m` alone if no such other move starts on that
file, else the source rank of `m` alone if no such other move starts on that rank, else the
file followed by the rank; and no such other move starts on a square that is consistent with
the text. -/
theorem GenerateSAN_disambiguation (R : Rules) (position : Board) (m : Move)
    (allMoves : List Move) (hm : m ∈ allMoves)
    (hpiece : m.MovingPiece = PieceRank.KNIGHT ∨ m.MovingPiece = PieceRank.BISHOP
      ∨ m.MovingPiece = PieceRank.ROOK ∨ m.MovingPiece = PieceRank.QUEEN)
    (hsq : ∀ o ∈ allMoves, ∃ i, i < 64 ∧ o.SourceLocation = 1 <<< i)
    (hcount : GenerateSANPossibleMoves m allMoves ≠ [] →
      PopCount (GenerateSANPieces position m) > 1) :
    (∃ letter : String, (letter = "N" ∨ letter = "B" ∨ letter = "R" ∨ letter = "Q") ∧
      (GenerateSAN R position m allMoves).1
        = letter ++ GenerateSANDisambiguation position m allMoves
          ++ (if m.CapturedPiece ≠ PieceRank.NONE then "x" else "")
          ++ GetFileFromLocation m.TargetLocation
          ++ toString (GetRankFromLocation m.TargetLocation)
          ++ (if (m.MoveColor = PieceColor.WHITE
                    ∧ R.IsSquareAttacked (R.Make position m).BlackKing (R.Make position m)
                        = true)
                  ∨ (m.MoveColor = PieceColor.BLACK
                    ∧ R.IsSquareAttacked (R.Make position m).WhiteKing (R.Make position m)
                        = true) then "+" else "")) ∧
    (∀ o, o ∈ GenerateSANPossibleMoves m allMoves ↔
      o ∈ allMoves ∧ o.MovingPiece = m.MovingPiece ∧ o.MoveColor = m.MoveColor
        ∧ o.TargetLocation = m.TargetLocation ∧ o.SourceLocation ≠ m.SourceLocation) ∧
    (GenerateSANPossibleMoves m allMoves = [] →
      GenerateSANDisambiguation position m allMoves = "") ∧
    (GenerateSANPossibleMoves m allMoves ≠ [] →
      (∀ o ∈ GenerateSANPossibleMoves m allMoves,
        GetFileFromLocation o.SourceLocation ≠ GetFileFromLocation m.SourceLocation) →
      GenerateSANDisambiguation position m allMoves = GetFileFromLocation m.SourceLocation) ∧
    (GenerateSANPossibleMoves m allMoves ≠ [] →
      ¬ (∀ o ∈ GenerateSANPossibleMoves m allMoves,
        GetFileFromLocation o.SourceLocation ≠ GetFileFromLocation m.SourceLocation) →
      (∀ o ∈ GenerateSANPossibleMoves m allMoves,
        GetRankFromLocation o.SourceLocation ≠ GetRankFromLocation m.SourceLocation) →
      GenerateSANDisambiguation position m allMoves
        = toString (GetRankFromLocation m.SourceLocation)) ∧
    (GenerateSANPossibleMoves m allMoves ≠ [] →
      ¬ (∀ o ∈ GenerateSANPossibleMoves m allMoves,
        GetFileFromLocation o.SourceLocation ≠ GetFileFromLocation m.SourceLocation) →
      ¬ (∀ o ∈ GenerateSANPossibleMoves m allMoves,
        GetRankFromLocation o.SourceLocation ≠ GetRankFromLocation m.SourceLocation) →
      GenerateSANDisambiguation position m allMoves
        = GetFileFromLocation m.SourceLocation
          ++ toString (GetRankFromLocation m.SourceLocation)) ∧
    (∀ o ∈ GenerateSANPossibleMoves m allMoves,
      ¬ SANTextMatches (GenerateSANDisambiguation position m allMoves) o.SourceLocation) :=
  ⟨GenerateSAN_piece_move R position m allMoves hpiece,
   mem_GenerateSANPossibleMoves m allMoves,
   GenerateSANDisambiguation_empty position m allMoves,
   fun hne => (GenerateSANDisambiguation_cases position m allMoves hne (hcount hne)).1,
   fun hne => (GenerateSANDisambiguation_cases position m allMoves hne (hcount hne)).2.1,
   fun hne => (GenerateSANDisambiguation_cases position m allMoves hne (hcount hne)).2.2,
   GenerateSANDisambiguation_excludes position m allMoves hm hsq hcount⟩

/-- Witness for C17: with white knights on b1 and f3 that both reach d2, the move Nb1-d2 is
written `Nbd2`. -/
theorem GenerateSAN_disambiguation_witness :
    moveNbd2 ∈ [moveNbd2, moveNfd2] ∧
    GenerateSANPossibleMoves moveNbd2 [moveNbd2, moveNfd2] = [moveNfd2] ∧
    PopCount (GenerateSANPieces knightBoard moveNbd2) = 2 ∧
    GenerateSANDisambiguation knightBoard moveNbd2 [moveNbd2, moveNfd2] = "b" ∧
    (GenerateSAN mateLineRules knightBoard moveNbd2 [moveNbd2, moveNfd2]).1 = "Nbd2" ∧
    (∀ o ∈ GenerateSANPossibleMoves moveNbd2 [moveNbd2, moveNfd2],
      ¬ SANTextMatches (GenerateSANDisambiguation knightBoard moveNbd2 [moveNbd2, moveNfd2])
        o.SourceLocation) :=
  ⟨by decide, by decide, by decide, by decide, by decide,
   (GenerateSAN_disambiguation mateLineRules knightBoard moveNbd2 [moveNbd2, moveNfd2]
      (by decide) (Or.inl rfl)
      (by
        intro o ho
        simp only [List.mem_cons, List.mem_singleton, List.not_mem_nil, or_false] at ho
        rcases ho with rfl | rfl
        · exact ⟨1, by decide, by decide⟩
        · exact ⟨21, by decide, by decide⟩)
      (fun _ => by decide)).2.2.2.2.2.2⟩

/-! ## Bounds on the scores -/

theorem NegaMaxStep_max_bounds (R : Rules) (depth : Nat)
    (child : SearchState → Int × SearchState) (B : Int)
    (hchild : ∀ st, -B ≤ (child st).1 ∧ (child st).1 ≤ B) (acc : NegaMaxAcc) (it : Move)
    (hlo : -1999999 ≤ acc.max) (hhi : acc.max ≤ B) :
    -1999999 ≤ (NegaMaxStep R depth child acc it).max ∧
      (NegaMaxStep R depth child acc it).max ≤ B := by
  have h := hchild
    { position := R.Make acc.st.position it, pv := acc.st.pv,
      nodeCount := (acc.st.nodeCount + 1) % 2 ^ 64 }
  unfold NegaMaxStep
  simp only []
  split
  · rename_i hc
    simp only []
    constructor <;> omega
  · exact ⟨hlo, hhi⟩

theorem NegaMax_fold_max_bounds (R : Rules) (depth : Nat)
    (child : SearchState → Int × SearchState) (B : Int)
    (hchild : ∀ st, -B ≤ (child st).1 ∧ (child st).1 ≤ B) (l : List Move) :
    ∀ acc : NegaMaxAcc, -1999999 ≤ acc.max → acc.max ≤ B →
      -1999999 ≤ (l.foldl (NegaMaxStep R depth child) acc).max ∧
        (l.foldl (NegaMaxStep R depth child) acc).max ≤ B := by
  induction l with
  | nil => intro acc hlo hhi; exact ⟨hlo, hhi⟩
  | cons m t ih =>
    intro acc hlo hhi
    have hs := NegaMaxStep_max_bounds R depth child B hchild acc m hlo hhi
    rw [List.foldl_cons]
    exact ih _ hs.1 hs.2

/-- The value `NegaMax` returns is at most `1999999 + depth` in absolute value, for every
generator, `Make` and `Unmake`. -/
theorem NegaMax_bounds (R : Rules) : ∀ (depth : Nat) (st : SearchState),
    -1999999 - (depth : Int) ≤ (NegaMax R depth st).1 ∧
      (NegaMax R depth st).1 ≤ 1999999 + (depth : Int) := by
  intro depth
  induction depth with
  | zero =>
    intro st
    have h := EvaluatePosition_abs_le st.position
    unfold NegaMax
    simp only []
    constructor <;> push_cast <;> omega
  | succ d ih =>
    intro st
    unfold NegaMax
    simp only []
    split
    · have h := NegaMax_fold_max_bounds R (d + 1) (NegaMax R d) (1999999 + (d : Int))
        (fun s => by have := ih s; constructor <;> omega) (R.GenerateMoves st.position)
        { max := -1999999, pvBackup := List.replicate (d + 1) "", st := st }
        (le_refl _) (by simp only []; omega)
      constructor
      · have := h.1
        push_cast
        omega
      · have := h.2
        push_cast
        omega
    · split
      · constructor <;> push_cast <;> omega
      · split
        · constructor <;> push_cast <;> omega
        · constructor <;> push_cast <;> omega

/-- Claim C23: for every position, generator and depth `d`, the value of `NegaMax` is at most
`1999999 + d` in absolute value, and the evaluation is at most `64 * 12100 = 774400` in absolute
value; consequently, for every iteration depth `D <= 10000`, each root score
`-NegaMax(child, D - 1)` is strictly greater than the initial maximum `-3000000` of the root,
also after a random draw between -10 and 10, and the value, its negation and the perturbed
score all lie inside the range of a 32-bit signed integer. -/
theorem NegaMax_abs_le (R : Rules) (d : Nat) (st : SearchState) :
    (-(1999999 + (d : Int)) ≤ (NegaMax R d st).1 ∧ (NegaMax R d st).1 ≤ 1999999 + (d : Int)) ∧
    (-774400 ≤ (EvaluatePosition st.position).1 ∧ (EvaluatePosition st.position).1 ≤ 774400) ∧
    ((64 : Int) * 12100 = 774400) ∧
    (∀ (D : Nat) (child : SearchState), 1 ≤ D → D ≤ 10000 →
      -3000000 < -(NegaMax R (D - 1) child).1 ∧
      (-(2 : Int) ^ 31 ≤ (NegaMax R (D - 1) child).1 ∧ (NegaMax R (D - 1) child).1 < 2 ^ 31) ∧
      (-(2 : Int) ^ 31 ≤ -(NegaMax R (D - 1) child).1
        ∧ -(NegaMax R (D - 1) child).1 < 2 ^ 31) ∧
      ∀ draw : Int, -10 ≤ draw → draw ≤ 10 →
        -3000000 < -(NegaMax R (D - 1) child).1 + draw ∧
        -(2 : Int) ^ 31 ≤ -(NegaMax R (D - 1) child).1 + draw ∧
        -(NegaMax R (D - 1) child).1 + draw < 2 ^ 31) := by
  refine ⟨?_, EvaluatePosition_abs_le st.position, by norm_num, ?_⟩
  · have h := NegaMax_bounds R d st
    constructor <;> omega
  · intro D child h1 h2
    have h := NegaMax_bounds R (D - 1) child
    have hc : ((D - 1 : Nat) : Int) ≤ 9999 := by omega
    have hp : (2 : Int) ^ 31 = 2147483648 := by norm_num
    rw [hp]
    refine ⟨by omega, ⟨by omega, by omega⟩, ⟨by omega, by omega⟩, ?_⟩
    intro draw hd1 hd2
    refine ⟨by omega, by omega, by omega⟩

/-- Witness for C23 on the sample line: the depth-3 value of the first position and the root
score of the iteration of depth 3. -/
theorem NegaMax_abs_le_witness :
    (NegaMax mateLineRules 3 { position := mateLine0, pv := [], nodeCount := 0 }).1 = -1999999 ∧
    -3000000 < -(NegaMax mateLineRules (3 - 1)
      { position := mateLine1, pv := [], nodeCount := 0 }).1 :=
  ⟨by decide,
   ((NegaMax_abs_le mateLineRules 3
      { position := mateLine0, pv := [], nodeCount := 0 }).2.2.2 3
      { position := mateLine1, pv := [], nodeCount := 0 } (by decide) (by decide)).1⟩

/-! ## The iterations of the root search -/

theorem reportDepths_append (a b : List OutputLine) :
    reportDepths (a ++ b) = reportDepths a ++ reportDepths b := by
  unfold reportDepths
  rw [List.filterMap_append]

theorem NegaMaxRootIteration_reportDepths (R : Rules) (G : Globals) (O : Oracle) (depth : Nat)
    (rs : RootState) :
    reportDepths (NegaMaxRootIteration R G O depth rs).output
      = reportDepths rs.output ++ [depth] := by
  unfold NegaMaxRootIteration
  simp only [reportDepths_append]
  rfl

theorem reportDepths_nextDepth (a : List OutputLine) (d : Nat) (m : Int) :
    reportDepths (a ++ [OutputLine.nextDepth d m]) = reportDepths a := by
  rw [reportDepths_append]
  exact List.append_nil _

theorem range_single (depth : Nat) : List.range' depth (depth - depth + 1) = [depth] := by
  rw [Nat.sub_self]
  rfl

/-- The loop of `NegaMaxRoot` entered at `depth`: its iterations run at the depths `depth`,
`depth + 1`, ... up to the depth it returns, which is at most `max(depth, maxSearchDepth)`. -/
theorem NegaMaxRootLoop_depths (R : Rules) (G : Globals) (O : Oracle) (t : Nat) :
    ∀ fuel depth rs,
      depth ≤ (NegaMaxRootLoop R G O t fuel depth rs).2 ∧
      (((NegaMaxRootLoop R G O t fuel depth rs).2 : Nat) : Int)
        ≤ max (depth : Int) G.maxSearchDepth ∧
      reportDepths (NegaMaxRootLoop R G O t fuel depth rs).1.output
        = reportDepths rs.output
          ++ List.range' depth ((NegaMaxRootLoop R G O t fuel depth rs).2 - depth + 1) := by
  intro fuel
  induction fuel with
  | zero =>
    intro depth rs
    have hit := NegaMaxRootIteration_reportDepths R G O depth rs
    unfold NegaMaxRootLoop
    simp only []
    split
    · refine ⟨le_refl _, le_max_left _ _, ?_⟩
      simp only [hit, range_single]
    · split
      · refine ⟨le_refl _, le_max_left _ _, ?_⟩
        simp only [reportDepths_nextDepth, hit, range_single]
      · refine ⟨le_refl _, le_max_left _ _, ?_⟩
        simp only [reportDepths_nextDepth, hit, range_single]
  | succ f ih =>
    intro depth rs
    have hit := NegaMaxRootIteration_reportDepths R G O depth rs
    rw [NegaMaxRootLoop]
    simp only []
    split
    · refine ⟨le_refl _, le_max_left _ _, ?_⟩
      simp only [hit, range_single]
    · split
      · refine ⟨le_refl _, le_max_left _ _, ?_⟩
        simp only [reportDepths_nextDepth, hit, range_single]
      · rename_i hmax
        have hrec := ih (depth + 1)
          { st := (NegaMaxRootIteration R G O depth rs).st,
            max := (NegaMaxRootIteration R G O depth rs).max,
            bestMove := (NegaMaxRootIteration R G O depth rs).bestMove,
            leafNodesAtCurrentDepth :=
              (NegaMaxRootIteration R G O depth rs).leafNodesAtCurrentDepth,
            output := (NegaMaxRootIteration R G O depth rs).output
              ++ [OutputLine.nextDepth (depth + 1) G.maxSearchDepth] }
        obtain ⟨h1, h2, h3⟩ := hrec
        refine ⟨by omega, ?_, ?_⟩
        · have hm : max (((depth + 1 : Nat) : Int)) G.maxSearchDepth = G.maxSearchDepth :=
            max_eq_right (by omega)
          rw [hm] at h2
          exact le_trans h2 (le_max_right _ _)
        · rw [h3]
          simp only [reportDepths_nextDepth, hit]
          rw [List.append_assoc]
          congr 1
          have hk : ∀ last : Nat, depth + 1 ≤ last →
              last - depth + 1 = (last - (depth + 1) + 1) + 1 := by
            intro last hlast
            omega
          rw [hk _ h1, List.range'_succ]
          rfl

/-- More fuel than `maxSearchDepth` does not change the run of the loop from depth 1. -/
theorem NegaMaxRootLoop_extra_fuel (R : Rules) (G : Globals) (O : Oracle) (t : Nat)
    (rs : RootState) : ∀ extra : Nat,
    NegaMaxRootLoop R G O t (G.maxSearchDepth.toNat + extra) 1 rs
      = NegaMaxRootLoop R G O t G.maxSearchDepth.toNat 1 rs := by
  intro extra
  induction extra with
  | zero => rfl
  | succ e ih =>
    rw [← ih, ← Nat.add_assoc]
    apply NegaMaxRootLoop_fuel
    have := Int.self_le_toNat G.maxSearchDepth
    push_cast
    omega

/-- Claim C22: whatever the clock and the estimate return, `NegaMaxRoot` either stops before
its loop (the time budget divides by zero, no iteration is started and nothing is returned) or
returns after running its iterations at the depths 1, 2, ..., `n` in this order, one report
each, where `1 <= n <= max(1, maxSearchDepth)`: the depth-1 iteration is always completed, no
iteration is started at a depth above `max(1, maxSearchDepth)`, and there are at most
`max(1, maxSearchDepth)` iterations.  The bound on the passes of the loop that the model
carries is never reached. -/
theorem NegaMaxRoot_iterations (R : Rules) (G : Globals) (O : Oracle) (position : Board)
    (pv : List String) (bestMove : Move) :
    (availableTimeForThisMove G.currentClock G.currentPosition = none →
      NegaMaxRoot R G O position pv bestMove = none) ∧
    (∀ t, availableTimeForThisMove G.currentClock G.currentPosition = some t →
      ∃ r, NegaMaxRoot R G O position pv bestMove = some r ∧
        1 ≤ r.depth ∧ (r.depth : Int) ≤ max 1 G.maxSearchDepth ∧
        reportDepths r.output = List.range' 1 r.depth ∧
        (reportDepths r.output).length = r.depth ∧
        ∀ (extra : Nat) (rs : RootState),
          NegaMaxRootLoop R G O t (G.maxSearchDepth.toNat + extra) 1 rs
            = NegaMaxRootLoop R G O t G.maxSearchDepth.toNat 1 rs) := by
  constructor
  · intro h
    unfold NegaMaxRoot
    rw [h]
  · intro t h
    have hl := NegaMaxRootLoop_depths R G O t G.maxSearchDepth.toNat 1
      { st := { position := position, pv := pv, nodeCount := 0 }, max := 0,
        bestMove := bestMove, leafNodesAtCurrentDepth := 0, output := [] }
    obtain ⟨h1, h2, h3⟩ := hl
    refine ⟨_, by unfold NegaMaxRoot; rw [h], h1, ?_, ?_, ?_,
      fun extra rs => NegaMaxRootLoop_extra_fuel R G O t rs extra⟩
    · simpa using h2
    · simp only []
      rw [h3]
      have : reportDepths ([] : List OutputLine) = [] := rfl
      rw [this, List.nil_append]
      congr 1
      omega
    · simp only []
      rw [h3]
      have : reportDepths ([] : List OutputLine) = [] := rfl
      rw [this, List.nil_append, List.length_range']
      omega

/-- Witness for C22: the sample line searched with `maxSearchDepth = 3` and a clock that never
runs out runs the iterations of depths 1, 2 and 3. -/
theorem NegaMaxRoot_iterations_witness :
    availableTimeForThisMove sampleGlobals.currentClock sampleGlobals.currentPosition
      = some 490 ∧
    ∃ r, NegaMaxRoot mateLineRules sampleGlobals sampleOracle mateLine0 [] moveKb1 = some r ∧
      1 ≤ r.depth ∧ (r.depth : Int) ≤ max 1 sampleGlobals.maxSearchDepth ∧
      reportDepths r.output = List.range' 1 r.depth ∧
      (reportDepths r.output).length = r.depth ∧
      ∀ (extra : Nat) (rs : RootState),
        NegaMaxRootLoop mateLineRules sampleGlobals sampleOracle 490
            (sampleGlobals.maxSearchDepth.toNat + extra) 1 rs
          = NegaMaxRootLoop mateLineRules sampleGlobals sampleOracle 490
            sampleGlobals.maxSearchDepth.toNat 1 rs :=
  ⟨by decide,
   (NegaMaxRoot_iterations mateLineRules sampleGlobals sampleOracle mateLine0 [] moveKb1).2
     490 (by decide)⟩

/-! ## Relations between the bit-scan primitives -/

/-- The value of `GetMSB` on a non-zero 64-bit mask: the index of its highest set bit. -/
theorem GetMSB_spec (m : Nat) (hm : m < 2 ^ 64) (h0 : m ≠ 0) :
    ∃ i : Nat, GetMSB m = (i : Int) ∧ i < 64 ∧ m.testBit i = true ∧
      ∀ j, i < j → m.testBit j = false := by
  obtain ⟨L, hbit, hhigh⟩ := Nat.exists_most_significant_bit h0
  have hL : L < 64 := by
    by_contra hge
    have := Nat.testBit_lt_two_pow (x := m) (i := L)
      (lt_of_lt_of_le hm (Nat.pow_le_pow_right (by omega) (by omega)))
    rw [this] at hbit
    exact absurd hbit (by simp)
  refine ⟨L, ?_, hL, hbit, hhigh⟩
  have hs := smear_eq m L hL hbit hhigh
  unfold GetMSB
  simp only [Nat.mod_eq_of_lt hm]
  rw [if_neg h0]
  unfold smear at hs
  simp only [hs]
  exact index64Reverse_lookup ⟨L, hL⟩

/-- The value of `GetLSB` on a non-zero 64-bit mask: the index of its lowest set bit. -/
theorem GetLSB_spec (m : Nat) (hm : m < 2 ^ 64) (h0 : m ≠ 0) :
    ∃ i : Nat, GetLSB m = (i : Int) ∧ i < 64 ∧ m.testBit i = true ∧
      ∀ j, j < i → m.testBit j = false := by
  obtain ⟨k, hk, hand, hbit, hlow⟩ := isolate_lowest 64 m (by omega) hm
  refine ⟨k, ?_, hk, hbit, hlow⟩
  have hneg : (2 ^ 64 - 1 - m + 1) % 2 ^ 64 = 2 ^ 64 - m := by omega
  unfold GetLSB
  simp only [Nat.mod_eq_of_lt hm]
  rw [if_neg h0]
  simp only [hneg, hand]
  exact index64_lookup ⟨k, hk⟩

/-- A mask whose only set bit below `n` is bit `k` has bit count 1. -/
theorem bitSum_single (n m k : Nat) (hk : k < n) (hbit : m.testBit k = true)
    (hother : ∀ j, j < n → j ≠ k → m.testBit j = false) : bitSum n m = 1 := by
  unfold bitSum
  rw [Finset.sum_eq_single k]
  · rw [hbit]; rfl
  · intro j hj hjk
    rw [hother j (Finset.mem_range.mp hj) hjk]; rfl
  · intro h
    exact absurd (Finset.mem_range.mpr hk) h

/-- A mask with two different set bits below `n` has bit count at least 2. -/
theorem bitSum_two (n m a b : Nat) (ha : a < n) (hb : b < n) (hab : a ≠ b)
    (hbita : m.testBit a = true) (hbitb : m.testBit b = true) : 2 ≤ bitSum n m := by
  unfold bitSum
  have hsub : ({a, b} : Finset Nat) ⊆ Finset.range n := by
    intro x hx
    simp only [Finset.mem_insert, Finset.mem_singleton] at hx
    rcases hx with rfl | rfl
    · exact Finset.mem_range.mpr ha
    · exact Finset.mem_range.mpr hb
  have hle := Finset.sum_le_sum_of_subset (f := fun i => (m.testBit i).toNat) hsub
  rw [Finset.sum_pair hab] at hle
  simp only [hbita, hbitb, Bool.toNat_true] at hle
  exact hle

set_option maxRecDepth 100000 in
theorem GetLSB_GetMSB_single : ∀ i : Fin 64,
    GetLSB (1 <<< i.val) = (i.val : Int) ∧ GetMSB (1 <<< i.val) = (i.val : Int) := by
  decide

/-- Claim C24: for every 64-bit mask `m != 0`, `GetLSB(m) <= GetMSB(m)`, with equality if and
only if `PopCount(m) = 1`; and for every `i` in 0..63, `GetLSB(1 << i) = GetMSB(1 << i) = i`. -/
theorem GetLSB_le_GetMSB (m : Nat) (hm : m < 2 ^ 64) (h0 : m ≠ 0) :
    GetLSB m ≤ GetMSB m ∧
    (GetLSB m = GetMSB m ↔ PopCount m = 1) ∧
    ∀ i : Nat, i < 64 →
      GetLSB (1 <<< i) = (i : Int) ∧ GetMSB (1 <<< i) = (i : Int) := by
  obtain ⟨lo, hlo, hlo64, hlobit, hlow⟩ := GetLSB_spec m hm h0
  obtain ⟨hi, hhi, hhi64, hhibit, hhigh⟩ := GetMSB_spec m hm h0
  have hle : lo ≤ hi := by
    by_contra hgt
    have := hhigh lo (by omega)
    rw [this] at hlobit
    exact absurd hlobit (by simp)
  refine ⟨by rw [hlo, hhi]; exact_mod_cast hle, ?_, fun i hi => GetLSB_GetMSB_single ⟨i, hi⟩⟩
  rw [hlo, hhi, PopCount_eq_bitSum]
  constructor
  · intro heq
    have heq2 : lo = hi := by exact_mod_cast heq
    have h1 : bitSum 64 m = 1 := by
      apply bitSum_single 64 m lo hlo64 hlobit
      intro j _ hjk
      rcases Nat.lt_or_gt_of_ne hjk with hlt | hgt
      · exact hlow j hlt
      · exact hhigh j (by omega)
    rw [h1]; rfl
  · intro hone
    have hone2 : bitSum 64 m = 1 := by exact_mod_cast hone
    by_contra hne
    have hne2 : lo ≠ hi := fun h => hne (by rw [h])
    have := bitSum_two 64 m lo hi hlo64 hhi64 hne2 hlobit hhibit
    omega

/-- Witness for C24 at the mask `0x90`, whose lowest set bit is 4 and highest set bit is 7, and
at the single-square mask `0x80`. -/
theorem GetLSB_le_GetMSB_witness :
    (0x90 : Nat) < 2 ^ 64 ∧ (0x90 : Nat) ≠ 0 ∧ GetLSB 0x90 = 4 ∧ GetMSB 0x90 = 7 ∧
    PopCount 0x90 = 2 ∧ GetLSB 0x80 = GetMSB 0x80 ∧ PopCount 0x80 = 1 ∧
    (GetLSB 0x90 ≤ GetMSB 0x90 ∧
    (GetLSB 0x90 = GetMSB 0x90 ↔ PopCount 0x90 = 1) ∧
    ∀ i : Nat, i < 64 →
      GetLSB (1 <<< i) = (i : Int) ∧ GetMSB (1 <<< i) = (i : Int)) :=
  ⟨by decide, by decide, by decide, by decide, by decide, by decide, by decide,
   GetLSB_le_GetMSB 0x90 (by decide) (by decide)⟩

/-! ## Rank and file masks -/

/-- For a file letter the result is the file mask, and for a character that is neither a file
letter nor a rank digit it is 0. -/
theorem GetMaskFromRankOrFile_file_or_other (c : Char) :
    (c ∈ "abcdefgh".data →
      GetMaskFromRankOrFile c = 0x0101010101010101 <<< (c.toNat - 'a'.toNat)) ∧
    (c ∉ "abcdefgh".data → c ∉ "12345678".data → GetMaskFromRankOrFile c = 0) := by
  constructor
  · intro h
    simp only [String.data, List.mem_cons, List.mem_singleton, List.not_mem_nil,
      or_false] at h
    rcases h with rfl | rfl | rfl | rfl | rfl | rfl | rfl | rfl <;> decide
  · intro h1 h2
    unfold GetMaskFromRankOrFile
    simp only [if_neg h1, if_neg h2]

/-- Claim C25 (failing input): for each of the rank digits `1` to `8`,
`GetMaskFromRankOrFile` returns 0, where the mask of the rank is `0xFF << (8 * (c - '1'))`;
for the file letters it returns the file masks. -/
theorem GetMaskFromRankOrFile_rank_digit_zero :
    "12345678".data.map GetMaskFromRankOrFile = [0, 0, 0, 0, 0, 0, 0, 0] ∧
    "12345678".data.map (fun c => 0xFF <<< (8 * (c.toNat - '1'.toNat)))
      = [0xFF, 0xFF00, 0xFF0000, 0xFF000000, 0xFF00000000, 0xFF0000000000,
         0xFF000000000000, 0xFF00000000000000] ∧
    "abcdefgh".data.map GetMaskFromRankOrFile
      = [0x0101010101010101, 0x0202020202020202, 0x0404040404040404, 0x0808080808080808,
         0x1010101010101010, 0x2020202020202020, 0x4040404040404040, 0x8080808080808080] := by
  decide

/-! ## Splitting a string -/

/-- What `find` returns for a one-character delimiter: `none` when the character does not occur,
and otherwise the position of its first occurrence. -/
theorem find_single (d : Char) : ∀ t : List Char,
    (find t [d] = none ∧ d ∉ t) ∨
    (∃ i, find t [d] = some i ∧ i < t.length ∧ d ∉ t.take i ∧
      t = t.take i ++ d :: t.drop (i + 1)) := by
  intro t
  induction t with
  | nil =>
    left
    exact ⟨by simp [find], by simp⟩
  | cons c t ih =>
    by_cases hc : d = c
    · right
      refine ⟨0, ?_, by simp, by simp, by simp [hc]⟩
      simp [find, hc]
    · have hpre : ¬ ([d].isPrefixOf (c :: t) = true) := by
        simp [List.isPrefixOf, hc]
      rcases ih with ⟨hn, hnot⟩ | ⟨i, hi, hlt, hnot, heq⟩
      · left
        refine ⟨?_, ?_⟩
        · unfold find
          rw [if_neg hpre, hn]
          rfl
        · simp only [List.mem_cons, not_or]
          exact ⟨hc, hnot⟩
      · right
        refine ⟨i + 1, ?_, by simpa using hlt, ?_, ?_⟩
        · unfold find
          rw [if_neg hpre, hi]
          rfl
        · simp only [List.take_succ_cons, List.mem_cons, not_or]
          exact ⟨hc, hnot⟩
        · simp only [List.take_succ_cons, List.drop_succ_cons, List.cons_append]
          rw [← heq]

theorem intercalate_singleton (d : Char) (x : List Char) : [d].intercalate [x] = x := by
  simp [List.intercalate]

theorem intercalate_cons (d : Char) (x : List Char) (ps : List (List Char)) (hps : ps ≠ []) :
    [d].intercalate (x :: ps) = x ++ d :: [d].intercalate ps := by
  cases ps with
  | nil => exact absurd rfl hps
  | cons y ys => simp [List.intercalate]

theorem getLast?_append_cons_ne (d : Char) (pre rest : List Char) (hrest : rest ≠ []) :
    (pre ++ d :: rest).getLast? = rest.getLast? ∧
    (pre ++ d :: rest).dropLast = pre ++ d :: rest.dropLast := by
  cases rest with
  | nil => exact absurd rfl hrest
  | cons r rs =>
    constructor
    · rw [List.getLast?_append, List.getLast?_cons_cons,
        List.getLast?_eq_getLast (r :: rs) (by simp)]
      rfl
    · rw [List.dropLast_append_of_ne_nil _ (by simp)]
      simp

/-- The loop of `split` for a one-character delimiter, with enough fuel: it returns, appending
to `result` a non-empty list of pieces free of the delimiter whose join is `tmpStr` without a
final delimiter. -/
theorem splitLoop_single (d : Char) : ∀ (fuel : Nat) (t : List Char) (acc : List String),
    t.length < fuel →
    ∃ ps : List String, splitLoop [d] fuel t acc = some (acc ++ ps) ∧ ps ≠ [] ∧
      (∀ p ∈ ps, d ∉ p.data) ∧
      [d].intercalate (ps.map String.data)
        = (if t.getLast? = some d then t.dropLast else t) := by
  intro fuel
  induction fuel with
  | zero => intro t acc h; exact absurd h (Nat.not_lt_zero _)
  | succ fuel ih =>
    intro t acc hlen
    rcases find_single d t with ⟨hn, hnot⟩ | ⟨i, hi, hlt, hnot, heq⟩
    · refine ⟨[String.mk t], ?_, by simp, ?_, ?_⟩
      · unfold splitLoop
        simp only [hn]
      · intro p hp
        simp only [List.mem_singleton] at hp
        rw [hp]
        exact hnot
      · have hlast : ¬ (t.getLast? = some d) := by
          intro h
          obtain ⟨ys, hys⟩ := List.getLast?_eq_some_iff.mp h
          apply hnot
          rw [hys]
          simp
        rw [if_neg hlast]
        simp [List.intercalate]
    · by_cases hrest : t.drop (i + 1) = []
      · refine ⟨[String.mk (t.take i)], ?_, by simp, ?_, ?_⟩
        · unfold splitLoop
          simp only [hi]
          rw [if_pos (by omega : i + 1 ≤ t.length)]
          simp only [hrest, List.isEmpty_nil, not_true_eq_false, if_false]
        · intro p hp
          simp only [List.mem_singleton] at hp
          rw [hp]
          exact hnot
        · have ht : t = t.take i ++ [d] := by
            conv_lhs => rw [heq, hrest]
          have hlast : t.getLast? = some d := by
            rw [ht]; simp
          rw [if_pos hlast]
          conv_rhs => rw [ht]
          simp [List.intercalate]
      · have hlen2 : (t.drop (i + 1)).length < fuel := by
          rw [List.length_drop]; omega
        obtain ⟨ps, hps, hne, hfree, hjoin⟩ :=
          ih (t.drop (i + 1)) (acc ++ [String.mk (t.take i)]) hlen2
        refine ⟨String.mk (t.take i) :: ps, ?_, by simp, ?_, ?_⟩
        · unfold splitLoop
          simp only [hi]
          rw [if_pos (by omega : i + 1 ≤ t.length)]
          have hemp : ¬ (t.drop (i + 1)).isEmpty = true := by
            rw [List.isEmpty_iff]; exact hrest
          rw [if_pos hemp, hps, List.append_assoc]
          rfl
        · intro p hp
          simp only [List.mem_cons] at hp
          rcases hp with rfl | hp
          · exact hnot
          · exact hfree p hp
        · have hmap : ps.map String.data ≠ [] := by
            intro h
            exact hne (List.map_eq_nil_iff.mp h)
          have hsplit := getLast?_append_cons_ne d (t.take i) (t.drop (i + 1)) hrest
          rw [← heq] at hsplit
          rw [List.map_cons, intercalate_cons d _ _ hmap, hjoin, hsplit.1]
          by_cases hl : (t.drop (i + 1)).getLast? = some d
          · rw [if_pos hl, if_pos hl, hsplit.2]
          · rw [if_neg hl, if_neg hl]
            exact heq.symm

/-- Claim C26: for every string `s` and every one-character delimiter `d`, `split(s, d)`
returns a non-empty list of strings none of which contains `d`, and joining that list with `d`
gives back `s` when `s` does not end with `d`, and `s` without its final `d` when it does. -/
theorem split_join (s : String) (d : Char) :
    ∃ parts : List String, split s (String.mk [d]) = some parts ∧ parts ≠ [] ∧
      (∀ p ∈ parts, d ∉ p.data) ∧
      [d].intercalate (parts.map String.data)
        = (if s.data.getLast? = some d then s.data.dropLast else s.data) := by
  obtain ⟨ps, hps, hne, hfree, hjoin⟩ :=
    splitLoop_single d (s.length + 1) s.data [] (Nat.lt_succ_self _)
  refine ⟨ps, ?_, hne, hfree, hjoin⟩
  unfold split
  rw [hps, List.nil_append]

/-- Witness for C26: a string that ends with the delimiter and has an empty piece. -/
theorem split_join_witness :
    split "a,b,,c," "," = some ["a", "b", "", "c"] ∧
    split "" "," = some [""] ∧
    ∃ parts : List String, split "a,b,,c," (String.mk [',']) = some parts ∧ parts ≠ [] ∧
      (∀ p ∈ parts, ',' ∉ p.data) ∧
      [','].intercalate (parts.map String.data)
        = (if "a,b,,c,".data.getLast? = some ',' then "a,b,,c,".data.dropLast
            else "a,b,,c,".data) :=
  ⟨by decide, by decide, split_join "a,b,,c," ','⟩

/-! ## The principal variation -/

/-- At a node without legal moves `NegaMax` leaves the search state, and with it every slot of
`pv`, as it found it. -/
theorem NegaMax_no_moves_state (R : Rules) (depth : Nat) (st : SearchState)
    (h : R.GenerateMoves st.position = []) : (NegaMax R (depth + 1) st).2 = st := by
  unfold NegaMax
  simp only [h, List.length_nil, gt_iff_lt, lt_self_iff_false, if_false]
  split
  · rfl
  · split <;> rfl

theorem pvSampleRules_reversible : Reversible pvSampleRules := by
  intro b m hm
  by_cases h0 : b = pvSample0
  · subst h0
    have hg : pvSampleRules.GenerateMoves pvSample0 = [moveKg3, moveRe1] := by decide
    rw [hg] at hm
    simp only [List.mem_cons, List.mem_singleton, List.not_mem_nil, or_false] at hm
    rcases hm with rfl | rfl <;> decide
  · by_cases h1 : b = pvSampleQuiet
    · subst h1
      have hg : pvSampleRules.GenerateMoves pvSampleQuiet = [movePd6] := by decide
      rw [hg] at hm
      simp only [List.mem_singleton] at hm
      subst hm
      decide
    · have : pvSampleRules.GenerateMoves b = [] := by
        simp [pvSampleRules, h0, h1]
      rw [this] at hm
      exact absurd hm (List.not_mem_nil _)

/-- Claim C21 (failing input): from the sample position, with the generator listing Kg2-g3
before the mating move Ra1-e1, the iteration of depth 2 reports the line `a1e1 d7d6`.  Slot 1
holds the best root move Ra1-e1, but slot 0 holds d7-d6, the reply found under Kg2-g3: the
position after Ra1-e1 has no legal move, `NegaMax` selected no move there, and d7d6 is not
among its generated moves. -/
theorem pv_keeps_reply_of_other_move :
    Reversible pvSampleRules ∧ pvSampleGlobals.randomMode = false ∧
    pvSampleRules.GenerateMoves pvSample0 = [moveKg3, moveRe1] ∧
    pvSampleRules.Make pvSample0 moveRe1 = pvSampleMate ∧
    pvSampleRules.GenerateMoves pvSampleMate = [] ∧
    GenerateXBoardNotation moveRe1 = "a1e1" ∧ GenerateXBoardNotation movePd6 = "d7d6" ∧
    (NegaMaxRoot pvSampleRules pvSampleGlobals sampleOracle pvSample0 [] moveKg3).map
      (fun r => (r.bestMove, r.depth, reportLines r.output))
      = some (moveRe1, 2, [["g2g3"], ["a1e1", "d7d6"]]) :=
  ⟨pvSampleRules_reversible, rfl, by decide, by decide, by decide, by decide, by decide,
   by decide⟩

end TuxedoCat
